/-
  Collisions (Smilei): binary Coulomb collisions between weighted relativistic
  macro-particles, src/Collisions/Collisions.cpp.

  The first part embeds the code: the pairing of the particles of a bin, the densities of
  the two groups, the relativistic kernel of one collision (change to the frame of the
  centre of mass, deflection, return to the lab frame), Nanbu's sampler of the deflection
  angle, the validation of the input records, the orientation of the two groups, the calls
  of the ionization object, the Coulomb logarithm and the collision parameter of a pair,
  the Debye length of a bin, and the debug output (statistics and name of the timestep
  group).  Integers are naturals, `double` values
  are reals (rationals where the code only compares or adds them), every value returned by
  `rand()` is an explicit argument and every `ERROR` exit is an `Except.error`.

  The second part proves the properties.
-/
import Mathlib

namespace Smilei

/-! ## Part 1. The embedding -/

/-! ### Pairs of a bin (`collide`, lines 454-471) -/

/-- What the pairing stage leaves for one bin: the number of pairs, the two index arrays
(flat indices over the particles of each group in the bin) and `N2max`. -/
structure Pairing where
  npairs : Nat
  index1 : List Nat
  index2 : List Nat
  N2max : Nat
deriving DecidableEq, Repr

/-- The value of `(int) ceil(((double)npart1)/2.)`. -/
def ceilHalf (n : Nat) : Nat := n / 2 + n % 2

/-- Lines 456-471. `shuffled` is `index1` as `random_shuffle` leaves it (a permutation of
`0 .. npart1-1`). Inside one group `index2` is read from the shuffled array before
`index1` is cut to `npairs` entries. -/
def buildPairs (intra_collisions : Bool) (npart1 npart2 : Nat) (shuffled : List Nat) :
    Pairing :=
  if intra_collisions then
    let npairs := ceilHalf npart1
    { npairs := npairs
      index2 := (List.range npairs).map (fun i => shuffled.getD ((i + npairs) % npart1) 0)
      index1 := shuffled.take npairs
      N2max := npart1 - npairs }
  else
    { npairs := npart1
      index2 := (List.range npart1).map (fun i => i % npart2)
      index1 := shuffled
      N2max := npart2 }

/-! ### Densities of a bin (`collide`, lines 476-503) -/

/-- The loop `for (ispec=0 ; i>=np[ispec]; ispec++) i -= np[ispec];` of lines 483 and 488,
started at `ispec`; `none` when it runs past the end of `np`. -/
def decodeLoop : List Nat → Nat → Nat → Option (Nat × Nat)
  | [], _, _ => none
  | n :: rest, ispec, i =>
    if i ≥ n then decodeLoop rest (ispec + 1) (i - n) else some (ispec, i)

/-- Lines 482-484: species (position in the group) and index in the particle array of the
particle with flat index `idx`. -/
def findParticle (np bmin : List Nat) (idx : Nat) : Option (Nat × Nat) :=
  (decodeLoop np 0 idx).map (fun r => (r.1, r.2 + bmin.getD r.1 0))

/-- The densities `n1`, `n2` and `n12`. -/
structure Densities (K : Type) where
  n1 : K
  n2 : K
  n12 : K

section density
variable {K : Type} [LinearOrderedField K]

/-- The weights `p1->weight(i1)` and `p2->weight(i2)` of pair `i`; `weight1 ispec k` is the
weight of particle `k` of the species number `ispec` of group 1. -/
def pairWeights (P : Pairing) (np1 bmin1 np2 bmin2 : List Nat)
    (weight1 weight2 : Nat → Nat → K) (i : Nat) : Option (K × K) :=
  match findParticle np1 bmin1 (P.index1.getD i 0),
        findParticle np2 bmin2 (P.index2.getD i 0) with
  | some (ispec1, i1), some (ispec2, i2) => some (weight1 ispec1 i1, weight2 ispec2 i2)
  | _, _ => none

/-- One turn of the loop of lines 480-499. -/
def densityStep (P : Pairing) (np1 bmin1 np2 bmin2 : List Nat)
    (weight1 weight2 : Nat → Nat → K) (acc : Densities K) (i : Nat) :
    Option (Densities K) :=
  match pairWeights P np1 bmin1 np2 bmin2 weight1 weight2 i with
  | none => none
  | some (W1, W2) =>
    let not_duplicated_particle : Bool := decide (i < P.N2max)
    some { n1 := acc.n1 + W1
           n2 := if not_duplicated_particle then acc.n2 + W2 else acc.n2
           n12 := acc.n12 + min W1 W2 }

/-- Lines 477-503: the densities of a bin whose groups hold `np1` and `np2` particles per
species. -/
def binDensities (intra_collisions : Bool) (np1 bmin1 np2 bmin2 : List Nat)
    (weight1 weight2 : Nat → Nat → K) (shuffled : List Nat) (n_cell_per_cluster : Nat) :
    Option (Densities K) :=
  let P := buildPairs intra_collisions np1.sum np2.sum shuffled
  let n_cluster_per_cell : K := 1 / (n_cell_per_cluster : K)
  match (List.range P.npairs).foldlM
      (densityStep P np1 bmin1 np2 bmin2 weight1 weight2) { n1 := 0, n2 := 0, n12 := 0 } with
  | none => none
  | some d =>
    let d : Densities K :=
      if intra_collisions then { d with n1 := d.n1 + d.n2, n2 := d.n1 + d.n2 } else d
    some { n1 := d.n1 * n_cluster_per_cell
           n2 := d.n2 * n_cluster_per_cell
           n12 := d.n12 * n_cluster_per_cell }

/-- Sum of the weights of all particles of a group in the bin. -/
def groupWeight (np bmin : List Nat) (weight : Nat → Nat → K) : K :=
  ((List.range np.length).map (fun ispec =>
    ((List.range (np.getD ispec 0)).map
      (fun k => weight ispec (bmin.getD ispec 0 + k))).sum)).sum

/-- Weight of the particle with flat index `idx` (zero if the decoding loop fails). -/
def decodedWeight (np bmin : List Nat) (weight : Nat → Nat → K) (idx : Nat) : K :=
  match findParticle np bmin idx with
  | some (ispec, i) => weight ispec i
  | none => 0

end density

/-! ### One collision (`collide`, lines 535-630) -/

/-- A momentum or velocity with its three components (`momentum(0..2, i)`). -/
@[ext]
structure Vec3 where
  x : ℝ
  y : ℝ
  z : ℝ

/-- Scalar product. -/
def Vec3.dot (a b : Vec3) : ℝ := a.x * b.x + a.y * b.y + a.z * b.z

/-- Line 535: mass ratio `m12 = m1 / m2`. -/
noncomputable def m12 (m1 m2 : ℝ) : ℝ := m1 / m2

/-- Lines 540-541: Lorentz factor `sqrt(1 + px^2 + py^2 + pz^2)`. -/
noncomputable def gammaOf (p : Vec3) : ℝ := Real.sqrt (1 + p.x ^ 2 + p.y ^ 2 + p.z ^ 2)

/-- Line 542. -/
noncomputable def gamma12 (m1 m2 : ℝ) (p1 p2 : Vec3) : ℝ :=
  m12 m1 m2 * gammaOf p1 + gammaOf p2

/-- Line 543. -/
noncomputable def gamma12_inv (m1 m2 : ℝ) (p1 p2 : Vec3) : ℝ := 1 / gamma12 m1 m2 p1 p2

/-- Lines 548-550: velocity of the centre of mass in the lab frame. -/
noncomputable def COM_v (m1 m2 : ℝ) (p1 p2 : Vec3) : Vec3 :=
  { x := (m12 m1 m2 * p1.x + p2.x) * gamma12_inv m1 m2 p1 p2
    y := (m12 m1 m2 * p1.y + p2.y) * gamma12_inv m1 m2 p1 p2
    z := (m12 m1 m2 * p1.z + p2.z) * gamma12_inv m1 m2 p1 p2 }

/-- Line 551. -/
noncomputable def COM_vsquare (m1 m2 : ℝ) (p1 p2 : Vec3) : ℝ :=
  (COM_v m1 m2 p1 p2).x * (COM_v m1 m2 p1 p2).x + (COM_v m1 m2 p1 p2).y * (COM_v m1 m2 p1 p2).y
    + (COM_v m1 m2 p1 p2).z * (COM_v m1 m2 p1 p2).z

/-- Line 552: `pow(1.-COM_vsquare, -0.5)`. -/
noncomputable def COM_gamma (m1 m2 : ℝ) (p1 p2 : Vec3) : ℝ :=
  (1 - COM_vsquare m1 m2 p1 p2) ^ (-0.5 : ℝ)

/-- Line 556. -/
noncomputable def term1 (m1 m2 : ℝ) (p1 p2 : Vec3) : ℝ :=
  (COM_gamma m1 m2 p1 p2 - 1) / COM_vsquare m1 m2 p1 p2

/-- Line 557. -/
noncomputable def vcv1 (m1 m2 : ℝ) (p1 p2 : Vec3) : ℝ :=
  ((COM_v m1 m2 p1 p2).x * p1.x + (COM_v m1 m2 p1 p2).y * p1.y + (COM_v m1 m2 p1 p2).z * p1.z)
    / gammaOf p1

/-- Line 558. -/
noncomputable def vcv2 (m1 m2 : ℝ) (p1 p2 : Vec3) : ℝ :=
  ((COM_v m1 m2 p1 p2).x * p2.x + (COM_v m1 m2 p1 p2).y * p2.y + (COM_v m1 m2 p1 p2).z * p2.z)
    / gammaOf p2

/-- Line 559. -/
noncomputable def term2 (m1 m2 : ℝ) (p1 p2 : Vec3) : ℝ :=
  (term1 m1 m2 p1 p2 * vcv1 m1 m2 p1 p2 - COM_gamma m1 m2 p1 p2) * gammaOf p1

/-- Lines 560-562: momentum of particle 1 in the COM frame, `(px_COM, py_COM, pz_COM)`. -/
noncomputable def pCOM (m1 m2 : ℝ) (p1 p2 : Vec3) : Vec3 :=
  { x := p1.x + term2 m1 m2 p1 p2 * (COM_v m1 m2 p1 p2).x
    y := p1.y + term2 m1 m2 p1 p2 * (COM_v m1 m2 p1 p2).y
    z := p1.z + term2 m1 m2 p1 p2 * (COM_v m1 m2 p1 p2).z }

/-- Line 563. -/
noncomputable def p2_COM (m1 m2 : ℝ) (p1 p2 : Vec3) : ℝ :=
  (pCOM m1 m2 p1 p2).x * (pCOM m1 m2 p1 p2).x + (pCOM m1 m2 p1 p2).y * (pCOM m1 m2 p1 p2).y
    + (pCOM m1 m2 p1 p2).z * (pCOM m1 m2 p1 p2).z

/-- Line 564. -/
noncomputable def p_COM (m1 m2 : ℝ) (p1 p2 : Vec3) : ℝ := Real.sqrt (p2_COM m1 m2 p1 p2)

/-- Line 565. -/
noncomputable def gamma1_COM (m1 m2 : ℝ) (p1 p2 : Vec3) : ℝ :=
  (1 - vcv1 m1 m2 p1 p2) * COM_gamma m1 m2 p1 p2 * gammaOf p1

/-- Line 566. -/
noncomputable def gamma2_COM (m1 m2 : ℝ) (p1 p2 : Vec3) : ℝ :=
  (1 - vcv2 m1 m2 p1 p2) * COM_gamma m1 m2 p1 p2 * gammaOf p2

/-- Lines 591-610: the deflection of the COM momentum `pc` (`p` is `p_COM`) by the angles
`(χ, φ)`; `phi` is `twoPi * ((double)rand() / RAND_MAX)`. -/
noncomputable def deflect (pc : Vec3) (p cosX phi : ℝ) : Vec3 :=
  let sinX := Real.sqrt (1 - cosX * cosX)
  let sinXcosPhi := sinX * Real.cos phi
  let sinXsinPhi := sinX * Real.sin phi
  let p_perp := Real.sqrt (pc.x * pc.x + pc.y * pc.y)
  if p_perp > 1.e-10 * p then
    let inv_p_perp := 1 / p_perp
    { x := (pc.x * pc.z * sinXcosPhi - pc.y * p * sinXsinPhi) * inv_p_perp + pc.x * cosX
      y := (pc.y * pc.z * sinXcosPhi + pc.x * p * sinXsinPhi) * inv_p_perp + pc.y * cosX
      z := -p_perp * sinXcosPhi + pc.z * cosX }
  else
    { x := p * sinXcosPhi
      y := p * sinXsinPhi
      z := p * cosX }

/-- Lines 618 and 620-623: back-boost of the deflected COM momentum for particle 1
(`term6 = term1*vcp + gamma1_COM*COM_gamma`). -/
def backBoost1 (v : Vec3) (term1 gamma1_COM COM_gamma : ℝ) (newp : Vec3) : Vec3 :=
  let vcp := v.x * newp.x + v.y * newp.y + v.z * newp.z
  let term6 := term1 * vcp + gamma1_COM * COM_gamma
  { x := newp.x + v.x * term6, y := newp.y + v.y * term6, z := newp.z + v.z * term6 }

/-- Lines 618 and 626-629: back-boost for particle 2
(`term6 = -m12*term1*vcp + gamma2_COM*COM_gamma`). -/
def backBoost2 (v : Vec3) (m12 term1 gamma2_COM COM_gamma : ℝ) (newp : Vec3) : Vec3 :=
  let vcp := v.x * newp.x + v.y * newp.y + v.z * newp.z
  let term6 := -m12 * term1 * vcp + gamma2_COM * COM_gamma
  { x := -m12 * newp.x + v.x * term6, y := -m12 * newp.y + v.y * term6,
    z := -m12 * newp.z + v.z * term6 }

/-- Lines 615-630: the momenta of particles 1 and 2 after the collision; `U` is the
acceptance draw `(double)rand() / RAND_MAX`. -/
noncomputable def backToLab (v : Vec3) (m12 term1 gamma1_COM gamma2_COM COM_gamma : ℝ)
    (W1 W2 U : ℝ) (p1 p2 newp : Vec3) : Vec3 × Vec3 :=
  (if U < W2 / W1 then backBoost1 v term1 gamma1_COM COM_gamma newp else p1,
   if U < W1 / W2 then backBoost2 v m12 term1 gamma2_COM COM_gamma newp else p2)

/-- Momentum stored for particle 1 when its deflection is applied. -/
noncomputable def deflected1 (m1 m2 : ℝ) (p1 p2 : Vec3) (cosX phi : ℝ) : Vec3 :=
  backBoost1 (COM_v m1 m2 p1 p2) (term1 m1 m2 p1 p2) (gamma1_COM m1 m2 p1 p2)
    (COM_gamma m1 m2 p1 p2) (deflect (pCOM m1 m2 p1 p2) (p_COM m1 m2 p1 p2) cosX phi)

/-- Momentum stored for particle 2 when its deflection is applied. -/
noncomputable def deflected2 (m1 m2 : ℝ) (p1 p2 : Vec3) (cosX phi : ℝ) : Vec3 :=
  backBoost2 (COM_v m1 m2 p1 p2) (m12 m1 m2) (term1 m1 m2 p1 p2) (gamma2_COM m1 m2 p1 p2)
    (COM_gamma m1 m2 p1 p2) (deflect (pCOM m1 m2 p1 p2) (p_COM m1 m2 p1 p2) cosX phi)

/-- One collision once the deflection cosine `cosX`, the azimuth `phi` and the acceptance
draw `U` are sampled. -/
noncomputable def scatter (m1 m2 W1 W2 : ℝ) (p1 p2 : Vec3) (cosX phi U : ℝ) : Vec3 × Vec3 :=
  backToLab (COM_v m1 m2 p1 p2) (m12 m1 m2) (term1 m1 m2 p1 p2) (gamma1_COM m1 m2 p1 p2)
    (gamma2_COM m1 m2 p1 p2) (COM_gamma m1 m2 p1 p2) W1 W2 U p1 p2
    (deflect (pCOM m1 m2 p1 p2) (p_COM m1 m2 p1 p2) cosX phi)

/-! ### Nanbu's sampler (`cos_chi`, lines 700-723) -/

/-- The function `Collisions::cos_chi(s)`; `U` is the value of `(double)rand() / RAND_MAX`
drawn inside. -/
noncomputable def cos_chi (s U : ℝ) : ℝ :=
  if s < 0.1 then
    let U := if U < 0.0001 then 0.0001 else U
    1 + s * Real.log U
  else if s < 3 then
    let invA := 0.00569578 +
      (0.95602 + (-0.508139 + (0.479139 + (-0.12789 + 0.0238957 * s) * s) * s) * s) * s
    let A := 1 / invA
    invA * Real.log (Real.exp (-A) + 2 * U * Real.sinh A)
  else if s < 6 then
    let A := 3 * Real.exp (-s)
    (1 / A) * Real.log (Real.exp (-A) + 2 * U * Real.sinh A)
  else 2 * U - 1

/-! ### Reading the input (`create`, lines 124-260) -/

/-- The fields of a `Species` read by `Collisions::create`. -/
structure SpeciesInfo where
  mass : ℚ
  atomic_number : Nat

/-- One `Collisions` block of the input deck, its species names already resolved by
`FindSpecies`; `none` is a keyword left unset (`extract` then keeps the default). -/
structure CollisionsInput where
  species1 : List Nat
  species2 : List Nat
  coulomb_log : Option ℚ
  debug_every : Option Int
  ionizing : Option Bool

/-- The arguments `create` hands to the `Collisions` constructor. -/
structure Collisions where
  n_collisions : Nat
  species_group1 : List Nat
  species_group2 : List Nat
  coulomb_log : ℚ
  intra_collisions : Bool
  debug_every : Int
  atomic_number : Int
  ionizing : Bool
deriving DecidableEq, Repr

/-- The `ERROR(...)` exits of `Collisions::create`. -/
inductive CreateError where
  | referenceFrequency
  | noValidSpecies1 (n_collisions : Nat)
  | noValidSpecies2 (n_collisions : Nat)
  | collideWithItself (n_collisions : Nat) (species : Nat)
  | ionizeIntra (n_collisions : Nat)
  | sameMasses (n_collisions : Nat) (group : Nat)
  | mixedElectronsIons (n_collisions : Nat) (group : Nat)
  | sameAtomicNumber (n_collisions : Nat) (group : Nat)
  | requiresElectrons (n_collisions : Nat)
  | requiresIons (n_collisions : Nat)
deriving DecidableEq, Repr

/-- Lines 159-175: the two groups must not be empty, and are equal or without common
species; the result is the flag `intra`. -/
def checkGroups (n_collisions : Nat) (sgroup0 sgroup1 : List Nat) : Except CreateError Bool :=
  if sgroup0.length = 0 then .error (.noValidSpecies1 n_collisions)
  else if sgroup1.length = 0 then .error (.noValidSpecies2 n_collisions)
  else if sgroup0 ≠ sgroup1 then
    match sgroup0.find? (fun a => sgroup1.contains a) with
    | some a => .error (.collideWithItself n_collisions a)
    | none => .ok false
  else .ok true

/-- Lines 195-210: the other species of a group against its first species `s0`. -/
def checkOthers (vecSpecies : Nat → SpeciesInfo) (n_collisions g : Nat) (s0 : SpeciesInfo) :
    List Nat → Except CreateError Unit
  | [] => .ok ()
  | i :: rest =>
    let s := vecSpecies i
    if s.mass ≠ s0.mass then .error (.sameMasses n_collisions (g + 1))
    else if s.atomic_number ≠ s0.atomic_number then
      if s.atomic_number * s0.atomic_number = 0 then
        .error (.mixedElectronsIons n_collisions (g + 1))
      else .error (.sameAtomicNumber n_collisions (g + 1))
    else checkOthers vecSpecies n_collisions g s0 rest

def checkIonGroup (vecSpecies : Nat → SpeciesInfo) (n_collisions g : Nat)
    (sgroup : List Nat) : Except CreateError Unit :=
  checkOthers vecSpecies n_collisions g (vecSpecies (sgroup.headD 0)) sgroup.tail

/-- Lines 189-220: the checks of an ionizing record; the result is `Z`. -/
def ionizationZ (vecSpecies : Nat → SpeciesInfo) (n_collisions : Nat) (intra : Bool)
    (sgroup0 sgroup1 : List Nat) : Except CreateError Int :=
  if intra then .error (.ionizeIntra n_collisions)
  else
    match checkIonGroup vecSpecies n_collisions 0 sgroup0 with
    | .error e => .error e
    | .ok _ =>
      match checkIonGroup vecSpecies n_collisions 1 sgroup1 with
      | .error e => .error e
      | .ok _ =>
        let Z0 : Int := (vecSpecies (sgroup0.headD 0)).atomic_number
        let Z1 : Int := (vecSpecies (sgroup1.headD 0)).atomic_number
        let Z : Int := if Z0 > Z1 then Z0 else Z1
        if Z0 * Z1 ≠ 0 then .error (.requiresElectrons n_collisions)
        else if Z = 0 then .error (.requiresIons n_collisions)
        else .ok Z

/-- The body of the loop of `Collisions::create` for the record number `n_collisions`. -/
def createOne (vecSpecies : Nat → SpeciesInfo) (n_collisions : Nat) (input : CollisionsInput) :
    Except CreateError Collisions :=
  match checkGroups n_collisions input.species1 input.species2 with
  | .error e => .error e
  | .ok intra =>
    let clog := input.coulomb_log.getD 0
    let debug_every := input.debug_every.getD 0
    let ionizing := input.ionizing.getD false
    match (if ionizing then
        ionizationZ vecSpecies n_collisions intra input.species1 input.species2
      else .ok 0) with
    | .error e => .error e
    | .ok Z =>
      .ok { n_collisions := n_collisions
            species_group1 := input.species1
            species_group2 := input.species2
            coulomb_log := clog
            intra_collisions := intra
            debug_every := debug_every
            atomic_number := Z
            ionizing := ionizing }

/-- The test `debug_every > 0 && itime % debug_every == 0` of `createTimestep` (line 359)
and `collide` (line 405). -/
def isDebugStep (debug_every itime : Int) : Bool :=
  decide (debug_every > 0 ∧ itime.tmod debug_every = 0)

/-! ### Orientation of the groups (`collide`, lines 401-452) -/

/-- The variables of the orientation loop: the groups `*sg1` and `*sg2`, the arrays
`bmin1`, `np1`, `bmin2`, `np2`, the totals `npart1`, `npart2`, and (a ghost) the number of
exchanges of the groups made so far. -/
structure Orientation where
  sg1 : List Nat
  sg2 : List Nat
  bmin1 : List Nat
  np1 : List Nat
  bmin2 : List Nat
  np2 : List Nat
  npart1 : Nat
  npart2 : Nat
  exchanges : Nat
deriving DecidableEq, Repr

/-- Lines 424-448: the loop `for (i=0; i<2; i++)`, with `iterations` turns left; `bmin s`
and `bmax s` are `vecSpecies[s]->bmin[ibin]` and `vecSpecies[s]->bmax[ibin]` (with
`bmin s ≤ bmax s`, the particles of the bin being those of the range between them). -/
def orientLoop (bmin bmax : Nat → Nat) : Nat → Orientation → Orientation
  | 0, st => st
  | iterations + 1, st =>
    let bmin1 := st.sg1.map bmin
    let np1 := st.sg1.map (fun s => bmax s - bmin s)
    let bmin2 := st.sg2.map bmin
    let np2 := st.sg2.map (fun s => bmax s - bmin s)
    let npart1 := np1.sum
    let npart2 := np2.sum
    if npart2 ≤ npart1 then
      { st with bmin1 := bmin1, np1 := np1, bmin2 := bmin2, np2 := np2,
                npart1 := npart1, npart2 := npart2 }
    else
      orientLoop bmin bmax iterations
        { sg1 := st.sg2, sg2 := st.sg1, bmin1 := bmin1, np1 := np1, bmin2 := bmin2,
          np2 := np2, npart1 := npart1, npart2 := npart2, exchanges := st.exchanges + 1 }

/-- Lines 424-471 for one bin: `none` when the bin is skipped (`continue` of line 452),
the pairs of the bin otherwise; `shuffle n` is what `random_shuffle` makes of
`0 .. n-1`. -/
def binPairs (bmin bmax : Nat → Nat) (intra_collisions : Bool) (shuffle : Nat → List Nat)
    (st : Orientation) : Option Pairing :=
  let r := orientLoop bmin bmax 2 st
  if r.npart1 = 0 ∨ r.npart2 = 0 then none
  else some (buildPairs intra_collisions r.npart1 r.npart2 (shuffle r.npart1))

/-! ### Calls of the ionization object (`collide`, lines 473-656) -/

/-- The calls made to `Ionization`, and the store of the momenta of a pair (lines
619-630), in a call of `collide`. -/
inductive Event where
  | prepare1 (ibin : Nat)
  | prepare2 (ibin i : Nat) (not_duplicated_particle : Bool)
  | prepare3 (ibin : Nat)
  | momenta (ibin i : Nat)
  | apply (ibin i : Nat)
  | finish
deriving DecidableEq, Repr

/-- Lines 473-641: the events of a bin that is not skipped. -/
def binEvents (ibin : Nat) (P : Pairing) : List Event :=
  [Event.prepare1 ibin] ++
  (List.range P.npairs).map (fun i => Event.prepare2 ibin i (decide (i < P.N2max))) ++
  [Event.prepare3 ibin] ++
  (List.range P.npairs).flatMap (fun i => [Event.momenta ibin i, Event.apply ibin i])

/-- The loop on the bins from bin `ibin` on; a bin is `none` when it is skipped. -/
def binsEvents : Nat → List (Option Pairing) → List Event
  | _, [] => []
  | ibin, none :: rest => binsEvents (ibin + 1) rest
  | ibin, some P :: rest => binEvents ibin P ++ binsEvents (ibin + 1) rest

/-- The events of a call of `collide`: the loop on the bins, then line 656. -/
def collideEvents (bins : List (Option Pairing)) : List Event :=
  binsEvents 0 bins ++ [Event.finish]

/-- The bin an event belongs to. -/
def Event.bin : Event → Option Nat
  | .prepare1 ibin => some ibin
  | .prepare2 ibin _ _ => some ibin
  | .prepare3 ibin => some ibin
  | .momenta ibin _ => some ibin
  | .apply ibin _ => some ibin
  | .finish => none

/-! ### Random draws -/

/-- The value of `(double)rand() / RAND_MAX` (lines 593, 615 and 705) when `rand()` returns
`r`; `RAND_MAX` is the constant of the C library. -/
def uniformDraw {K : Type} [LinearOrderedField K] (RAND_MAX r : Nat) : K :=
  (r : K) / (RAND_MAX : K)

/-- Line 593: `phi = twoPi * ((double)rand() / RAND_MAX)` with `twoPi = 2. * M_PI`. -/
noncomputable def azimuth (RAND_MAX r : Nat) : ℝ :=
  (2 * Real.pi) * uniformDraw RAND_MAX r

/-! ### The sampler as the specification states it -/

/-- The sampler of the deflection cosine as the specification words it (section 4.4.1). -/
noncomputable def nanbuCosChi (s U : ℝ) : ℝ :=
  if s < 0.1 then 1 + s * Real.log (max U (1e-4))
  else if 0.1 ≤ s ∧ s < 3 then
    let invA := 0.00569578 + 0.95602 * s - 0.508139 * s ^ 2 + 0.479139 * s ^ 3
      - 0.12789 * s ^ 4 + 0.0238957 * s ^ 5
    let A := 1 / invA
    invA * Real.log (Real.exp (-A) + 2 * U * Real.sinh A)
  else if 3 ≤ s ∧ s < 6 then
    let A := 3 * Real.exp (-s)
    (1 / A) * Real.log (Real.exp (-A) + 2 * U * Real.sinh A)
  else 2 * U - 1

/-! ### Coulomb logarithm of a pair (`collide`, lines 416-417, 536, 568-579) -/

/-- Line 536: `qqm = q1 q2 / m1`, the charges being those of the two particles. -/
noncomputable def qqm (m1 q1 q2 : ℝ) : ℝ := q1 * q2 / m1

/-- Line 569. -/
noncomputable def term3 (m1 m2 : ℝ) (p1 p2 : Vec3) : ℝ :=
  COM_gamma m1 m2 p1 p2 * gamma12_inv m1 m2 p1 p2

/-- Line 570. -/
noncomputable def term4 (m1 m2 : ℝ) (p1 p2 : Vec3) : ℝ :=
  gamma1_COM m1 m2 p1 p2 * gamma2_COM m1 m2 p1 p2

/-- Line 571. -/
noncomputable def term5 (m1 m2 : ℝ) (p1 p2 : Vec3) : ℝ :=
  term4 m1 m2 p1 p2 / p2_COM m1 m2 p1 p2 + m12 m1 m2

/-- Line 416: `h*omega/(2*me*c^2)`, `omega` being `referenceAngularFrequency_SI`. -/
noncomputable def coeff1 (omega : ℝ) : ℝ := 4.046650232e-21 * omega

/-- Line 417: `re omega / c`. -/
noncomputable def coeff2 (omega : ℝ) : ℝ := 2.817940327e-15 * omega / 299792458

/-- Line 576: the minimum impact parameter `bmin` of a pair. -/
noncomputable def bminPair (omega m1 m2 q1 q2 : ℝ) (p1 p2 : Vec3) : ℝ :=
  max (coeff1 omega / m1 / p_COM m1 m2 p1 p2)
    |coeff2 omega * qqm m1 q1 q2 * term3 m1 m2 p1 p2 * term5 m1 m2 p1 p2|

/-- Lines 574-579: the Coulomb logarithm used for a pair; `debye2` is
`debye_length_squared[ibin]`. -/
noncomputable def logL (coulomb_log debye2 omega m1 m2 q1 q2 : ℝ) (p1 p2 : Vec3) : ℝ :=
  if coulomb_log ≤ 0 then
    let l := 0.5 * Real.log (1 + debye2 / bminPair omega m1 m2 q1 q2 p1 p2 ^ 2)
    if l < 2 then 2 else l
  else coulomb_log

/-! ### Debye length (`calculate_debye_length`, lines 283-341) -/

/-- What `calculate_debye_length` reads of a macro-particle: weight, charge, momentum. -/
structure ParticleData where
  weight : ℝ
  charge : ℝ
  px : ℝ
  py : ℝ
  pz : ℝ

/-- A species in one bin: its mass and its particles of the bin (those of the indices
`bmin[ibin] .. bmax[ibin]-1`, in this order). -/
structure BinSpecies where
  mass : ℝ
  particles : List ParticleData

/-- The three sums of the loop on the particles (lines 312-321). -/
structure SpeciesSums where
  density : ℝ
  charge : ℝ
  temperature : ℝ

/-- Lines 317-320: one turn of the loop on the particles. -/
noncomputable def particleStep (acc : SpeciesSums) (p : ParticleData) : SpeciesSums :=
  let p2 := p.px ^ 2 + p.py ^ 2 + p.pz ^ 2
  { density := acc.density + p.weight
    charge := acc.charge + p.weight * p.charge
    temperature := acc.temperature + p.weight * p2 / Real.sqrt (1 + p2) }

/-- The variables `debye_length_squared[ibin]` and `density_max` in the loop on species. -/
structure DebyeAcc where
  debye : ℝ
  density_max : ℝ

/-- Lines 308-329: one turn of the loop on the species. -/
noncomputable def speciesStep (n_cell_per_cluster : Nat) (acc : DebyeAcc) (s : BinSpecies) :
    DebyeAcc :=
  let sums := s.particles.foldl particleStep { density := 0, charge := 0, temperature := 0 }
  if sums.density ≤ 0 then acc
  else
    let charge := sums.charge / sums.density
    let temperature := sums.temperature * (s.mass / (3 * sums.density))
    let density := sums.density / (n_cell_per_cluster : ℝ)
    { debye := if temperature > 0 then acc.debye + density * charge * charge / temperature
               else acc.debye
      density_max := if density > acc.density_max then density else acc.density_max }

/-- Lines 293 and 301-339: the value stored in `debye_length_squared[ibin]`; `omega` is
`referenceAngularFrequency_SI` and `species` are all the species, in their order. -/
noncomputable def debyeLengthSquared (omega : ℝ) (n_cell_per_cluster : Nat)
    (species : List BinSpecies) : ℝ :=
  let coeff := 299792458 / (3 * omega * 2.8179403267e-15)
  let acc := species.foldl (speciesStep n_cell_per_cluster) { debye := 0, density_max := 0 }
  if acc.debye > 0 then
    let d := 1 / acc.debye
    let rmin2 := (coeff * acc.density_max) ^ (-2 / 3 : ℝ)
    if d < rmin2 then rmin2 else d
  else acc.debye

/-! ### The Debye length as the specification states it -/

/-- Total weight `ΣW` of a species in the bin. -/
def totalWeight (s : BinSpecies) : ℝ := (s.particles.map (fun p => p.weight)).sum

/-- Density `n = (ΣW)/cellsPerBin`. -/
noncomputable def specDensity (cellsPerBin : Nat) (s : BinSpecies) : ℝ :=
  totalWeight s / (cellsPerBin : ℝ)

/-- Mean charge `<q> = Σ(W q)/ΣW`. -/
noncomputable def specCharge (s : BinSpecies) : ℝ :=
  (s.particles.map (fun p => p.weight * p.charge)).sum / totalWeight s

/-- Temperature `T = mass Σ(W p²/sqrt(1+p²))/(3 ΣW)`. -/
noncomputable def specTemperature (s : BinSpecies) : ℝ :=
  s.mass * (s.particles.map (fun p =>
    p.weight * (p.px ^ 2 + p.py ^ 2 + p.pz ^ 2) /
      Real.sqrt (1 + (p.px ^ 2 + p.py ^ 2 + p.pz ^ 2)))).sum / (3 * totalWeight s)

/-- The sum `S` over the species with positive total weight and positive temperature of
`n <q>² / T`. -/
noncomputable def specInverseDebye (cellsPerBin : Nat) (species : List BinSpecies) : ℝ :=
  ((species.filter (fun s => decide (0 < totalWeight s ∧ 0 < specTemperature s))).map
    (fun s => specDensity cellsPerBin s * specCharge s ^ 2 / specTemperature s)).sum

/-- The largest `n` over the species with positive total weight (0 if there is none). -/
noncomputable def specDensityMax (cellsPerBin : Nat) (species : List BinSpecies) : ℝ :=
  ((species.filter (fun s => decide (0 < totalWeight s))).map
    (specDensity cellsPerBin)).foldr max 0

/-- The floor `rmin² = (coeff n_max)^(-2/3)` with `coeff = c/(3 ω0 r_e)`. -/
noncomputable def specRmin2 (omega : ℝ) (cellsPerBin : Nat) (species : List BinSpecies) : ℝ :=
  (299792458 / (3 * omega * 2.8179403267e-15) * specDensityMax cellsPerBin species)
    ^ (-2 / 3 : ℝ)

/-- The stored value: 0 if `S = 0`, `max(1/S, rmin²)` otherwise. -/
noncomputable def specDebye (omega : ℝ) (cellsPerBin : Nat) (species : List BinSpecies) : ℝ :=
  if specInverseDebye cellsPerBin species = 0 then 0
  else max (1 / specInverseDebye cellsPerBin species) (specRmin2 omega cellsPerBin species)

/-! ### The mean of the sampler over the draw -/

/-- The mean of `cos_chi` over the draw `U`, uniform on `[0, 1]`. -/
noncomputable def meanCosChi (s : ℝ) : ℝ := ∫ U in (0 : ℝ)..1, cos_chi s U

/-! ### The prefix-sum decoding named by the specification -/

/-- The prefix-sum decoding of a flat index: the species is the first one whose cumulative
count `off + n` exceeds `idx`, the local index is `idx` minus the offset `off` of the
species; `ispec` and `off` are the species and the offset reached so far. -/
def prefixSumDecode : List Nat → Nat → Nat → Nat → Option (Nat × Nat)
  | [], _, _, _ => none
  | n :: rest, ispec, off, idx =>
    if idx < off + n then some (ispec, idx - off)
    else prefixSumDecode rest (ispec + 1) (off + n) idx

/-! ### Collision parameter of a pair (`collide`, lines 505-510 and 581-587) -/

/-- Line 508: `coeff3 = params.timestep * n1*n2/n12`, the value line 509 reads. -/
noncomputable def coeff3_0 (timestep n1 n2 n12 : ℝ) : ℝ := timestep * n1 * n2 / n12

/-- Line 509: `coeff4 = pow(3.*coeff2, -1./3.) * coeff3`. -/
noncomputable def coeff4 (omega timestep n1 n2 n12 : ℝ) : ℝ :=
  (3 * coeff2 omega) ^ (-1 / 3 : ℝ) * coeff3_0 timestep n1 n2 n12

/-- Line 510: `coeff3 *= coeff2`, the value the loop on the pairs reads. -/
noncomputable def coeff3 (omega timestep n1 n2 n12 : ℝ) : ℝ :=
  coeff3_0 timestep n1 n2 n12 * coeff2 omega

/-- Line 582: the collision parameter `s` before the low-temperature correction; `L` is
`logL`. -/
noncomputable def s_raw (L omega timestep n1 n2 n12 m1 m2 q1 q2 : ℝ) (p1 p2 : Vec3) : ℝ :=
  coeff3 omega timestep n1 n2 n12 * L * (qqm m1 q1 q2 * qqm m1 q1 q2) * term3 m1 m2 p1 p2 *
    p_COM m1 m2 p1 p2 * term5 m1 m2 p1 p2 * term5 m1 m2 p1 p2 / (gammaOf p1 * gammaOf p2)

/-- Line 585: relative velocity. -/
noncomputable def vrel (m1 m2 : ℝ) (p1 p2 : Vec3) : ℝ :=
  p_COM m1 m2 p1 p2 / term3 m1 m2 p1 p2 / term4 m1 m2 p1 p2

/-- Lines 506-507 and 586: `smax`, with `n123 = pow(n1, 2./3.)` and `n223 = pow(n2, 2./3.)`. -/
noncomputable def smax (omega timestep n1 n2 n12 m1 m2 : ℝ) (p1 p2 : Vec3) : ℝ :=
  coeff4 omega timestep n1 n2 n12 * (m12 m1 m2 + 1) * vrel m1 m2 p1 p2 /
    max (m12 m1 m2 * n1 ^ (2 / 3 : ℝ)) (n2 ^ (2 / 3 : ℝ))

/-- Lines 574-587: the value of `s` handed to `cos_chi` (line 590). -/
noncomputable def collisionS (coulomb_log debye2 omega timestep n1 n2 n12 m1 m2 q1 q2 : ℝ)
    (p1 p2 : Vec3) : ℝ :=
  let s := s_raw (logL coulomb_log debye2 omega m1 m2 q1 q2 p1 p2) omega timestep n1 n2 n12
    m1 m2 q1 q2 p1 p2
  if s > smax omega timestep n1 n2 n12 m1 m2 p1 p2 then smax omega timestep n1 n2 n12 m1 m2 p1 p2
  else s

/-! ### The kernel with the quotient of `term1` kept partial (lines 556 and 617-630) -/

/-- The quotient `a / b` of two doubles as a real number: it has no value when the divisor
is zero (the double is then an infinity or, for `a = 0`, a NaN). -/
noncomputable def quotient (a b : ℝ) : Option ℝ := if b = 0 then none else some (a / b)

/-- Line 556, `term1 = (COM_gamma - 1.) / COM_vsquare`. The line is not guarded by any test
of `COM_vsquare`. -/
noncomputable def term1_checked (m1 m2 : ℝ) (p1 p2 : Vec3) : Option ℝ :=
  quotient (COM_gamma m1 m2 p1 p2 - 1) (COM_vsquare m1 m2 p1 p2)

/-- Lines 617-630 with `term1` partial: the momenta of the two particles after the
collision. A momentum that is overwritten is `new p_COM + COM_v * term6` with
`term6 = ± term1 * vcp + ...`, so it has a value only if `term1` has one; a momentum that is
not overwritten keeps its value. -/
noncomputable def scatter_checked (m1 m2 W1 W2 : ℝ) (p1 p2 : Vec3) (cosX phi U : ℝ) :
    Option Vec3 × Option Vec3 :=
  (if U < W2 / W1 then
      (term1_checked m1 m2 p1 p2).map (fun _ => deflected1 m1 m2 p1 p2 cosX phi)
    else some p1,
   if U < W1 / W2 then
      (term1_checked m1 m2 p1 p2).map (fun _ => deflected2 m1 m2 p1 p2 cosX phi)
    else some p2)

/-! ### Debug statistics (`collide`, lines 405-412, 635-653 and 658-685) -/

/-- The accumulators `smean`, `logLmean` and `ncol`. -/
structure DebugSums where
  smean : ℝ
  logLmean : ℝ
  ncol : ℝ

/-- Lines 635-639: a pair adds its `s` (after the low-temperature correction) and its
`logL`. -/
def debugPair (acc : DebugSums) (sl : ℝ × ℝ) : DebugSums :=
  { acc with smean := acc.smean + sl.1, logLmean := acc.logLmean + sl.2 }

/-- Lines 421-647 for the accumulators. A bin is `none` when it is skipped (line 452), else
the values `(s, logL)` of its pairs in the order of the loop; once its pairs are done,
lines 643-645 add `npairs` to `ncol`. -/
def debugBin (acc : DebugSums) : Option (List (ℝ × ℝ)) → DebugSums
  | none => acc
  | some pairs =>
    let a := pairs.foldl debugPair acc
    { a with ncol := a.ncol + (pairs.length : ℝ) }

/-- The three arrays written on a debug step: `s`, `coulomb_log` and, when
`debye_length_squared` is not empty, `debyelength`. -/
structure DebugOutput where
  s : ℝ
  coulomb_log : ℝ
  debyelength : Option ℝ

/-- Lines 677-685: `dmean`; `omega` is `referenceAngularFrequency_SI` and `nbins` the number
of bins (`calculate_debye_length` gives `debye_length_squared` this size, line 295). -/
noncomputable def dmean (omega : ℝ) (nbins : Nat) (debye_length_squared : List ℝ) : Option ℝ :=
  if debye_length_squared.length > 0 then
    some (((List.range nbins).map (fun i => Real.sqrt (debye_length_squared.getD i 0))).sum *
      (299792458 / omega / (nbins : ℝ)))
  else none

/-- What a call of `collide` at timestep `itime` writes to the debug file (lines 405-412,
635-653, 658-685): nothing unless the timestep is a debug step. -/
noncomputable def collideDebug (debug_every itime : Int) (omega : ℝ) (nbins : Nat)
    (debye_length_squared : List ℝ) (bins : List (Option (List (ℝ × ℝ)))) :
    Option DebugOutput :=
  if isDebugStep debug_every itime then
    let a := bins.foldl debugBin { smean := 0, logLmean := 0, ncol := 0 }
    let a := if a.ncol > 0 then { a with smean := a.smean / a.ncol,
                                         logLmean := a.logLmean / a.ncol } else a
    some { s := a.smean, coulomb_log := a.logLmean
           debyelength := dmean omega nbins debye_length_squared }
  else none

/-- All the pairs collided in a call of `collide`. -/
def allPairs (bins : List (Option (List (ℝ × ℝ)))) : List (ℝ × ℝ) :=
  (bins.filterMap id).flatten

/-- The sum over the bins of `npairs`. -/
def totalPairs (bins : List (Option (List (ℝ × ℝ)))) : Nat :=
  ((bins.filterMap id).map List.length).sum

/-! ### Name of the timestep group (`createTimestep`, lines 356-373; `collide`, lines 658-666) -/

/-- The characters `operator<<` writes for a non-negative `int`: its decimal digits, the
most significant first, and `0` for zero. -/
def decimal (n : Nat) : List Char :=
  if n = 0 then ['0'] else (Nat.digits 10 n).reverse.map Nat.digitChar

/-- The characters `operator<<` writes for an `int`. -/
def intChars (i : Int) : List Char :=
  if i < 0 then '-' :: decimal i.natAbs else decimal i.toNat

/-- The effect of `setfill(fill) << setw(w)` on the next field: it is padded on the left
(the default adjustment) up to `w` characters; a longer field is written whole. -/
def setw (w : Nat) (fill : Char) (field : List Char) : List Char :=
  List.replicate (w - field.length) fill ++ field

/-- Lines 365-366 and 664-665: `name << "t" << setfill('0') << setw(8) << itime`. -/
def timestepName (itime : Int) : String :=
  String.mk ('t' :: setw 8 '0' (intChars itime))

/-- Lines 359-367: the group that `createTimestep(itime)` creates, if it creates one. -/
def createTimestep (debug_every itime : Int) : Option String :=
  if isDebugStep debug_every itime then some (timestepName itime) else none

/-- Lines 405 and 658-666: the group that `collide` opens at timestep `itime`, if it opens
one. -/
def collideGroup (debug_every itime : Int) : Option String :=
  if isDebugStep debug_every itime then some (timestepName itime) else none

/-! ### The name of the timestep group as the specification states it -/

/-- The letter `t` followed by the eight decimal digits of `n`, the most significant
first. -/
def paddedName (n : Nat) : String :=
  String.mk ['t', Nat.digitChar (n / 10000000 % 10), Nat.digitChar (n / 1000000 % 10),
    Nat.digitChar (n / 100000 % 10), Nat.digitChar (n / 10000 % 10),
    Nat.digitChar (n / 1000 % 10), Nat.digitChar (n / 100 % 10),
    Nat.digitChar (n / 10 % 10), Nat.digitChar (n % 10)]

/-! ### Auxiliary definitions of the proofs and the examples -/

/-- Lorentz boost of a momentum `p` (Lorentz factor `g`) into the frame moving with `v`,
with `T` for `term1` and `G` for `COM_gamma`. -/
def boost (v : Vec3) (T G g : ℝ) (p : Vec3) : Vec3 :=
  { x := p.x + (T * v.dot p - G * g) * v.x
    y := p.y + (T * v.dot p - G * g) * v.y
    z := p.z + (T * v.dot p - G * g) * v.z }

/-- The vector `a * p`. -/
def Vec3.scale (a : ℝ) (p : Vec3) : Vec3 := { x := a * p.x, y := a * p.y, z := a * p.z }

/-- Weights used in the examples: particle `i` of species `s` weighs `10 (s + 1) + i`. -/
def sampleWeight : Nat → Nat → ℚ := fun s i => (s + 1) * 10 + i

/-- Particle 1 of the near-axis examples: momentum `15/8` along the unit vector
`(dx, 0, dz)`. -/
noncomputable def nearAxisP1 (dx dz : ℝ) : Vec3 :=
  { x := 15 / 8 * dx, y := 0, z := 15 / 8 * dz }

/-- A particle at rest. -/
def atRest : Vec3 := { x := 0, y := 0, z := 0 }

/-- Tilt of `2e-11` from the `z` axis (`dx = 2t/(1+t²)`, `dz = (1-t²)/(1+t²)`,
`t = 1e-11`). -/
noncomputable def tiltX : ℝ := 2e-11 / (1 + 1e-22)

/-- See `tiltX`. -/
noncomputable def tiltZ : ℝ := (1 - 1e-22) / (1 + 1e-22)

/-- Two species for the examples: electrons (number 0) and aluminium ions. -/
def sampleSpecies : Nat → SpeciesInfo := fun i => if i = 0 then ⟨1, 0⟩ else ⟨49572, 13⟩

/-- The expression `(1/A) ln(exp(-A) + 2 U sinh A)` of the two middle branches of `cos_chi`. -/
noncomputable def nanbuLog (A U : ℝ) : ℝ :=
  (1 / A) * Real.log (Real.exp (-A) + 2 * U * Real.sinh A)

/-- The mean of `nanbuLog A` over `U` in `[0, 1]`. -/
noncomputable def meanNanbu (A : ℝ) : ℝ := ∫ U in (0 : ℝ)..1, nanbuLog A U

/-- The polynomial fit of `1/A` used by `cos_chi` for `0.1 ≤ s < 3`. -/
def invAPoly (s : ℝ) : ℝ :=
  0.00569578 + (0.95602 + (-0.508139 + (0.479139 + (-0.12789 + 0.0238957 * s) * s) * s) * s) * s

theorem map_getD_range {β : Type} (l : List Nat) (g : Nat → β) :
    (List.range l.length).map (fun i => g (l.getD i 0)) = l.map g := by
  apply List.ext_getElem
  · simp
  · intro i h1 h2
    simp at h1
    simp [List.getD_eq_getElem?_getD, List.getElem?_eq_getElem h1]

theorem count_map_mod_range (m j n : Nat) :
    ((List.range n).map (fun i => i % m)).count j = Nat.count (fun i => i % m = j) n := by
  induction n with
  | zero => simp
  | succ n ih =>
    rw [List.range_succ, List.map_append, List.count_append, ih, Nat.count_succ]
    simp [List.count_cons]

theorem count_mod_range (m j n : Nat) (hm : 0 < m) (hj : j < m) :
    ((List.range n).map (fun i => i % m)).count j = n / m + if j < n % m then 1 else 0 := by
  rw [count_map_mod_range]
  have h := Nat.count_modEq_card n hm j
  simp only [Nat.ModEq, Nat.mod_eq_of_lt hj] at h
  rw [← h]

theorem take_map_mod_range (m n : Nat) (h : m ≤ n) :
    (((List.range n).map (fun i => i % m)).take m) = List.range m := by
  rw [← List.map_take, List.take_range, Nat.min_eq_left h]
  apply List.ext_getElem
  · simp
  · intro i h1 h2
    simp at h1
    simp [Nat.mod_eq_of_lt h1]

/-- Claim C1 (pair coverage between two groups). With `1 ≤ npart2 ≤ npart1` and `sh` any
permutation of `[0, npart1)` left by the shuffle, there are `npart1` pairs; `index1` is a
permutation of `[0, npart1)`, so every particle of group 1 is in exactly one pair;
`index2[i] = i mod npart2`, so every flat index of group 2 occurs `npart1 / npart2` times
(rounded down or up) and at least once; the first `N2max = npart2` entries of `index2` are
`0, 1, ..., npart2 - 1`: pairwise distinct and covering group 2. -/
theorem pair_coverage_inter (npart1 npart2 : Nat) (sh : List Nat)
    (h2 : 1 ≤ npart2) (h12 : npart2 ≤ npart1) (hsh : sh.Perm (List.range npart1)) :
    (buildPairs false npart1 npart2 sh).npairs = npart1 ∧
    (buildPairs false npart1 npart2 sh).index1.length = npart1 ∧
    (buildPairs false npart1 npart2 sh).index2.length = npart1 ∧
    (buildPairs false npart1 npart2 sh).index1.Perm (List.range npart1) ∧
    (∀ j, j < npart1 → (buildPairs false npart1 npart2 sh).index1.count j = 1) ∧
    (∀ i, i < npart1 → (buildPairs false npart1 npart2 sh).index2[i]? = some (i % npart2)) ∧
    (∀ j, j < npart2 →
      ((buildPairs false npart1 npart2 sh).index2.count j = npart1 / npart2 ∨
       (buildPairs false npart1 npart2 sh).index2.count j = (npart1 + npart2 - 1) / npart2) ∧
      1 ≤ (buildPairs false npart1 npart2 sh).index2.count j) ∧
    (buildPairs false npart1 npart2 sh).N2max = npart2 ∧
    ((buildPairs false npart1 npart2 sh).index2.take
        (buildPairs false npart1 npart2 sh).N2max) = List.range npart2 ∧
    ((buildPairs false npart1 npart2 sh).index2.take
        (buildPairs false npart1 npart2 sh).N2max).Nodup ∧
    (∀ j, j < npart2 → j ∈ (buildPairs false npart1 npart2 sh).index2.take
        (buildPairs false npart1 npart2 sh).N2max) := by
  have hB : buildPairs false npart1 npart2 sh =
      { npairs := npart1, index1 := sh,
        index2 := (List.range npart1).map (fun i => i % npart2), N2max := npart2 } := by
    simp [buildPairs]
  rw [hB]
  simp only
  refine ⟨trivial, ?_, ?_, hsh, ?_, ?_, ?_, trivial, ?_, ?_, ?_⟩
  · rw [hsh.length_eq, List.length_range]
  · simp
  · intro j hj
    rw [hsh.count_eq]
    exact List.count_eq_one_of_mem (List.nodup_range _) (List.mem_range.mpr hj)
  · intro i hi
    simp [hi]
  · intro j hj
    rw [count_mod_range npart2 j npart1 h2 hj]
    have hdiv : 1 ≤ npart1 / npart2 := (Nat.one_le_div_iff h2).mpr h12
    refine ⟨?_, by omega⟩
    by_cases hlt : j < npart1 % npart2
    · right
      rw [if_pos hlt]
      have hdm := Nat.div_add_mod npart1 npart2
      have hr := Nat.mod_lt npart1 h2
      have e1 : (npart1 / npart2 + 1) * npart2 = npart2 * (npart1 / npart2) + npart2 := by ring
      have e2 : (npart1 / npart2 + 1 + 1) * npart2 =
          npart2 * (npart1 / npart2) + 2 * npart2 := by ring
      symm
      apply Nat.div_eq_of_lt_le
      · rw [e1]; omega
      · rw [e2]; omega
    · left
      rw [if_neg hlt]; rfl
  · exact take_map_mod_range npart2 npart1 h12
  · rw [take_map_mod_range npart2 npart1 h12]; exact List.nodup_range _
  · intro j hj
    rw [take_map_mod_range npart2 npart1 h12]; exact List.mem_range.mpr hj

/-- Five particles in group 1 and two in group 2. -/
theorem pair_coverage_inter_witness :
    (buildPairs false 5 2 [3, 1, 4, 0, 2]).npairs = 5 ∧
    (buildPairs false 5 2 [3, 1, 4, 0, 2]).index2 = [0, 1, 0, 1, 0] ∧
    (buildPairs false 5 2 [3, 1, 4, 0, 2]).index2.count 0 = (5 + 2 - 1) / 2 ∧
    (buildPairs false 5 2 [3, 1, 4, 0, 2]).index2.count 1 = 5 / 2 :=
  have h := pair_coverage_inter 5 2 [3, 1, 4, 0, 2] (by decide) (by decide) (by decide)
  ⟨h.1, by decide, by decide, by decide⟩

theorem buildPairs_intra (n n2 : Nat) (sh : List Nat) :
    buildPairs true n n2 sh =
      { npairs := ceilHalf n, index1 := sh.take (ceilHalf n),
        index2 := (List.range (ceilHalf n)).map
          (fun i => sh.getD ((i + ceilHalf n) % n) 0),
        N2max := n - ceilHalf n } := by
  simp [buildPairs]

theorem intra_index2_eq (n : Nat) (sh : List Nat) (hn : 1 ≤ n) (hlen : sh.length = n) :
    (List.range (ceilHalf n)).map (fun i => sh.getD ((i + ceilHalf n) % n) 0) =
      sh.drop (ceilHalf n) ++ (if n % 2 = 1 then sh.take 1 else []) := by
  have hc : ceilHalf n = n / 2 + n % 2 := rfl
  apply List.ext_getElem?
  intro i
  by_cases hi : i < ceilHalf n
  · by_cases hlt : i + ceilHalf n < n
    · have h1 : i < (sh.drop (ceilHalf n)).length := by simp [hlen]; omega
      rw [List.getElem?_append_left h1]
      simp [hi, Nat.mod_eq_of_lt hlt, List.getD_eq_getElem?_getD, Nat.add_comm]
      rw [List.getElem?_eq_getElem (by omega)]; simp
    · have hodd : n % 2 = 1 := by omega
      have heq : i + ceilHalf n = n := by omega
      have h1 : (sh.drop (ceilHalf n)).length ≤ i := by simp [hlen]; omega
      rw [List.getElem?_append_right h1, if_pos hodd]
      have h2 : i - (sh.drop (ceilHalf n)).length = 0 := by simp [hlen]; omega
      rw [h2]
      simp [hi, heq, List.getD_eq_getElem?_getD]
      rw [List.getElem?_eq_getElem (by omega)]; simp
  · have h1 : (sh.drop (ceilHalf n) ++ (if n % 2 = 1 then sh.take 1 else [])).length ≤ i := by
      split_ifs <;> simp [hlen] <;> omega
    rw [List.getElem?_eq_none h1]
    simp; omega

theorem intra_pairs_append (n : Nat) (sh : List Nat) (hn : 1 ≤ n) (hlen : sh.length = n) :
    (buildPairs true n n sh).index1 ++ (buildPairs true n n sh).index2 =
      sh ++ (if n % 2 = 1 then sh.take 1 else []) := by
  rw [buildPairs_intra]
  simp only
  rw [intra_index2_eq n sh hn hlen, ← List.append_assoc, List.take_append_drop]

/-- Claim C2 (pairing inside one group). With `n = npart1 ≥ 1` particles and `sh` any
permutation of `[0, n)`: `npairs = ceil(n/2)`, `N2max = n - npairs`, `index1` is the first
`npairs` entries of `sh` and `index2[i] = sh[(i + npairs) mod n]`.  Every particle is in a
pair; for even `n` each is in exactly one; for odd `n` the particle `sh[0]` alone is in two,
as `index1[0]` and as `index2[npairs-1]`, the only pair with `i ≥ N2max`.  For `n = 5`,
`npairs = 3` and `N2max = 2`. -/
theorem intra_pairing (n : Nat) (sh : List Nat) (hn : 1 ≤ n)
    (hsh : sh.Perm (List.range n)) :
    (buildPairs true n n sh).npairs = (n + 1) / 2 ∧
    (buildPairs true n n sh).N2max = n - (buildPairs true n n sh).npairs ∧
    (buildPairs true n n sh).index1 = sh.take (buildPairs true n n sh).npairs ∧
    (buildPairs true n n sh).index1.length = (buildPairs true n n sh).npairs ∧
    (buildPairs true n n sh).index2.length = (buildPairs true n n sh).npairs ∧
    (∀ i, i < (buildPairs true n n sh).npairs →
      (buildPairs true n n sh).index2[i]? =
        sh[(i + (buildPairs true n n sh).npairs) % n]?) ∧
    (∀ j, j < n → j ∈ (buildPairs true n n sh).index1 ∨
      j ∈ (buildPairs true n n sh).index2) ∧
    (n % 2 = 0 →
      (buildPairs true n n sh).N2max = (buildPairs true n n sh).npairs ∧
      ∀ j, j < n →
        ((buildPairs true n n sh).index1 ++ (buildPairs true n n sh).index2).count j = 1) ∧
    (n % 2 = 1 →
      (buildPairs true n n sh).index1[0]? = sh[0]? ∧
      (buildPairs true n n sh).index2[(buildPairs true n n sh).npairs - 1]? = sh[0]? ∧
      (∀ j, j < n →
        ((buildPairs true n n sh).index1 ++ (buildPairs true n n sh).index2).count j =
          if sh[0]? = some j then 2 else 1) ∧
      (∀ i, i < (buildPairs true n n sh).npairs →
        ((buildPairs true n n sh).N2max ≤ i ↔ i = (buildPairs true n n sh).npairs - 1))) ∧
    (n = 5 → (buildPairs true n n sh).npairs = 3 ∧ (buildPairs true n n sh).N2max = 2) := by
  have hlen : sh.length = n := by rw [hsh.length_eq, List.length_range]
  have hc : ceilHalf n = n / 2 + n % 2 := rfl
  have hcount : ∀ j, j < n → sh.count j = 1 := by
    intro j hj
    rw [hsh.count_eq]
    exact List.count_eq_one_of_mem (List.nodup_range _) (List.mem_range.mpr hj)
  have happ := intra_pairs_append n sh hn hlen
  have hB := buildPairs_intra n n sh
  have hnp : (buildPairs true n n sh).npairs = ceilHalf n := by rw [hB]
  have hN2 : (buildPairs true n n sh).N2max = n - ceilHalf n := by rw [hB]
  have hi1 : (buildPairs true n n sh).index1 = sh.take (ceilHalf n) := by rw [hB]
  have hi2 : (buildPairs true n n sh).index2 =
      (List.range (ceilHalf n)).map (fun i => sh.getD ((i + ceilHalf n) % n) 0) := by rw [hB]
  have hget : ∀ i, i < ceilHalf n →
      (buildPairs true n n sh).index2[i]? = sh[(i + ceilHalf n) % n]? := by
    intro i hi
    have hlt : (i + ceilHalf n) % n < sh.length := by
      rw [hlen]; exact Nat.mod_lt _ (by omega)
    rw [hi2]
    simp [hi, List.getD_eq_getElem?_getD]
    rw [List.getElem?_eq_getElem hlt]; simp
  refine ⟨by rw [hnp, hc]; omega, by rw [hN2, hnp], by rw [hi1, hnp], ?_, ?_, ?_, ?_, ?_, ?_, ?_⟩
  · rw [hi1, hnp, List.length_take, hlen]; omega
  · rw [hi2, hnp]; simp
  · intro i hi
    rw [hnp] at hi ⊢
    exact hget i hi
  · intro j hj
    have hmem : j ∈ (buildPairs true n n sh).index1 ++ (buildPairs true n n sh).index2 := by
      rw [happ]
      exact List.mem_append_left _ (hsh.mem_iff.mpr (List.mem_range.mpr hj))
    exact List.mem_append.mp hmem
  · intro he
    refine ⟨by rw [hN2, hnp, hc]; omega, ?_⟩
    intro j hj
    rw [happ, if_neg (by omega), List.append_nil]
    exact hcount j hj
  · intro ho
    have h0 : 0 < sh.length := by omega
    refine ⟨?_, ?_, ?_, ?_⟩
    · rw [hi1]
      simp [List.getElem?_take, hc]; omega
    · rw [hnp, hget _ (by omega)]
      have : ceilHalf n - 1 + ceilHalf n = n := by omega
      rw [this, Nat.mod_self]
    · intro j hj
      rw [happ, if_pos ho, List.count_append, hcount j hj]
      cases sh with
      | nil => simp at h0
      | cons a t =>
        by_cases ha : a = j
        · simp [ha]
        · simp [ha, List.count_cons]
    · intro i hi
      rw [hN2, hnp]
      rw [hnp] at hi
      omega
  · intro h5
    subst h5
    rw [hnp, hN2]
    decide

/-- Five particles in one group. -/
theorem intra_pairing_witness :
    (buildPairs true 5 5 [3, 1, 4, 0, 2]).npairs = 3 ∧
    (buildPairs true 5 5 [3, 1, 4, 0, 2]).N2max = 2 ∧
    (buildPairs true 5 5 [3, 1, 4, 0, 2]).index1 = [3, 1, 4] ∧
    (buildPairs true 5 5 [3, 1, 4, 0, 2]).index2 = [0, 2, 3] :=
  have h := intra_pairing 5 [3, 1, 4, 0, 2] (by decide) (by decide)
  ⟨(h.2.2.2.2.2.2.2.2.2 rfl).1, (h.2.2.2.2.2.2.2.2.2 rfl).2, by decide, by decide⟩

/-! ### Densities -/

section densityProofs
variable {K : Type} [LinearOrderedField K]

theorem decodeLoop_isSome (np : List Nat) (s0 idx : Nat) (h : idx < np.sum) :
    ∃ r, decodeLoop np s0 idx = some r := by
  induction np generalizing s0 idx with
  | nil => simp at h
  | cons n rest ih =>
    unfold decodeLoop
    by_cases hge : idx ≥ n
    · rw [if_pos hge]
      exact ih (s0 + 1) (idx - n) (by simp at h; omega)
    · rw [if_neg hge]; exact ⟨_, rfl⟩

theorem findParticle_isSome (np bmin : List Nat) (idx : Nat) (h : idx < np.sum) :
    ∃ r, findParticle np bmin idx = some r := by
  obtain ⟨r, hr⟩ := decodeLoop_isSome np 0 idx h
  exact ⟨_, by rw [findParticle, hr]; rfl⟩

theorem sum_decodeLoop (np : List Nat) (s0 : Nat) (g : Nat → Nat → K) :
    ((List.range np.sum).map (fun idx =>
        match decodeLoop np s0 idx with
        | some r => g r.1 r.2
        | none => 0)).sum =
      ((List.range np.length).map (fun s =>
        ((List.range (np.getD s 0)).map (fun k => g (s0 + s) k)).sum)).sum := by
  induction np generalizing s0 with
  | nil => simp
  | cons n rest ih =>
    rw [List.sum_cons, List.range_add, List.map_append, List.sum_append, List.map_map,
      List.length_cons, List.range_succ_eq_map, List.map_cons, List.sum_cons, List.map_map]
    congr 1
    · apply congrArg
      apply List.map_congr_left
      intro idx hidx
      have hlt : idx < n := List.mem_range.mp hidx
      simp [decodeLoop, Nat.not_le.mpr hlt]
    · have h1 : (List.map ((fun idx =>
          match decodeLoop (n :: rest) s0 idx with
          | some r => g r.1 r.2
          | none => 0) ∘ fun x => n + x) (List.range rest.sum)) =
          (List.range rest.sum).map (fun idx =>
            match decodeLoop rest (s0 + 1) idx with
            | some r => g r.1 r.2
            | none => 0) := by
        apply List.map_congr_left
        intro idx _
        simp [decodeLoop]
      rw [h1, ih (s0 + 1)]
      apply congrArg
      apply List.map_congr_left
      intro s _
      simp [Nat.add_assoc, Nat.add_comm 1 s]

theorem sum_decodedWeight (np bmin : List Nat) (weight : Nat → Nat → K) :
    ((List.range np.sum).map (decodedWeight np bmin weight)).sum =
      groupWeight np bmin weight := by
  have h := sum_decodeLoop np 0 (fun s k => weight s (bmin.getD s 0 + k))
  simp only [Nat.zero_add] at h
  rw [groupWeight, ← h]
  apply congrArg
  apply List.map_congr_left
  intro idx _
  unfold decodedWeight findParticle
  cases decodeLoop np 0 idx with
  | none => rfl
  | some r => simp [Nat.add_comm]

theorem pairWeights_eq (P : Pairing) (np1 bmin1 np2 bmin2 : List Nat)
    (weight1 weight2 : Nat → Nat → K) (i : Nat)
    (h1 : P.index1.getD i 0 < np1.sum) (h2 : P.index2.getD i 0 < np2.sum) :
    pairWeights P np1 bmin1 np2 bmin2 weight1 weight2 i =
      some (decodedWeight np1 bmin1 weight1 (P.index1.getD i 0),
            decodedWeight np2 bmin2 weight2 (P.index2.getD i 0)) := by
  obtain ⟨r1, hr1⟩ := findParticle_isSome np1 bmin1 _ h1
  obtain ⟨r2, hr2⟩ := findParticle_isSome np2 bmin2 _ h2
  unfold pairWeights decodedWeight
  rw [hr1, hr2]

theorem foldlM_densityStep (P : Pairing) (np1 bmin1 np2 bmin2 : List Nat)
    (weight1 weight2 : Nat → Nat → K) (l : List Nat) (acc : Densities K)
    (hl : ∀ i ∈ l, P.index1.getD i 0 < np1.sum ∧ P.index2.getD i 0 < np2.sum) :
    l.foldlM (densityStep P np1 bmin1 np2 bmin2 weight1 weight2) acc =
      some
        { n1 := acc.n1 +
            (l.map (fun i => decodedWeight np1 bmin1 weight1 (P.index1.getD i 0))).sum
          n2 := acc.n2 +
            (l.map (fun i => if i < P.N2max then
              decodedWeight np2 bmin2 weight2 (P.index2.getD i 0) else 0)).sum
          n12 := acc.n12 +
            (l.map (fun i => min (decodedWeight np1 bmin1 weight1 (P.index1.getD i 0))
              (decodedWeight np2 bmin2 weight2 (P.index2.getD i 0)))).sum } := by
  induction l generalizing acc with
  | nil => simp
  | cons i l ih =>
    have hi := hl i (List.mem_cons_self _ _)
    rw [List.foldlM_cons, densityStep, pairWeights_eq P np1 bmin1 np2 bmin2 _ _ i hi.1 hi.2]
    simp only [Option.bind_eq_bind, Option.some_bind]
    rw [ih _ (fun j hj => hl j (List.mem_cons_of_mem _ hj))]
    by_cases hlt : i < P.N2max
    · simp [hlt, add_assoc]
    · simp [hlt, add_assoc]

theorem sum_range_trunc (f : Nat → K) (N M : Nat) (h : N ≤ M) :
    ((List.range M).map (fun i => if i < N then f i else 0)).sum =
      ((List.range N).map f).sum := by
  obtain ⟨d, rfl⟩ := Nat.exists_eq_add_of_le h
  rw [List.range_add, List.map_append, List.sum_append, List.map_map]
  have h1 : (List.range N).map (fun i => if i < N then f i else 0) = (List.range N).map f := by
    apply List.map_congr_left
    intro i hi
    rw [if_pos (List.mem_range.mp hi)]
  have h2 : (List.range d).map ((fun i => if i < N then f i else 0) ∘ fun x => N + x) =
      (List.range d).map (fun _ => (0 : K)) := by
    apply List.map_congr_left
    intro i _
    simp
  rw [h1, h2]
  simp

theorem perm_getD_lt (n : Nat) (sh : List Nat) (hn : 1 ≤ n)
    (hsh : sh.Perm (List.range n)) (k : Nat) : sh.getD k 0 < n := by
  rw [List.getD_eq_getElem?_getD]
  by_cases hk : k < sh.length
  · rw [List.getElem?_eq_getElem hk]
    exact List.mem_range.mp (hsh.mem_iff.mp (List.getElem_mem hk))
  · rw [List.getElem?_eq_none (by omega)]
    exact hn

theorem rawSums_inter (np1 bmin1 np2 bmin2 : List Nat) (weight1 weight2 : Nat → Nat → K)
    (sh : List Nat) (h2 : 1 ≤ np2.sum) (h12 : np2.sum ≤ np1.sum)
    (hsh : sh.Perm (List.range np1.sum)) :
    (List.range (buildPairs false np1.sum np2.sum sh).npairs).foldlM
      (densityStep (buildPairs false np1.sum np2.sum sh) np1 bmin1 np2 bmin2 weight1 weight2)
      { n1 := 0, n2 := 0, n12 := 0 } =
    some
      { n1 := groupWeight np1 bmin1 weight1
        n2 := groupWeight np2 bmin2 weight2
        n12 := ((List.range (buildPairs false np1.sum np2.sum sh).npairs).map (fun i =>
          min (decodedWeight np1 bmin1 weight1
                ((buildPairs false np1.sum np2.sum sh).index1.getD i 0))
              (decodedWeight np2 bmin2 weight2
                ((buildPairs false np1.sum np2.sum sh).index2.getD i 0)))).sum } := by
  have hB : buildPairs false np1.sum np2.sum sh =
      { npairs := np1.sum, index1 := sh,
        index2 := (List.range np1.sum).map (fun i => i % np2.sum), N2max := np2.sum } := by
    simp [buildPairs]
  have hlen : sh.length = np1.sum := by rw [hsh.length_eq, List.length_range]
  have hidx2 : ∀ i, i < np1.sum →
      ((List.range np1.sum).map (fun i => i % np2.sum)).getD i 0 = i % np2.sum := by
    intro i hi
    simp [List.getD_eq_getElem?_getD, hi]
  rw [hB]
  simp only
  rw [foldlM_densityStep]
  · simp only [zero_add]
    congr 2
    · rw [← hlen, map_getD_range sh (decodedWeight np1 bmin1 weight1),
        ← sum_decodedWeight]
      exact (hsh.map _).sum_eq
    · rw [← sum_decodedWeight, ← sum_range_trunc (decodedWeight np2 bmin2 weight2) _ _ h12]
      apply congrArg
      apply List.map_congr_left
      intro i hi
      by_cases hlt : i < np2.sum
      · rw [if_pos hlt, if_pos hlt, hidx2 i (List.mem_range.mp hi), Nat.mod_eq_of_lt hlt]
      · rw [if_neg hlt, if_neg hlt]
  · intro i hi
    simp only
    refine ⟨perm_getD_lt _ sh (by omega) hsh i, ?_⟩
    rw [hidx2 i (List.mem_range.mp hi)]
    exact Nat.mod_lt _ (by omega)

theorem rawSums_intra (np bmin : List Nat) (weight : Nat → Nat → K)
    (sh : List Nat) (h1 : 1 ≤ np.sum) (hsh : sh.Perm (List.range np.sum)) :
    ∃ a b : K,
    (List.range (buildPairs true np.sum np.sum sh).npairs).foldlM
      (densityStep (buildPairs true np.sum np.sum sh) np bmin np bmin weight weight)
      { n1 := 0, n2 := 0, n12 := 0 } =
    some
      { n1 := a
        n2 := b
        n12 := ((List.range (buildPairs true np.sum np.sum sh).npairs).map (fun i =>
          min (decodedWeight np bmin weight
                ((buildPairs true np.sum np.sum sh).index1.getD i 0))
              (decodedWeight np bmin weight
                ((buildPairs true np.sum np.sum sh).index2.getD i 0)))).sum } ∧
    a + b = groupWeight np bmin weight := by
  have hlen : sh.length = np.sum := by rw [hsh.length_eq, List.length_range]
  have hc : ceilHalf np.sum = np.sum / 2 + np.sum % 2 := rfl
  have hidx2 : ∀ i, i < ceilHalf np.sum →
      ((List.range (ceilHalf np.sum)).map
        (fun i => sh.getD ((i + ceilHalf np.sum) % np.sum) 0)).getD i 0 =
        sh.getD ((i + ceilHalf np.sum) % np.sum) 0 := by
    intro i hi
    simp [List.getD_eq_getElem?_getD, hi]
  rw [buildPairs_intra]
  simp only
  refine ⟨((List.range (ceilHalf np.sum)).map (fun i =>
          decodedWeight np bmin weight ((sh.take (ceilHalf np.sum)).getD i 0))).sum,
    ((List.range (ceilHalf np.sum)).map (fun i =>
          if i < np.sum - ceilHalf np.sum then
            decodedWeight np bmin weight
              (((List.range (ceilHalf np.sum)).map
                (fun i => sh.getD ((i + ceilHalf np.sum) % np.sum) 0)).getD i 0)
          else 0)).sum, ?_, ?_⟩
  · rw [foldlM_densityStep]
    · simp only [zero_add]
    · intro i hi
      simp only
      refine ⟨?_, ?_⟩
      · rw [List.getD_eq_getElem?_getD]
        by_cases hk : i < (sh.take (ceilHalf np.sum)).length
        · rw [List.getElem?_eq_getElem hk]
          exact List.mem_range.mp (hsh.mem_iff.mp (List.mem_of_mem_take (List.getElem_mem hk)))
        · rw [List.getElem?_eq_none (by omega)]
          exact h1
      · rw [hidx2 i (List.mem_range.mp hi)]
        exact perm_getD_lt _ sh h1 hsh _
  · have ha : ((List.range (ceilHalf np.sum)).map (fun i =>
          decodedWeight np bmin weight ((sh.take (ceilHalf np.sum)).getD i 0))).sum =
        ((sh.take (ceilHalf np.sum)).map (decodedWeight np bmin weight)).sum := by
      have hl : (sh.take (ceilHalf np.sum)).length = ceilHalf np.sum := by
        rw [List.length_take, hlen]; omega
      rw [← map_getD_range (sh.take (ceilHalf np.sum)) (decodedWeight np bmin weight), hl]
    have hb : ((List.range (ceilHalf np.sum)).map (fun i =>
          if i < np.sum - ceilHalf np.sum then
            decodedWeight np bmin weight
              (((List.range (ceilHalf np.sum)).map
                (fun i => sh.getD ((i + ceilHalf np.sum) % np.sum) 0)).getD i 0)
          else 0)).sum =
        ((sh.drop (ceilHalf np.sum)).map (decodedWeight np bmin weight)).sum := by
      have hl : (sh.drop (ceilHalf np.sum)).length = np.sum - ceilHalf np.sum := by
        rw [List.length_drop, hlen]
      rw [← map_getD_range (sh.drop (ceilHalf np.sum)) (decodedWeight np bmin weight), hl,
        ← sum_range_trunc _ (np.sum - ceilHalf np.sum) (ceilHalf np.sum) (by omega)]
      apply congrArg
      apply List.map_congr_left
      intro i hi
      by_cases hlt : i < np.sum - ceilHalf np.sum
      · rw [if_pos hlt, if_pos hlt, hidx2 i (List.mem_range.mp hi),
          Nat.mod_eq_of_lt (by omega)]
        simp [List.getD_eq_getElem?_getD, Nat.add_comm]
      · rw [if_neg hlt, if_neg hlt]
    rw [ha, hb, ← List.sum_append, ← List.map_append, List.take_append_drop,
      ← sum_decodedWeight]
    exact (hsh.map _).sum_eq

theorem pairs_in_bounds (intra_collisions : Bool) (n1 n2 : Nat) (sh : List Nat)
    (h2 : 1 ≤ n2) (h12 : n2 ≤ n1) (hsh : sh.Perm (List.range n1))
    (hintra : intra_collisions = true → n2 = n1) (i : Nat)
    (hi : i < (buildPairs intra_collisions n1 n2 sh).npairs) :
    (buildPairs intra_collisions n1 n2 sh).index1.getD i 0 < n1 ∧
    (buildPairs intra_collisions n1 n2 sh).index2.getD i 0 < n2 := by
  cases intra_collisions with
  | false =>
    have hB : buildPairs false n1 n2 sh =
        { npairs := n1, index1 := sh,
          index2 := (List.range n1).map (fun i => i % n2), N2max := n2 } := by
      simp [buildPairs]
    rw [hB] at hi ⊢
    simp only at hi ⊢
    refine ⟨perm_getD_lt _ sh (by omega) hsh i, ?_⟩
    simp [List.getD_eq_getElem?_getD, hi]
    exact Nat.mod_lt _ (by omega)
  | true =>
    have hn := hintra rfl
    subst hn
    rw [buildPairs_intra] at hi ⊢
    simp only at hi ⊢
    refine ⟨?_, ?_⟩
    · rw [List.getD_eq_getElem?_getD]
      by_cases hk : i < (sh.take (ceilHalf n2)).length
      · rw [List.getElem?_eq_getElem hk]
        exact List.mem_range.mp (hsh.mem_iff.mp (List.mem_of_mem_take (List.getElem_mem hk)))
      · rw [List.getElem?_eq_none (by omega)]
        exact h2
    · simp [List.getD_eq_getElem?_getD, hi]
      have := perm_getD_lt _ sh h2 hsh ((i + ceilHalf n2) % n2)
      rwa [List.getD_eq_getElem?_getD] at this

theorem binDensities_of_fold (intra_collisions : Bool) (np1 bmin1 np2 bmin2 : List Nat)
    (weight1 weight2 : Nat → Nat → K) (sh : List Nat) (n_cell_per_cluster : Nat)
    (r : Densities K)
    (h : (List.range (buildPairs intra_collisions np1.sum np2.sum sh).npairs).foldlM
      (densityStep (buildPairs intra_collisions np1.sum np2.sum sh) np1 bmin1 np2 bmin2
        weight1 weight2) { n1 := 0, n2 := 0, n12 := 0 } = some r) :
    binDensities intra_collisions np1 bmin1 np2 bmin2 weight1 weight2 sh n_cell_per_cluster =
      some
        { n1 := (if intra_collisions then r.n1 + r.n2 else r.n1) *
            (1 / (n_cell_per_cluster : K))
          n2 := (if intra_collisions then r.n1 + r.n2 else r.n2) *
            (1 / (n_cell_per_cluster : K))
          n12 := r.n12 * (1 / (n_cell_per_cluster : K)) } := by
  unfold binDensities
  simp only [h]
  cases intra_collisions <;> simp

/-- Claim C3 (normalisation of the densities, exact arithmetic). For a bin that yields
pairs (`1 ≤ npart2 ≤ npart1`, inside one group both groups being the same), the densities
are computed and `n1 * n_cell_per_cluster` is the sum of the weights of all particles of
group 1, `n2 * n_cell_per_cluster` that of group 2, every particle counted once; inside one
group `n1 = n2`; and `n12 * n_cell_per_cluster` is the sum over the pairs of
`min(W1, W2)`, `W1` and `W2` being the weights found for the two particles of a pair. -/
theorem density_normalization (intra_collisions : Bool) (np1 bmin1 np2 bmin2 : List Nat)
    (weight1 weight2 : Nat → Nat → K) (sh : List Nat) (n_cell_per_cluster : Nat)
    (hcell : 0 < n_cell_per_cluster) (h2 : 1 ≤ np2.sum) (h12 : np2.sum ≤ np1.sum)
    (hsh : sh.Perm (List.range np1.sum))
    (hintra : intra_collisions = true → np2 = np1 ∧ bmin2 = bmin1 ∧ weight2 = weight1) :
    ∃ d : Densities K,
      binDensities intra_collisions np1 bmin1 np2 bmin2 weight1 weight2 sh
        n_cell_per_cluster = some d ∧
      d.n1 * n_cell_per_cluster = groupWeight np1 bmin1 weight1 ∧
      d.n2 * n_cell_per_cluster = groupWeight np2 bmin2 weight2 ∧
      (intra_collisions = true → d.n1 = d.n2) ∧
      d.n12 * n_cell_per_cluster =
        ((List.range (buildPairs intra_collisions np1.sum np2.sum sh).npairs).map (fun i =>
          min (decodedWeight np1 bmin1 weight1
                ((buildPairs intra_collisions np1.sum np2.sum sh).index1.getD i 0))
              (decodedWeight np2 bmin2 weight2
                ((buildPairs intra_collisions np1.sum np2.sum sh).index2.getD i 0)))).sum ∧
      (∀ i, i < (buildPairs intra_collisions np1.sum np2.sum sh).npairs →
        pairWeights (buildPairs intra_collisions np1.sum np2.sum sh) np1 bmin1 np2 bmin2
            weight1 weight2 i =
          some (decodedWeight np1 bmin1 weight1
                  ((buildPairs intra_collisions np1.sum np2.sum sh).index1.getD i 0),
                decodedWeight np2 bmin2 weight2
                  ((buildPairs intra_collisions np1.sum np2.sum sh).index2.getD i 0))) := by
  have hpw : ∀ i, i < (buildPairs intra_collisions np1.sum np2.sum sh).npairs →
      pairWeights (buildPairs intra_collisions np1.sum np2.sum sh) np1 bmin1 np2 bmin2
          weight1 weight2 i =
        some (decodedWeight np1 bmin1 weight1
                ((buildPairs intra_collisions np1.sum np2.sum sh).index1.getD i 0),
              decodedWeight np2 bmin2 weight2
                ((buildPairs intra_collisions np1.sum np2.sum sh).index2.getD i 0)) := by
    intro i hi
    have hb := pairs_in_bounds intra_collisions np1.sum np2.sum sh h2 h12 hsh
      (fun h => by rw [(hintra h).1]) i hi
    exact pairWeights_eq _ np1 bmin1 np2 bmin2 weight1 weight2 i hb.1 hb.2
  have hcK : (n_cell_per_cluster : K) ≠ 0 := by
    exact_mod_cast (Nat.pos_iff_ne_zero.mp hcell)
  cases intra_collisions with
  | false =>
    have hraw := rawSums_inter np1 bmin1 np2 bmin2 weight1 weight2 sh h2 h12 hsh
    have hbin := binDensities_of_fold false np1 bmin1 np2 bmin2 weight1 weight2 sh
      n_cell_per_cluster _ hraw
    refine ⟨_, hbin, ?_, ?_, ?_, ?_, hpw⟩
    · simp only [Bool.false_eq_true, if_false]; field_simp
    · simp only [Bool.false_eq_true, if_false]; field_simp
    · intro h; cases h
    · simp only [Bool.false_eq_true, if_false]; field_simp
  | true =>
    obtain ⟨e1, e2, e3⟩ := hintra rfl
    subst e1 e2 e3
    obtain ⟨a, b, hraw, hab⟩ := rawSums_intra np2 bmin2 weight2 sh h2 hsh
    have hbin := binDensities_of_fold true np2 bmin2 np2 bmin2 weight2 weight2 sh
      n_cell_per_cluster _ hraw
    refine ⟨_, hbin, ?_, ?_, ?_, ?_, hpw⟩
    · simp only [if_true]; rw [← hab]; field_simp
    · simp only [if_true]; rw [← hab]; field_simp
    · intro _; rfl
    · simp only [if_true]; field_simp

/-- Three particles (two species) against two, two cells per cluster. -/
theorem density_normalization_witness :
    ∃ d : Densities ℚ,
      binDensities false [2, 0, 1] [5, 5, 7] [1, 1] [0, 3] sampleWeight sampleWeight
        [2, 0, 1] 2 = some d ∧
      d.n1 * (2 : ℕ) = groupWeight [2, 0, 1] [5, 5, 7] sampleWeight ∧
      d.n2 * (2 : ℕ) = groupWeight [1, 1] [0, 3] sampleWeight := by
  obtain ⟨d, h1, h2, h3, _⟩ := density_normalization false [2, 0, 1] [5, 5, 7] [1, 1] [0, 3]
    sampleWeight sampleWeight [2, 0, 1] 2 (by decide) (by decide) (by decide) (by decide)
    (by intro h; cases h)
  exact ⟨d, h1, h2, h3⟩

end densityProofs

/-! ### Deflection angle -/

theorem invA_pos (s : ℝ) (hs : 0 ≤ s) :
    0 < 0.00569578 + (0.95602 + (-0.508139 + (0.479139 + (-0.12789 + 0.0238957 * s) * s) * s) * s) * s := by
  have hQ1 : 0 < 0.2 * s ^ 2 - 0.508139 * s + 0.95602 := by
    nlinarith [sq_nonneg (s - 1.27)]
  have hQ2 : 0 < 0.0238957 * s ^ 2 - 0.12789 * s + 0.279139 := by
    nlinarith [sq_nonneg (s - 2.676)]
  have e : 0.00569578 + (0.95602 + (-0.508139 + (0.479139 + (-0.12789 + 0.0238957 * s) * s) * s) * s) * s
      = 0.00569578 + s * (0.2 * s ^ 2 - 0.508139 * s + 0.95602)
        + s ^ 3 * (0.0238957 * s ^ 2 - 0.12789 * s + 0.279139) := by ring
  rw [e]
  positivity

theorem gammaOf_sq (p : Vec3) : gammaOf p ^ 2 = 1 + p.x ^ 2 + p.y ^ 2 + p.z ^ 2 := by
  unfold gammaOf
  exact Real.sq_sqrt (by positivity)

theorem gammaOf_pos (p : Vec3) : 0 < gammaOf p := by
  unfold gammaOf
  exact Real.sqrt_pos.mpr (by positivity)

theorem gammaOf_ge_one (p : Vec3) : 1 ≤ gammaOf p := by
  unfold gammaOf
  rw [show (1:ℝ) = Real.sqrt 1 by simp]
  apply Real.sqrt_le_sqrt
  have : (0:ℝ) ≤ p.x ^ 2 + p.y ^ 2 + p.z ^ 2 := by positivity
  simp; linarith

theorem gamma_mul_gt_dot (p1 p2 : Vec3) :
    |p1.x * p2.x + p1.y * p2.y + p1.z * p2.z| < gammaOf p1 * gammaOf p2 := by
  have h1 := gammaOf_sq p1
  have h2 := gammaOf_sq p2
  have hp := mul_pos (gammaOf_pos p1) (gammaOf_pos p2)
  apply abs_lt_of_sq_lt_sq _ hp.le
  rw [mul_pow, h1, h2]
  nlinarith [sq_nonneg (p1.x * p2.y - p1.y * p2.x), sq_nonneg (p1.x * p2.z - p1.z * p2.x),
    sq_nonneg (p1.y * p2.z - p1.z * p2.y), sq_nonneg p1.x, sq_nonneg p1.y, sq_nonneg p1.z,
    sq_nonneg p2.x, sq_nonneg p2.y, sq_nonneg p2.z]

theorem m12_pos (m1 m2 : ℝ) (h1 : 0 < m1) (h2 : 0 < m2) : 0 < m12 m1 m2 := by
  unfold m12; positivity

theorem gamma12_pos (m1 m2 : ℝ) (p1 p2 : Vec3) (h1 : 0 < m1) (h2 : 0 < m2) :
    0 < gamma12 m1 m2 p1 p2 := by
  unfold gamma12
  have := m12_pos m1 m2 h1 h2
  have := gammaOf_pos p1
  have := gammaOf_pos p2
  positivity

/-- The defining relation of the COM velocity: `v * gamma12 = m12 * p1 + p2`. -/
theorem COM_v_mul (m1 m2 : ℝ) (p1 p2 : Vec3) (h1 : 0 < m1) (h2 : 0 < m2) :
    (COM_v m1 m2 p1 p2).x * gamma12 m1 m2 p1 p2 = m12 m1 m2 * p1.x + p2.x ∧
    (COM_v m1 m2 p1 p2).y * gamma12 m1 m2 p1 p2 = m12 m1 m2 * p1.y + p2.y ∧
    (COM_v m1 m2 p1 p2).z * gamma12 m1 m2 p1 p2 = m12 m1 m2 * p1.z + p2.z := by
  have hg := (gamma12_pos m1 m2 p1 p2 h1 h2).ne'
  unfold COM_v gamma12_inv
  refine ⟨?_, ?_, ?_⟩ <;> field_simp

theorem COM_vsquare_nonneg (m1 m2 : ℝ) (p1 p2 : Vec3) : 0 ≤ COM_vsquare m1 m2 p1 p2 := by
  unfold COM_vsquare
  nlinarith [mul_self_nonneg (COM_v m1 m2 p1 p2).x, mul_self_nonneg (COM_v m1 m2 p1 p2).y,
    mul_self_nonneg (COM_v m1 m2 p1 p2).z]

theorem COM_vsquare_lt_one (m1 m2 : ℝ) (p1 p2 : Vec3) (h1 : 0 < m1) (h2 : 0 < m2) :
    COM_vsquare m1 m2 p1 p2 < 1 := by
  obtain ⟨hx, hy, hz⟩ := COM_v_mul m1 m2 p1 p2 h1 h2
  have hg := gamma12_pos m1 m2 p1 p2 h1 h2
  have hm := m12_pos m1 m2 h1 h2
  have hd := abs_lt.mp (gamma_mul_gt_dot p1 p2)
  have hs1 := gammaOf_sq p1
  have hs2 := gammaOf_sq p2
  have key : COM_vsquare m1 m2 p1 p2 * gamma12 m1 m2 p1 p2 ^ 2 < gamma12 m1 m2 p1 p2 ^ 2 := by
    have e : COM_vsquare m1 m2 p1 p2 * gamma12 m1 m2 p1 p2 ^ 2 =
        (m12 m1 m2 * p1.x + p2.x) ^ 2 + (m12 m1 m2 * p1.y + p2.y) ^ 2 +
          (m12 m1 m2 * p1.z + p2.z) ^ 2 := by
      rw [← hx, ← hy, ← hz]; unfold COM_vsquare; ring
    rw [e]
    unfold gamma12
    nlinarith [mul_pos hm hm, mul_pos hm (sub_pos.mpr hd.2)]
  have hg2 : 0 < gamma12 m1 m2 p1 p2 ^ 2 := by positivity
  by_contra hcon
  push_neg at hcon
  nlinarith

theorem COM_gamma_eq (m1 m2 : ℝ) (p1 p2 : Vec3) (h1 : 0 < m1) (h2 : 0 < m2) :
    COM_gamma m1 m2 p1 p2 = 1 / Real.sqrt (1 - COM_vsquare m1 m2 p1 p2) := by
  have hv := COM_vsquare_lt_one m1 m2 p1 p2 h1 h2
  have hpos : 0 ≤ 1 - COM_vsquare m1 m2 p1 p2 := by linarith
  unfold COM_gamma
  rw [show (-0.5 : ℝ) = -(1 / 2) by norm_num, Real.rpow_neg hpos, ← Real.sqrt_eq_rpow,
    one_div]

theorem COM_gamma_pos (m1 m2 : ℝ) (p1 p2 : Vec3) (h1 : 0 < m1) (h2 : 0 < m2) :
    0 < COM_gamma m1 m2 p1 p2 := by
  have hv := COM_vsquare_lt_one m1 m2 p1 p2 h1 h2
  rw [COM_gamma_eq m1 m2 p1 p2 h1 h2]
  have : 0 < Real.sqrt (1 - COM_vsquare m1 m2 p1 p2) := Real.sqrt_pos.mpr (by linarith)
  positivity

theorem COM_gamma_sq (m1 m2 : ℝ) (p1 p2 : Vec3) (h1 : 0 < m1) (h2 : 0 < m2) :
    COM_gamma m1 m2 p1 p2 ^ 2 * (1 - COM_vsquare m1 m2 p1 p2) = 1 := by
  have hv := COM_vsquare_lt_one m1 m2 p1 p2 h1 h2
  have hs : Real.sqrt (1 - COM_vsquare m1 m2 p1 p2) ^ 2 = 1 - COM_vsquare m1 m2 p1 p2 :=
    Real.sq_sqrt (by linarith)
  have hne : Real.sqrt (1 - COM_vsquare m1 m2 p1 p2) ≠ 0 :=
    (Real.sqrt_pos.mpr (by linarith)).ne'
  have hne1 : 1 - COM_vsquare m1 m2 p1 p2 ≠ 0 := by linarith
  rw [COM_gamma_eq m1 m2 p1 p2 h1 h2, div_pow, one_pow, hs]
  field_simp

theorem COM_gamma_ge_one (m1 m2 : ℝ) (p1 p2 : Vec3) (h1 : 0 < m1) (h2 : 0 < m2) :
    1 ≤ COM_gamma m1 m2 p1 p2 := by
  have hsq := COM_gamma_sq m1 m2 p1 p2 h1 h2
  have hpos := COM_gamma_pos m1 m2 p1 p2 h1 h2
  have hv0 := COM_vsquare_nonneg m1 m2 p1 p2
  nlinarith [mul_nonneg (sq_nonneg (COM_gamma m1 m2 p1 p2)) hv0]

theorem term1_mul_vsquare (m1 m2 : ℝ) (p1 p2 : Vec3) (hv : COM_vsquare m1 m2 p1 p2 ≠ 0) :
    term1 m1 m2 p1 p2 * COM_vsquare m1 m2 p1 p2 = COM_gamma m1 m2 p1 p2 - 1 := by
  unfold term1
  field_simp

theorem term1_mul_gamma (m1 m2 : ℝ) (p1 p2 : Vec3) (h1 : 0 < m1) (h2 : 0 < m2)
    (hv : COM_vsquare m1 m2 p1 p2 ≠ 0) :
    term1 m1 m2 p1 p2 * (COM_gamma m1 m2 p1 p2 + 1) = COM_gamma m1 m2 p1 p2 ^ 2 := by
  have hT := term1_mul_vsquare m1 m2 p1 p2 hv
  have hG := COM_gamma_sq m1 m2 p1 p2 h1 h2
  apply mul_right_cancel₀ hv
  linear_combination (COM_gamma m1 m2 p1 p2 + 1) * hT + hG

theorem term2_eq (m1 m2 : ℝ) (p1 p2 : Vec3) :
    term2 m1 m2 p1 p2 =
      term1 m1 m2 p1 p2 * (COM_v m1 m2 p1 p2).dot p1 - COM_gamma m1 m2 p1 p2 * gammaOf p1 := by
  have hg := (gammaOf_pos p1).ne'
  unfold term2 vcv1 Vec3.dot
  field_simp
  ring

theorem gamma1_COM_eq (m1 m2 : ℝ) (p1 p2 : Vec3) :
    gamma1_COM m1 m2 p1 p2 =
      COM_gamma m1 m2 p1 p2 * (gammaOf p1 - (COM_v m1 m2 p1 p2).dot p1) := by
  have hg := (gammaOf_pos p1).ne'
  unfold gamma1_COM vcv1 Vec3.dot
  field_simp
  ring

theorem gamma2_COM_eq (m1 m2 : ℝ) (p1 p2 : Vec3) :
    gamma2_COM m1 m2 p1 p2 =
      COM_gamma m1 m2 p1 p2 * (gammaOf p2 - (COM_v m1 m2 p1 p2).dot p2) := by
  have hg := (gammaOf_pos p2).ne'
  unfold gamma2_COM vcv2 Vec3.dot
  field_simp
  ring

/-- The relation `m12 (v·p1) + v·p2 = gamma12 * v²`. -/
theorem dot_sum_eq (m1 m2 : ℝ) (p1 p2 : Vec3) (h1 : 0 < m1) (h2 : 0 < m2) :
    m12 m1 m2 * (COM_v m1 m2 p1 p2).dot p1 + (COM_v m1 m2 p1 p2).dot p2 =
      gamma12 m1 m2 p1 p2 * COM_vsquare m1 m2 p1 p2 := by
  obtain ⟨hx, hy, hz⟩ := COM_v_mul m1 m2 p1 p2 h1 h2
  unfold Vec3.dot COM_vsquare
  linear_combination (-(COM_v m1 m2 p1 p2).x) * hx - (COM_v m1 m2 p1 p2).y * hy -
    (COM_v m1 m2 p1 p2).z * hz

theorem boost_mass_shell (v p : Vec3) (T G g : ℝ)
    (hT : T * v.dot v = G - 1) (hTG : T * (G + 1) = G ^ 2) (hG : G ^ 2 * (1 - v.dot v) = 1)
    (hg : g ^ 2 = 1 + p.x ^ 2 + p.y ^ 2 + p.z ^ 2) :
    (G * (g - v.dot p)) ^ 2 = 1 + (boost v T G g p).dot (boost v T G g p) := by
  unfold boost
  simp only [Vec3.dot] at *
  linear_combination hg - (T * (v.x * p.x + v.y * p.y + v.z * p.z) ^ 2
    - 2 * (v.x * p.x + v.y * p.y + v.z * p.z) * G * g) * hT + g ^ 2 * hG
    - (v.x * p.x + v.y * p.y + v.z * p.z) ^ 2 * hTG

theorem backBoost1_boost (v p : Vec3) (T G g : ℝ)
    (hT : T * v.dot v = G - 1) (hTG : T * (G + 1) = G ^ 2) :
    backBoost1 v T (G * (g - v.dot p)) G (boost v T G g p) = p := by
  unfold backBoost1 boost
  simp only [Vec3.dot] at *
  ext
  · simp only
    linear_combination (v.x * (T * (v.x * p.x + v.y * p.y + v.z * p.z) - G * g)) * hT +
      (v.x * (v.x * p.x + v.y * p.y + v.z * p.z)) * hTG
  · simp only
    linear_combination (v.y * (T * (v.x * p.x + v.y * p.y + v.z * p.z) - G * g)) * hT +
      (v.y * (v.x * p.x + v.y * p.y + v.z * p.z)) * hTG
  · simp only
    linear_combination (v.z * (T * (v.x * p.x + v.y * p.y + v.z * p.z) - G * g)) * hT +
      (v.z * (v.x * p.x + v.y * p.y + v.z * p.z)) * hTG

theorem backBoost1_energy_sq (v n : Vec3) (T G gc : ℝ)
    (hT : T * v.dot v = G - 1) (hTG : T * (G + 1) = G ^ 2) (hG : G ^ 2 * (1 - v.dot v) = 1)
    (hgc : gc ^ 2 = 1 + n.dot n) :
    1 + (backBoost1 v T gc G n).x ^ 2 + (backBoost1 v T gc G n).y ^ 2 +
      (backBoost1 v T gc G n).z ^ 2 = (G * (gc + v.dot n)) ^ 2 := by
  unfold backBoost1
  simp only [Vec3.dot] at *
  linear_combination (-1 : ℝ) * hgc + (T * (v.x * n.x + v.y * n.y + v.z * n.z) ^ 2
    + 2 * (v.x * n.x + v.y * n.y + v.z * n.z) * G * gc) * hT - gc ^ 2 * hG
    + (v.x * n.x + v.y * n.y + v.z * n.z) ^ 2 * hTG

theorem COM_vsquare_eq_dot (m1 m2 : ℝ) (p1 p2 : Vec3) :
    COM_vsquare m1 m2 p1 p2 = (COM_v m1 m2 p1 p2).dot (COM_v m1 m2 p1 p2) := rfl

theorem pCOM_eq_boost (m1 m2 : ℝ) (p1 p2 : Vec3) :
    pCOM m1 m2 p1 p2 =
      boost (COM_v m1 m2 p1 p2) (term1 m1 m2 p1 p2) (COM_gamma m1 m2 p1 p2) (gammaOf p1) p1 := by
  unfold pCOM boost
  rw [term2_eq]

/-- In the COM frame the momentum of particle 2 is `-m12` times that of particle 1. -/
theorem boost_p2_eq (m1 m2 : ℝ) (p1 p2 : Vec3) (h1 : 0 < m1) (h2 : 0 < m2)
    (hv : COM_vsquare m1 m2 p1 p2 ≠ 0) :
    boost (COM_v m1 m2 p1 p2) (term1 m1 m2 p1 p2) (COM_gamma m1 m2 p1 p2) (gammaOf p2) p2 =
      Vec3.scale (-m12 m1 m2) (pCOM m1 m2 p1 p2) := by
  obtain ⟨hx, hy, hz⟩ := COM_v_mul m1 m2 p1 p2 h1 h2
  have hT := term1_mul_vsquare m1 m2 p1 p2 hv
  have hd := dot_sum_eq m1 m2 p1 p2 h1 h2
  have hg12 : gamma12 m1 m2 p1 p2 = m12 m1 m2 * gammaOf p1 + gammaOf p2 := rfl
  rw [pCOM_eq_boost]
  unfold boost Vec3.scale
  ext
  · simp only
    linear_combination (-1 : ℝ) * hx + (COM_v m1 m2 p1 p2).x * term1 m1 m2 p1 p2 * hd
      + (COM_v m1 m2 p1 p2).x * gamma12 m1 m2 p1 p2 * hT
      + (COM_v m1 m2 p1 p2).x * COM_gamma m1 m2 p1 p2 * hg12
  · simp only
    linear_combination (-1 : ℝ) * hy + (COM_v m1 m2 p1 p2).y * term1 m1 m2 p1 p2 * hd
      + (COM_v m1 m2 p1 p2).y * gamma12 m1 m2 p1 p2 * hT
      + (COM_v m1 m2 p1 p2).y * COM_gamma m1 m2 p1 p2 * hg12
  · simp only
    linear_combination (-1 : ℝ) * hz + (COM_v m1 m2 p1 p2).z * term1 m1 m2 p1 p2 * hd
      + (COM_v m1 m2 p1 p2).z * gamma12 m1 m2 p1 p2 * hT
      + (COM_v m1 m2 p1 p2).z * COM_gamma m1 m2 p1 p2 * hg12

theorem backBoost2_eq (v : Vec3) (m T gc G : ℝ) (n : Vec3) :
    backBoost2 v m T gc G n = backBoost1 v T gc G (Vec3.scale (-m) n) := by
  unfold backBoost2 backBoost1 Vec3.scale
  ext <;> simp only <;> ring

theorem dot_sq_le (v n : Vec3) : (v.dot n) ^ 2 ≤ v.dot v * n.dot n := by
  unfold Vec3.dot
  nlinarith [sq_nonneg (v.x * n.y - v.y * n.x), sq_nonneg (v.x * n.z - v.z * n.x),
    sq_nonneg (v.y * n.z - v.z * n.y)]

theorem abs_dot_lt (v n : Vec3) (gc : ℝ) (hv : v.dot v < 1) (hgc : gc ^ 2 = 1 + n.dot n)
    (hpos : 0 < gc) : |v.dot n| < gc := by
  apply abs_lt_of_sq_lt_sq _ hpos.le
  have h := dot_sq_le v n
  have hn : 0 ≤ n.dot n := by unfold Vec3.dot; nlinarith [sq_nonneg n.x, sq_nonneg n.y, sq_nonneg n.z]
  have hv0 : 0 ≤ v.dot v := by unfold Vec3.dot; nlinarith [sq_nonneg v.x, sq_nonneg v.y, sq_nonneg v.z]
  nlinarith

/-- Lorentz factor of a back-boosted momentum lying on the mass shell. -/
theorem gammaOf_backBoost1 (v n : Vec3) (T G gc : ℝ)
    (hT : T * v.dot v = G - 1) (hTG : T * (G + 1) = G ^ 2) (hG : G ^ 2 * (1 - v.dot v) = 1)
    (hGpos : 0 < G) (hv : v.dot v < 1) (hgc : gc ^ 2 = 1 + n.dot n) (hpos : 0 < gc) :
    gammaOf (backBoost1 v T gc G n) = G * (gc + v.dot n) := by
  have hsq := backBoost1_energy_sq v n T G gc hT hTG hG hgc
  have habs := abs_lt.mp (abs_dot_lt v n gc hv hgc hpos)
  unfold gammaOf
  rw [hsq]
  exact Real.sqrt_sq (mul_nonneg hGpos.le (by linarith))

theorem deflect_norm (pc : Vec3) (p cosX phi : ℝ) (hp : p = Real.sqrt (pc.dot pc))
    (hc1 : -1 ≤ cosX) (hc2 : cosX ≤ 1) :
    (deflect pc p cosX phi).dot (deflect pc p cosX phi) = pc.dot pc := by
  have hnn : 0 ≤ pc.dot pc := by
    unfold Vec3.dot; nlinarith [sq_nonneg pc.x, sq_nonneg pc.y, sq_nonneg pc.z]
  have hp2 : p ^ 2 = pc.dot pc := by rw [hp]; exact Real.sq_sqrt hnn
  have hp0 : 0 ≤ p := by rw [hp]; exact Real.sqrt_nonneg _
  have hs : Real.sqrt (1 - cosX * cosX) ^ 2 = 1 - cosX * cosX :=
    Real.sq_sqrt (by nlinarith)
  have hpp : Real.sqrt (pc.x * pc.x + pc.y * pc.y) ^ 2 = pc.x * pc.x + pc.y * pc.y :=
    Real.sq_sqrt (by nlinarith [sq_nonneg pc.x, sq_nonneg pc.y])
  have hcs := Real.cos_sq_add_sin_sq phi
  unfold deflect
  simp only
  unfold Vec3.dot at hp2 ⊢
  split_ifs with hbr
  · have hne : Real.sqrt (pc.x * pc.x + pc.y * pc.y) ≠ 0 := by
      have : 0 ≤ 1.e-10 * p := by positivity
      exact (lt_of_le_of_lt this hbr).ne'
    simp only
    field_simp
    generalize Real.sqrt (pc.x * pc.x + pc.y * pc.y) = pp at *
    generalize Real.sqrt (1 - cosX * cosX) = sx at *
    generalize Real.cos phi = cp at *
    generalize Real.sin phi = sp at *
    linear_combination
      (-2 * cosX * pp * pc.z * (sx * cp) + pp ^ 2 * (sx * cp) ^ 2
        + (pc.x * pc.x + pc.y * pc.y) * (sx * cp) ^ 2
        - (pc.x * pc.x + pc.y * pc.y + pc.z * pc.z) * sx ^ 2) * hpp
      + (pc.x * pc.x + pc.y * pc.y) * (sx * sp) ^ 2 * hp2
      + (pc.x * pc.x + pc.y * pc.y + pc.z * pc.z) * (pc.x * pc.x + pc.y * pc.y) * sx ^ 2 * hcs
      + (pc.x * pc.x + pc.y * pc.y + pc.z * pc.z) * pp ^ 2 * hs
  · simp only
    generalize Real.sqrt (1 - cosX * cosX) = sx at *
    generalize Real.cos phi = cp at *
    generalize Real.sin phi = sp at *
    linear_combination (sx ^ 2 * cp ^ 2 + sx ^ 2 * sp ^ 2 + cosX ^ 2) * hp2 +
      (pc.x * pc.x + pc.y * pc.y + pc.z * pc.z) * (sx ^ 2 * hcs + hs)

theorem scatter_eq (m1 m2 W1 W2 : ℝ) (p1 p2 : Vec3) (cosX phi U : ℝ) :
    scatter m1 m2 W1 W2 p1 p2 cosX phi U =
      (if U < W2 / W1 then deflected1 m1 m2 p1 p2 cosX phi else p1,
       if U < W1 / W2 then deflected2 m1 m2 p1 p2 cosX phi else p2) := rfl

theorem m12_mul (m1 m2 : ℝ) (h2 : 0 < m2) : m12 m1 m2 * m2 = m1 := by
  unfold m12; field_simp

/-- Momentum balance of the two back-boosts, for any new COM momentum. -/
theorem backBoost_momentum (m1 m2 : ℝ) (p1 p2 n : Vec3) (h1 : 0 < m1) (h2 : 0 < m2) :
    m1 * (backBoost1 (COM_v m1 m2 p1 p2) (term1 m1 m2 p1 p2) (gamma1_COM m1 m2 p1 p2)
        (COM_gamma m1 m2 p1 p2) n).x +
      m2 * (backBoost2 (COM_v m1 m2 p1 p2) (m12 m1 m2) (term1 m1 m2 p1 p2)
        (gamma2_COM m1 m2 p1 p2) (COM_gamma m1 m2 p1 p2) n).x = m1 * p1.x + m2 * p2.x ∧
    m1 * (backBoost1 (COM_v m1 m2 p1 p2) (term1 m1 m2 p1 p2) (gamma1_COM m1 m2 p1 p2)
        (COM_gamma m1 m2 p1 p2) n).y +
      m2 * (backBoost2 (COM_v m1 m2 p1 p2) (m12 m1 m2) (term1 m1 m2 p1 p2)
        (gamma2_COM m1 m2 p1 p2) (COM_gamma m1 m2 p1 p2) n).y = m1 * p1.y + m2 * p2.y ∧
    m1 * (backBoost1 (COM_v m1 m2 p1 p2) (term1 m1 m2 p1 p2) (gamma1_COM m1 m2 p1 p2)
        (COM_gamma m1 m2 p1 p2) n).z +
      m2 * (backBoost2 (COM_v m1 m2 p1 p2) (m12 m1 m2) (term1 m1 m2 p1 p2)
        (gamma2_COM m1 m2 p1 p2) (COM_gamma m1 m2 p1 p2) n).z = m1 * p1.z + m2 * p2.z := by
  obtain ⟨hx, hy, hz⟩ := COM_v_mul m1 m2 p1 p2 h1 h2
  have hm := m12_mul m1 m2 h2
  have hd := dot_sum_eq m1 m2 p1 p2 h1 h2
  have hG := COM_gamma_sq m1 m2 p1 p2 h1 h2
  have hg12 : gamma12 m1 m2 p1 p2 = m12 m1 m2 * gammaOf p1 + gammaOf p2 := rfl
  rw [gamma1_COM_eq, gamma2_COM_eq]
  unfold backBoost1 backBoost2
  simp only
  generalize COM_v m1 m2 p1 p2 = v at *
  generalize term1 m1 m2 p1 p2 = T at *
  generalize COM_gamma m1 m2 p1 p2 = G at *
  generalize gamma12 m1 m2 p1 p2 = g12 at *
  generalize m12 m1 m2 = r at *
  generalize COM_vsquare m1 m2 p1 p2 = vsq at *
  refine ⟨?_, ?_, ?_⟩
  · linear_combination
      (-(n.x + v.x * T * (v.x * n.x + v.y * n.y + v.z * n.z))
        - v.x * G ^ 2 * (gammaOf p1 - v.dot p1) + p1.x) * hm
      - v.x * G ^ 2 * m2 * hg12 - v.x * G ^ 2 * m2 * hd + v.x * m2 * g12 * hG + m2 * hx
  · linear_combination
      (-(n.y + v.y * T * (v.x * n.x + v.y * n.y + v.z * n.z))
        - v.y * G ^ 2 * (gammaOf p1 - v.dot p1) + p1.y) * hm
      - v.y * G ^ 2 * m2 * hg12 - v.y * G ^ 2 * m2 * hd + v.y * m2 * g12 * hG + m2 * hy
  · linear_combination
      (-(n.z + v.z * T * (v.x * n.x + v.y * n.y + v.z * n.z))
        - v.z * G ^ 2 * (gammaOf p1 - v.dot p1) + p1.z) * hm
      - v.z * G ^ 2 * m2 * hg12 - v.z * G ^ 2 * m2 * hd + v.z * m2 * g12 * hG + m2 * hz

theorem weight_min_eq (W1 W2 : ℝ) (hW1 : 0 < W1) (hW2 : 0 < W2) :
    W1 * min 1 (W2 / W1) = W2 * min 1 (W1 / W2) := by
  rcases le_total W1 W2 with h | h
  · rw [min_eq_left ((one_le_div hW1).mpr h), min_eq_right ((div_le_one hW2).mpr h)]
    field_simp
  · rw [min_eq_right ((div_le_one hW1).mpr h), min_eq_left ((one_le_div hW2).mpr h)]
    field_simp

theorem gamma1_COM_pos (m1 m2 : ℝ) (p1 p2 : Vec3) (h1 : 0 < m1) (h2 : 0 < m2) :
    0 < gamma1_COM m1 m2 p1 p2 := by
  have hv := COM_vsquare_lt_one m1 m2 p1 p2 h1 h2
  rw [COM_vsquare_eq_dot] at hv
  have hg : gammaOf p1 ^ 2 = 1 + p1.dot p1 := by
    rw [gammaOf_sq]; unfold Vec3.dot; ring
  have habs := abs_lt.mp (abs_dot_lt (COM_v m1 m2 p1 p2) p1 (gammaOf p1) hv hg (gammaOf_pos p1))
  rw [gamma1_COM_eq]
  exact mul_pos (COM_gamma_pos m1 m2 p1 p2 h1 h2) (by linarith)

theorem gamma2_COM_pos (m1 m2 : ℝ) (p1 p2 : Vec3) (h1 : 0 < m1) (h2 : 0 < m2) :
    0 < gamma2_COM m1 m2 p1 p2 := by
  have hv := COM_vsquare_lt_one m1 m2 p1 p2 h1 h2
  rw [COM_vsquare_eq_dot] at hv
  have hg : gammaOf p2 ^ 2 = 1 + p2.dot p2 := by
    rw [gammaOf_sq]; unfold Vec3.dot; ring
  have habs := abs_lt.mp (abs_dot_lt (COM_v m1 m2 p1 p2) p2 (gammaOf p2) hv hg (gammaOf_pos p2))
  rw [gamma2_COM_eq]
  exact mul_pos (COM_gamma_pos m1 m2 p1 p2 h1 h2) (by linarith)

/-- Lorentz factors of the two deflected particles. -/
theorem gammaOf_deflected (m1 m2 : ℝ) (p1 p2 : Vec3) (cosX phi : ℝ)
    (h1 : 0 < m1) (h2 : 0 < m2) (hv : COM_vsquare m1 m2 p1 p2 ≠ 0)
    (hc1 : -1 ≤ cosX) (hc2 : cosX ≤ 1) :
    gammaOf (deflected1 m1 m2 p1 p2 cosX phi) =
      COM_gamma m1 m2 p1 p2 * (gamma1_COM m1 m2 p1 p2 +
        (COM_v m1 m2 p1 p2).dot (deflect (pCOM m1 m2 p1 p2) (p_COM m1 m2 p1 p2) cosX phi)) ∧
    gammaOf (deflected2 m1 m2 p1 p2 cosX phi) =
      COM_gamma m1 m2 p1 p2 * (gamma2_COM m1 m2 p1 p2 -
        m12 m1 m2 *
        (COM_v m1 m2 p1 p2).dot (deflect (pCOM m1 m2 p1 p2) (p_COM m1 m2 p1 p2) cosX phi)) := by
  have hT := term1_mul_vsquare m1 m2 p1 p2 hv
  have hTG := term1_mul_gamma m1 m2 p1 p2 h1 h2 hv
  have hG := COM_gamma_sq m1 m2 p1 p2 h1 h2
  have hGpos := COM_gamma_pos m1 m2 p1 p2 h1 h2
  have hlt := COM_vsquare_lt_one m1 m2 p1 p2 h1 h2
  rw [COM_vsquare_eq_dot] at hT hG hlt
  have hn := deflect_norm (pCOM m1 m2 p1 p2) (p_COM m1 m2 p1 p2) cosX phi rfl hc1 hc2
  have hs1 := boost_mass_shell (COM_v m1 m2 p1 p2) p1 (term1 m1 m2 p1 p2)
    (COM_gamma m1 m2 p1 p2) (gammaOf p1) hT hTG hG (gammaOf_sq p1)
  have hs2 := boost_mass_shell (COM_v m1 m2 p1 p2) p2 (term1 m1 m2 p1 p2)
    (COM_gamma m1 m2 p1 p2) (gammaOf p2) hT hTG hG (gammaOf_sq p2)
  rw [← gamma1_COM_eq, ← pCOM_eq_boost, ← hn] at hs1
  rw [← gamma2_COM_eq, boost_p2_eq m1 m2 p1 p2 h1 h2 hv] at hs2
  constructor
  · unfold deflected1
    exact gammaOf_backBoost1 _ _ _ _ _ hT hTG hG hGpos hlt hs1 (gamma1_COM_pos m1 m2 p1 p2 h1 h2)
  · unfold deflected2
    rw [backBoost2_eq]
    have hs2' : gamma2_COM m1 m2 p1 p2 ^ 2 = 1 +
        (Vec3.scale (-m12 m1 m2)
          (deflect (pCOM m1 m2 p1 p2) (p_COM m1 m2 p1 p2) cosX phi)).dot
        (Vec3.scale (-m12 m1 m2)
          (deflect (pCOM m1 m2 p1 p2) (p_COM m1 m2 p1 p2) cosX phi)) := by
      rw [hs2]
      have e : ∀ (a : ℝ) (w : Vec3), (Vec3.scale a w).dot (Vec3.scale a w) = a ^ 2 * w.dot w := by
        intro a w; unfold Vec3.scale Vec3.dot; ring
      rw [e, e, hn]
    rw [gammaOf_backBoost1 _ _ _ _ _ hT hTG hG hGpos hlt hs2' (gamma2_COM_pos m1 m2 p1 p2 h1 h2)]
    unfold Vec3.scale Vec3.dot
    ring

/-- Energy balance of the two deflected particles. -/
theorem deflected_energy (m1 m2 : ℝ) (p1 p2 : Vec3) (cosX phi : ℝ)
    (h1 : 0 < m1) (h2 : 0 < m2) (hv : COM_vsquare m1 m2 p1 p2 ≠ 0)
    (hc1 : -1 ≤ cosX) (hc2 : cosX ≤ 1) :
    m1 * gammaOf (deflected1 m1 m2 p1 p2 cosX phi) +
      m2 * gammaOf (deflected2 m1 m2 p1 p2 cosX phi) = m1 * gammaOf p1 + m2 * gammaOf p2 := by
  obtain ⟨e1, e2⟩ := gammaOf_deflected m1 m2 p1 p2 cosX phi h1 h2 hv hc1 hc2
  have hm := m12_mul m1 m2 h2
  have hd := dot_sum_eq m1 m2 p1 p2 h1 h2
  have hG := COM_gamma_sq m1 m2 p1 p2 h1 h2
  have hg12 : gamma12 m1 m2 p1 p2 = m12 m1 m2 * gammaOf p1 + gammaOf p2 := rfl
  rw [e1, e2, gamma1_COM_eq, gamma2_COM_eq]
  generalize (COM_v m1 m2 p1 p2).dot (deflect (pCOM m1 m2 p1 p2) (p_COM m1 m2 p1 p2) cosX phi)
    = vn at *
  generalize (COM_v m1 m2 p1 p2).dot p1 = d1 at *
  generalize (COM_v m1 m2 p1 p2).dot p2 = d2 at *
  generalize COM_gamma m1 m2 p1 p2 = G at *
  generalize gamma12 m1 m2 p1 p2 = g12 at *
  generalize m12 m1 m2 = r at *
  generalize COM_vsquare m1 m2 p1 p2 = vsq at *
  linear_combination (-(G * vn) - G ^ 2 * (gammaOf p1 - d1) + gammaOf p1) * hm
    - G ^ 2 * m2 * hg12 - G ^ 2 * m2 * hd + m2 * g12 * hG + m2 * hg12

/-- The back-boost of the COM momentum of particle 1 is its lab momentum. -/
theorem round_trip1 (m1 m2 : ℝ) (p1 p2 : Vec3) (h1 : 0 < m1) (h2 : 0 < m2)
    (hv : COM_vsquare m1 m2 p1 p2 ≠ 0) :
    backBoost1 (COM_v m1 m2 p1 p2) (term1 m1 m2 p1 p2) (gamma1_COM m1 m2 p1 p2)
      (COM_gamma m1 m2 p1 p2) (pCOM m1 m2 p1 p2) = p1 := by
  have hT := term1_mul_vsquare m1 m2 p1 p2 hv
  have hTG := term1_mul_gamma m1 m2 p1 p2 h1 h2 hv
  rw [COM_vsquare_eq_dot] at hT
  rw [gamma1_COM_eq, pCOM_eq_boost]
  exact backBoost1_boost _ _ _ _ _ hT hTG

/-- The back-boost of `-m12` times the COM momentum is the lab momentum of particle 2. -/
theorem round_trip2 (m1 m2 : ℝ) (p1 p2 : Vec3) (h1 : 0 < m1) (h2 : 0 < m2)
    (hv : COM_vsquare m1 m2 p1 p2 ≠ 0) :
    backBoost2 (COM_v m1 m2 p1 p2) (m12 m1 m2) (term1 m1 m2 p1 p2) (gamma2_COM m1 m2 p1 p2)
      (COM_gamma m1 m2 p1 p2) (pCOM m1 m2 p1 p2) = p2 := by
  have hT := term1_mul_vsquare m1 m2 p1 p2 hv
  have hTG := term1_mul_gamma m1 m2 p1 p2 h1 h2 hv
  rw [COM_vsquare_eq_dot] at hT
  rw [backBoost2_eq, ← boost_p2_eq m1 m2 p1 p2 h1 h2 hv, gamma2_COM_eq]
  exact backBoost1_boost _ _ _ _ _ hT hTG

/-- A pair whose total momentum has a non-zero `z` component has a moving centre of mass. -/
theorem COM_vsquare_pos_of_z (m1 m2 : ℝ) (p1 p2 : Vec3) (h1 : 0 < m1) (h2 : 0 < m2)
    (hz : m12 m1 m2 * p1.z + p2.z ≠ 0) : 0 < COM_vsquare m1 m2 p1 p2 := by
  have hg := gamma12_pos m1 m2 p1 p2 h1 h2
  have hvz : (COM_v m1 m2 p1 p2).z ≠ 0 := by
    unfold COM_v gamma12_inv
    simp only
    exact mul_ne_zero hz (one_div_ne_zero hg.ne')
  unfold COM_vsquare
  nlinarith [mul_self_nonneg (COM_v m1 m2 p1 p2).x, mul_self_nonneg (COM_v m1 m2 p1 p2).y,
    mul_self_pos.mpr hvz]

/-- Claim C5 (acceptance with unequal weights). For positive weights and every acceptance
draw `U` in `[0, 1)`, the momentum of particle 1 is overwritten exactly when `U < W2/W1`
and that of particle 2 exactly when `U < W1/W2`.  The draws that deflect particle 1 are
the interval `[0, min(1, W2/W1))`, those that deflect particle 2 are
`[0, min(1, W1/W2))`, of lengths `min(1, W2/W1)` and `min(1, W1/W2)`; the particle whose
weight is not the larger one is deflected for every `U`. -/
theorem unequal_weight_acceptance (m1 m2 W1 W2 : ℝ) (p1 p2 : Vec3) (cosX phi : ℝ)
    (hW1 : 0 < W1) (hW2 : 0 < W2) :
    (∀ U, 0 ≤ U → U < 1 →
      (scatter m1 m2 W1 W2 p1 p2 cosX phi U).1 =
        (if U < W2 / W1 then deflected1 m1 m2 p1 p2 cosX phi else p1) ∧
      (scatter m1 m2 W1 W2 p1 p2 cosX phi U).2 =
        (if U < W1 / W2 then deflected2 m1 m2 p1 p2 cosX phi else p2)) ∧
    {U : ℝ | 0 ≤ U ∧ U < 1 ∧ U < W2 / W1} = Set.Ico 0 (min 1 (W2 / W1)) ∧
    {U : ℝ | 0 ≤ U ∧ U < 1 ∧ U < W1 / W2} = Set.Ico 0 (min 1 (W1 / W2)) ∧
    MeasureTheory.volume {U : ℝ | 0 ≤ U ∧ U < 1 ∧ U < W2 / W1} =
      ENNReal.ofReal (min 1 (W2 / W1)) ∧
    MeasureTheory.volume {U : ℝ | 0 ≤ U ∧ U < 1 ∧ U < W1 / W2} =
      ENNReal.ofReal (min 1 (W1 / W2)) ∧
    (W1 ≤ W2 → ∀ U, 0 ≤ U → U < 1 → U < W2 / W1) ∧
    (W2 ≤ W1 → ∀ U, 0 ≤ U → U < 1 → U < W1 / W2) := by
  have hset : ∀ r : ℝ, {U : ℝ | 0 ≤ U ∧ U < 1 ∧ U < r} = Set.Ico 0 (min 1 r) := by
    intro r
    ext U
    simp only [Set.mem_setOf_eq, Set.mem_Ico, lt_min_iff]
  refine ⟨fun U _ _ => ⟨rfl, rfl⟩, hset _, hset _, ?_, ?_, ?_, ?_⟩
  · rw [hset, Real.volume_Ico, sub_zero]
  · rw [hset, Real.volume_Ico, sub_zero]
  · intro h U _ hU1
    exact lt_of_lt_of_le hU1 ((one_le_div hW1).mpr h)
  · intro h U _ hU1
    exact lt_of_lt_of_le hU1 ((one_le_div hW2).mpr h)

/-- Claim C6 (conservation of momentum, real arithmetic). For positive masses and weights,
a moving centre of mass, `cosX` in `[-1, 1]` and any `phi`: when both deflections are
applied the total momentum `m1 p1 + m2 p2` is the same after the collision as before; and
for any weights `W1 m1 Δp1 min(1, W2/W1) + W2 m2 Δp2 min(1, W1/W2) = 0`, with `Δp` the
change of a deflected particle: the weighted momentum is conserved on average over `U`. -/
theorem momentum_conservation (m1 m2 W1 W2 : ℝ) (p1 p2 : Vec3) (cosX phi U : ℝ)
    (hm1 : 0 < m1) (hm2 : 0 < m2) (hW1 : 0 < W1) (hW2 : 0 < W2)
    (hv : COM_vsquare m1 m2 p1 p2 ≠ 0) (hc1 : -1 ≤ cosX) (hc2 : cosX ≤ 1) :
    (U < W2 / W1 → U < W1 / W2 →
      m1 * (scatter m1 m2 W1 W2 p1 p2 cosX phi U).1.x +
        m2 * (scatter m1 m2 W1 W2 p1 p2 cosX phi U).2.x = m1 * p1.x + m2 * p2.x ∧
      m1 * (scatter m1 m2 W1 W2 p1 p2 cosX phi U).1.y +
        m2 * (scatter m1 m2 W1 W2 p1 p2 cosX phi U).2.y = m1 * p1.y + m2 * p2.y ∧
      m1 * (scatter m1 m2 W1 W2 p1 p2 cosX phi U).1.z +
        m2 * (scatter m1 m2 W1 W2 p1 p2 cosX phi U).2.z = m1 * p1.z + m2 * p2.z) ∧
    (W1 * m1 * ((deflected1 m1 m2 p1 p2 cosX phi).x - p1.x) * min 1 (W2 / W1) +
        W2 * m2 * ((deflected2 m1 m2 p1 p2 cosX phi).x - p2.x) * min 1 (W1 / W2) = 0 ∧
      W1 * m1 * ((deflected1 m1 m2 p1 p2 cosX phi).y - p1.y) * min 1 (W2 / W1) +
        W2 * m2 * ((deflected2 m1 m2 p1 p2 cosX phi).y - p2.y) * min 1 (W1 / W2) = 0 ∧
      W1 * m1 * ((deflected1 m1 m2 p1 p2 cosX phi).z - p1.z) * min 1 (W2 / W1) +
        W2 * m2 * ((deflected2 m1 m2 p1 p2 cosX phi).z - p2.z) * min 1 (W1 / W2) = 0) := by
  obtain ⟨hx, hy, hz⟩ := backBoost_momentum m1 m2 p1 p2
    (deflect (pCOM m1 m2 p1 p2) (p_COM m1 m2 p1 p2) cosX phi) hm1 hm2
  have hw := weight_min_eq W1 W2 hW1 hW2
  constructor
  · intro hU1 hU2
    rw [scatter_eq, if_pos hU1, if_pos hU2]
    exact ⟨hx, hy, hz⟩
  · unfold deflected1 deflected2
    refine ⟨?_, ?_, ?_⟩
    · linear_combination (m1 * ((backBoost1 (COM_v m1 m2 p1 p2) (term1 m1 m2 p1 p2)
        (gamma1_COM m1 m2 p1 p2) (COM_gamma m1 m2 p1 p2)
        (deflect (pCOM m1 m2 p1 p2) (p_COM m1 m2 p1 p2) cosX phi)).x - p1.x)) * hw
        + (W2 * min 1 (W1 / W2)) * hx
    · linear_combination (m1 * ((backBoost1 (COM_v m1 m2 p1 p2) (term1 m1 m2 p1 p2)
        (gamma1_COM m1 m2 p1 p2) (COM_gamma m1 m2 p1 p2)
        (deflect (pCOM m1 m2 p1 p2) (p_COM m1 m2 p1 p2) cosX phi)).y - p1.y)) * hw
        + (W2 * min 1 (W1 / W2)) * hy
    · linear_combination (m1 * ((backBoost1 (COM_v m1 m2 p1 p2) (term1 m1 m2 p1 p2)
        (gamma1_COM m1 m2 p1 p2) (COM_gamma m1 m2 p1 p2)
        (deflect (pCOM m1 m2 p1 p2) (p_COM m1 m2 p1 p2) cosX phi)).z - p1.z)) * hw
        + (W2 * min 1 (W1 / W2)) * hz

/-- Claim C7 (conservation of energy, real arithmetic). For positive masses and weights,
a moving centre of mass, `cosX` in `[-1, 1]` and any `phi`: when both deflections are
applied the total energy `m1 γ1 + m2 γ2`, with `γ = sqrt(1 + |p|²)` recomputed from the new
momenta, is the same after the collision as before; and for any weights
`W1 m1 Δγ1 min(1, W2/W1) + W2 m2 Δγ2 min(1, W1/W2) = 0`: the weighted energy is conserved
on average over `U`. -/
theorem energy_conservation (m1 m2 W1 W2 : ℝ) (p1 p2 : Vec3) (cosX phi U : ℝ)
    (hm1 : 0 < m1) (hm2 : 0 < m2) (hW1 : 0 < W1) (hW2 : 0 < W2)
    (hv : COM_vsquare m1 m2 p1 p2 ≠ 0) (hc1 : -1 ≤ cosX) (hc2 : cosX ≤ 1) :
    (U < W2 / W1 → U < W1 / W2 →
      m1 * gammaOf (scatter m1 m2 W1 W2 p1 p2 cosX phi U).1 +
        m2 * gammaOf (scatter m1 m2 W1 W2 p1 p2 cosX phi U).2 =
          m1 * gammaOf p1 + m2 * gammaOf p2) ∧
    W1 * m1 * (gammaOf (deflected1 m1 m2 p1 p2 cosX phi) - gammaOf p1) * min 1 (W2 / W1) +
      W2 * m2 * (gammaOf (deflected2 m1 m2 p1 p2 cosX phi) - gammaOf p2) * min 1 (W1 / W2)
        = 0 := by
  have hE := deflected_energy m1 m2 p1 p2 cosX phi hm1 hm2 hv hc1 hc2
  have hw := weight_min_eq W1 W2 hW1 hW2
  constructor
  · intro hU1 hU2
    rw [scatter_eq, if_pos hU1, if_pos hU2]
    exact hE
  · linear_combination (m1 * (gammaOf (deflected1 m1 m2 p1 p2 cosX phi) - gammaOf p1)) * hw
      + (W2 * min 1 (W1 / W2)) * hE

/-- Claim C8 (round trip of the boost, real arithmetic). For positive masses and
`0 < |v_COM|²`, with `p_COM = p1 + (term1*vcv1 - Γ)*γ1*v_COM` and
`γ1_COM = (1 - vcv1)*Γ*γ1`, the back-boost `p_COM + v_COM*(term1*(v_COM·p_COM) + γ1_COM*Γ)`
of the kernel is exactly `p1`, and the back-boost of `-m12*p_COM` with `γ2_COM` is exactly
`p2`. -/
theorem boost_round_trip (m1 m2 : ℝ) (p1 p2 : Vec3) (hm1 : 0 < m1) (hm2 : 0 < m2)
    (hv : 0 < COM_vsquare m1 m2 p1 p2) :
    pCOM m1 m2 p1 p2 =
      { x := p1.x + (term1 m1 m2 p1 p2 * vcv1 m1 m2 p1 p2 - COM_gamma m1 m2 p1 p2) *
          gammaOf p1 * (COM_v m1 m2 p1 p2).x
        y := p1.y + (term1 m1 m2 p1 p2 * vcv1 m1 m2 p1 p2 - COM_gamma m1 m2 p1 p2) *
          gammaOf p1 * (COM_v m1 m2 p1 p2).y
        z := p1.z + (term1 m1 m2 p1 p2 * vcv1 m1 m2 p1 p2 - COM_gamma m1 m2 p1 p2) *
          gammaOf p1 * (COM_v m1 m2 p1 p2).z } ∧
    gamma1_COM m1 m2 p1 p2 = (1 - vcv1 m1 m2 p1 p2) * COM_gamma m1 m2 p1 p2 * gammaOf p1 ∧
    backBoost1 (COM_v m1 m2 p1 p2) (term1 m1 m2 p1 p2) (gamma1_COM m1 m2 p1 p2)
      (COM_gamma m1 m2 p1 p2) (pCOM m1 m2 p1 p2) = p1 ∧
    backBoost2 (COM_v m1 m2 p1 p2) (m12 m1 m2) (term1 m1 m2 p1 p2) (gamma2_COM m1 m2 p1 p2)
      (COM_gamma m1 m2 p1 p2) (pCOM m1 m2 p1 p2) = p2 :=
  ⟨rfl, rfl, round_trip1 m1 m2 p1 p2 hm1 hm2 hv.ne', round_trip2 m1 m2 p1 p2 hm1 hm2 hv.ne'⟩

theorem sqrt_eq_of_sq (a b : ℝ) (hb : 0 ≤ b) (h : a = b ^ 2) : Real.sqrt a = b := by
  rw [h]; exact Real.sqrt_sq hb

/-- The frame of the centre of mass for a particle of momentum `15/8` along the unit vector
`(dx, 0, dz)` meeting a particle of the same mass at rest. -/
theorem nearAxis_frame (dx dz : ℝ) (hd : dx ^ 2 + dz ^ 2 = 1) :
    COM_v 1 1 (nearAxisP1 dx dz) atRest = { x := 3 / 5 * dx, y := 0, z := 3 / 5 * dz } ∧
    COM_vsquare 1 1 (nearAxisP1 dx dz) atRest = 9 / 25 ∧
    COM_gamma 1 1 (nearAxisP1 dx dz) atRest = 5 / 4 ∧
    term1 1 1 (nearAxisP1 dx dz) atRest = 25 / 36 ∧
    gamma1_COM 1 1 (nearAxisP1 dx dz) atRest = 5 / 4 ∧
    pCOM 1 1 (nearAxisP1 dx dz) atRest = { x := 3 / 4 * dx, y := 0, z := 3 / 4 * dz } ∧
    p_COM 1 1 (nearAxisP1 dx dz) atRest = 3 / 4 := by
  have hg1 : gammaOf (nearAxisP1 dx dz) = 17 / 8 := by
    unfold gammaOf nearAxisP1
    apply sqrt_eq_of_sq _ _ (by norm_num)
    simp only
    linear_combination (225 / 64 : ℝ) * hd
  have hg2 : gammaOf atRest = 1 := by
    unfold gammaOf atRest
    apply sqrt_eq_of_sq _ _ (by norm_num)
    norm_num
  have hm : m12 1 1 = 1 := by unfold m12; norm_num
  have hg12 : gamma12_inv 1 1 (nearAxisP1 dx dz) atRest = 8 / 25 := by
    unfold gamma12_inv gamma12
    rw [hg1, hg2, hm]; norm_num
  have hv : COM_v 1 1 (nearAxisP1 dx dz) atRest =
      { x := 3 / 5 * dx, y := 0, z := 3 / 5 * dz } := by
    unfold COM_v
    rw [hg12, hm]
    unfold nearAxisP1 atRest
    ext <;> simp only <;> ring
  have hvsq : COM_vsquare 1 1 (nearAxisP1 dx dz) atRest = 9 / 25 := by
    unfold COM_vsquare
    rw [hv]
    simp only
    linear_combination (9 / 25 : ℝ) * hd
  have hG : COM_gamma 1 1 (nearAxisP1 dx dz) atRest = 5 / 4 := by
    rw [COM_gamma_eq 1 1 _ _ (by norm_num) (by norm_num), hvsq,
      sqrt_eq_of_sq (1 - 9 / 25) (4 / 5) (by norm_num) (by norm_num)]
    norm_num
  have hT : term1 1 1 (nearAxisP1 dx dz) atRest = 25 / 36 := by
    unfold term1
    rw [hG, hvsq]; norm_num
  have hvcv : vcv1 1 1 (nearAxisP1 dx dz) atRest = 9 / 17 := by
    unfold vcv1
    rw [hv, hg1]
    unfold nearAxisP1
    simp only
    field_simp
    linear_combination (6120 : ℝ) * hd
  have ht2 : term2 1 1 (nearAxisP1 dx dz) atRest = -(15 / 8) := by
    unfold term2
    rw [hT, hvcv, hG, hg1]; norm_num
  have hpc : pCOM 1 1 (nearAxisP1 dx dz) atRest =
      { x := 3 / 4 * dx, y := 0, z := 3 / 4 * dz } := by
    unfold pCOM
    rw [ht2, hv]
    unfold nearAxisP1
    ext <;> simp only <;> ring
  refine ⟨hv, hvsq, hG, hT, ?_, hpc, ?_⟩
  · unfold gamma1_COM
    rw [hvcv, hG, hg1]; norm_num
  · unfold p_COM p2_COM
    rw [hpc]
    apply sqrt_eq_of_sq _ _ (by norm_num)
    simp only
    linear_combination (9 / 16 : ℝ) * hd

/-- With `cosX = 1` the fallback branch returns `(0, 0, p)`. -/
theorem deflect_fallback_zero_angle (pc : Vec3) (p phi : ℝ)
    (h : ¬ (Real.sqrt (pc.x * pc.x + pc.y * pc.y) > 1.e-10 * p)) :
    deflect pc p 1 phi = { x := 0, y := 0, z := p } := by
  unfold deflect
  simp only [if_neg h]
  have hs : Real.sqrt (1 - 1 * 1) = 0 := by norm_num
  rw [hs]
  ext <;> simp

/-- With `cosX = 1` the rotation branch returns the COM momentum itself. -/
theorem deflect_standard_zero_angle (pc : Vec3) (p phi : ℝ)
    (h : Real.sqrt (pc.x * pc.x + pc.y * pc.y) > 1.e-10 * p) :
    deflect pc p 1 phi = pc := by
  unfold deflect
  simp only [if_pos h]
  have hs : Real.sqrt (1 - 1 * 1) = 0 := by norm_num
  rw [hs]
  ext <;> simp

/-- Momentum stored for particle 1 of the near-axis examples when the fallback branch is
taken with `cosX = 1`. -/
theorem nearAxis_deflected1 (dx dz phi : ℝ) (hd : dx ^ 2 + dz ^ 2 = 1)
    (hdx : |dx| ≤ 1e-10) :
    ¬ (Real.sqrt ((pCOM 1 1 (nearAxisP1 dx dz) atRest).x * (pCOM 1 1 (nearAxisP1 dx dz) atRest).x
        + (pCOM 1 1 (nearAxisP1 dx dz) atRest).y * (pCOM 1 1 (nearAxisP1 dx dz) atRest).y) >
      1.e-10 * p_COM 1 1 (nearAxisP1 dx dz) atRest) ∧
    deflected1 1 1 (nearAxisP1 dx dz) atRest 1 phi =
      { x := 3 / 5 * dx * (5 / 16 * dz + 25 / 16), y := 0,
        z := 3 / 4 + 3 / 5 * dz * (5 / 16 * dz + 25 / 16) } := by
  obtain ⟨hv, _, hG, hT, hg1c, hpc, hp⟩ := nearAxis_frame dx dz hd
  have hbr : ¬ (Real.sqrt ((pCOM 1 1 (nearAxisP1 dx dz) atRest).x *
        (pCOM 1 1 (nearAxisP1 dx dz) atRest).x
        + (pCOM 1 1 (nearAxisP1 dx dz) atRest).y * (pCOM 1 1 (nearAxisP1 dx dz) atRest).y) >
      1.e-10 * p_COM 1 1 (nearAxisP1 dx dz) atRest) := by
    rw [hpc, hp]
    simp only
    have e : (3 / 4 * dx * (3 / 4 * dx) + 0 * 0 : ℝ) = (3 / 4 * |dx|) ^ 2 := by
      rw [mul_pow, sq_abs]; ring
    rw [e, Real.sqrt_sq (by positivity)]
    norm_num
    linarith
  refine ⟨hbr, ?_⟩
  unfold deflected1
  rw [deflect_fallback_zero_angle _ _ _ hbr, hv, hT, hg1c, hG, hp]
  unfold backBoost1
  ext <;> simp only <;> ring

/-- Claim C9, as amended (zero deflection angle). If `cosX = 1` then, for every pair with
positive masses and a moving centre of mass, every `phi` and every acceptance draw `U`:
in the rotation branch (`p_perp > 1e-10 * p`) the lab momenta of both particles are
unchanged; in the near-axis fallback branch with `pz_COM ≥ 0` the new COM momentum is
`(0, 0, p_COM)`, so that the lab momenta are unchanged when the COM momentum lies on the
`+z` axis (`px_COM = py_COM = 0`, `pz_COM ≥ 0`). -/
theorem zero_angle_identity (m1 m2 W1 W2 : ℝ) (p1 p2 : Vec3) (phi U : ℝ)
    (hm1 : 0 < m1) (hm2 : 0 < m2) (hv : COM_vsquare m1 m2 p1 p2 ≠ 0) :
    (Real.sqrt ((pCOM m1 m2 p1 p2).x * (pCOM m1 m2 p1 p2).x
        + (pCOM m1 m2 p1 p2).y * (pCOM m1 m2 p1 p2).y) > 1.e-10 * p_COM m1 m2 p1 p2 →
      scatter m1 m2 W1 W2 p1 p2 1 phi U = (p1, p2)) ∧
    (¬ (Real.sqrt ((pCOM m1 m2 p1 p2).x * (pCOM m1 m2 p1 p2).x
        + (pCOM m1 m2 p1 p2).y * (pCOM m1 m2 p1 p2).y) > 1.e-10 * p_COM m1 m2 p1 p2) →
      0 ≤ (pCOM m1 m2 p1 p2).z →
      deflect (pCOM m1 m2 p1 p2) (p_COM m1 m2 p1 p2) 1 phi =
        { x := 0, y := 0, z := p_COM m1 m2 p1 p2 }) ∧
    ((pCOM m1 m2 p1 p2).x = 0 → (pCOM m1 m2 p1 p2).y = 0 → 0 ≤ (pCOM m1 m2 p1 p2).z →
      scatter m1 m2 W1 W2 p1 p2 1 phi U = (p1, p2)) := by
  have hr1 := round_trip1 m1 m2 p1 p2 hm1 hm2 hv
  have hr2 := round_trip2 m1 m2 p1 p2 hm1 hm2 hv
  have hsame : deflect (pCOM m1 m2 p1 p2) (p_COM m1 m2 p1 p2) 1 phi = pCOM m1 m2 p1 p2 →
      scatter m1 m2 W1 W2 p1 p2 1 phi U = (p1, p2) := by
    intro hd
    rw [scatter_eq]
    unfold deflected1 deflected2
    rw [hd, hr1, hr2]
    simp
  refine ⟨fun hbr => hsame (deflect_standard_zero_angle _ _ _ hbr),
    fun hbr _ => deflect_fallback_zero_angle _ _ _ hbr, ?_⟩
  intro hx hy hz
  apply hsame
  by_cases hbr : Real.sqrt ((pCOM m1 m2 p1 p2).x * (pCOM m1 m2 p1 p2).x
        + (pCOM m1 m2 p1 p2).y * (pCOM m1 m2 p1 p2).y) > 1.e-10 * p_COM m1 m2 p1 p2
  · exact deflect_standard_zero_angle _ _ _ hbr
  · rw [deflect_fallback_zero_angle _ _ _ hbr]
    have hp : p_COM m1 m2 p1 p2 = (pCOM m1 m2 p1 p2).z := by
      unfold p_COM p2_COM
      rw [hx, hy]
      apply sqrt_eq_of_sq _ _ hz
      ring
    ext
    · exact hx.symm
    · exact hy.symm
    · exact hp

/-- A particle moving along `+z` meets a particle of the same mass at rest. -/
theorem zero_angle_identity_witness :
    scatter 1 1 1 1 (nearAxisP1 0 1) atRest 1 0 0 = (nearAxisP1 0 1, atRest) := by
  obtain ⟨_, hvsq, _, _, _, hpc, _⟩ := nearAxis_frame 0 1 (by norm_num)
  have hv : COM_vsquare 1 1 (nearAxisP1 0 1) atRest ≠ 0 := by rw [hvsq]; norm_num
  exact (zero_angle_identity 1 1 1 1 (nearAxisP1 0 1) atRest 0 0 (by norm_num) (by norm_num)
    hv).2.2 (by rw [hpc]; norm_num) (by rw [hpc]) (by rw [hpc]; norm_num)

theorem tilt_unit : tiltX ^ 2 + tiltZ ^ 2 = 1 := by
  unfold tiltX tiltZ
  norm_num

theorem tiltX_bounds : 0 < tiltX ∧ |tiltX| ≤ 1e-10 := by
  have h : 0 < tiltX := by unfold tiltX; norm_num
  refine ⟨h, ?_⟩
  rw [abs_of_pos h]
  unfold tiltX
  norm_num

theorem tiltZ_bounds : 0 < tiltZ ∧ tiltZ ≤ 1 := by
  unfold tiltZ
  constructor <;> norm_num

/-- Claim C9 fails in the near-axis fallback branch. A particle of momentum `15/8`, tilted
by `2e-11` from the `+z` axis, meets a particle of the same mass and weight at rest; the COM
momentum has `p_perp ≤ 1e-10 * p` and `pz > 0`; with `cosX = 1` and `U = 0` the momentum
stored for particle 1 differs from the one it had (its `x` component changes). -/
theorem zero_angle_fallback_counterexample :
    ¬ (Real.sqrt ((pCOM 1 1 (nearAxisP1 tiltX tiltZ) atRest).x *
          (pCOM 1 1 (nearAxisP1 tiltX tiltZ) atRest).x
        + (pCOM 1 1 (nearAxisP1 tiltX tiltZ) atRest).y *
          (pCOM 1 1 (nearAxisP1 tiltX tiltZ) atRest).y) >
      1.e-10 * p_COM 1 1 (nearAxisP1 tiltX tiltZ) atRest) ∧
    0 < (pCOM 1 1 (nearAxisP1 tiltX tiltZ) atRest).z ∧
    (scatter 1 1 1 1 (nearAxisP1 tiltX tiltZ) atRest 1 0 0).1 ≠ nearAxisP1 tiltX tiltZ := by
  obtain ⟨hbr, hd1⟩ := nearAxis_deflected1 tiltX tiltZ 0 tilt_unit tiltX_bounds.2
  obtain ⟨_, _, _, _, _, hpc, _⟩ := nearAxis_frame tiltX tiltZ tilt_unit
  have hx := tiltX_bounds.1
  have hz := tiltZ_bounds
  refine ⟨hbr, ?_, ?_⟩
  · rw [hpc]
    simp only
    linarith [hz.1]
  · rw [scatter_eq, if_pos (by norm_num)]
    simp only
    rw [hd1]
    intro heq
    have hxeq := congrArg Vec3.x heq
    unfold nearAxisP1 at hxeq
    simp only at hxeq
    nlinarith [mul_pos hx hz.1, hz.2]

/-- With the COM momentum along `-z` the fallback branch returns `(0, 0, +p)`: a particle
moving along `-z` that meets a particle of the same mass at rest is stopped although
`cosX = 1`. -/
theorem fallback_negative_z_zero_angle :
    pCOM 1 1 (nearAxisP1 0 (-1)) atRest = { x := 0, y := 0, z := -(3 / 4) } ∧
    nearAxisP1 0 (-1) = { x := 0, y := 0, z := -(15 / 8) } ∧
    (scatter 1 1 1 1 (nearAxisP1 0 (-1)) atRest 1 0 0).1 = atRest := by
  obtain ⟨_, hd1⟩ := nearAxis_deflected1 0 (-1) 0 (by norm_num) (by norm_num)
  obtain ⟨_, _, _, _, _, hpc, _⟩ := nearAxis_frame 0 (-1) (by norm_num)
  refine ⟨?_, ?_, ?_⟩
  · rw [hpc]; ext <;> norm_num
  · unfold nearAxisP1; ext <;> norm_num
  · rw [scatter_eq, if_pos (by norm_num)]
    simp only
    rw [hd1]
    unfold atRest
    ext <;> norm_num

/-- The pair of the examples: particle 1 at rest, particle 2 with momentum `15/8`
along `z`. -/
theorem sample_pair_moving : COM_vsquare 1 1 atRest (nearAxisP1 0 1) ≠ 0 := by
  apply ne_of_gt
  apply COM_vsquare_pos_of_z 1 1 _ _ (by norm_num) (by norm_num)
  unfold m12 atRest nearAxisP1
  norm_num

/-- Weights 1 and 3, `U = 0.5`: particle 1 is deflected, particle 2 is not. -/
theorem unequal_weight_acceptance_witness :
    (scatter 1 1 1 3 atRest (nearAxisP1 0 1) 0 0 0.5).1 =
      deflected1 1 1 atRest (nearAxisP1 0 1) 0 0 ∧
    (scatter 1 1 1 3 atRest (nearAxisP1 0 1) 0 0 0.5).2 = nearAxisP1 0 1 := by
  have h := (unequal_weight_acceptance 1 1 1 3 atRest (nearAxisP1 0 1) 0 0
    (by norm_num) (by norm_num)).1 0.5 (by norm_num) (by norm_num)
  rw [if_pos (by norm_num), if_neg (by norm_num)] at h
  exact h

/-- Equal masses and weights, `cosX = 0`, `U = 0`. -/
theorem momentum_conservation_witness :
    1 * (scatter 1 1 1 1 atRest (nearAxisP1 0 1) 0 0 0).1.z +
      1 * (scatter 1 1 1 1 atRest (nearAxisP1 0 1) 0 0 0).2.z =
        1 * atRest.z + 1 * (nearAxisP1 0 1).z :=
  ((momentum_conservation 1 1 1 1 atRest (nearAxisP1 0 1) 0 0 0 (by norm_num) (by norm_num)
    (by norm_num) (by norm_num) sample_pair_moving (by norm_num) (by norm_num)).1
    (by norm_num) (by norm_num)).2.2

/-- Equal masses and weights, `cosX = 0`, `U = 0`. -/
theorem energy_conservation_witness :
    1 * gammaOf (scatter 1 1 1 1 atRest (nearAxisP1 0 1) 0 0 0).1 +
      1 * gammaOf (scatter 1 1 1 1 atRest (nearAxisP1 0 1) 0 0 0).2 =
        1 * gammaOf atRest + 1 * gammaOf (nearAxisP1 0 1) :=
  (energy_conservation 1 1 1 1 atRest (nearAxisP1 0 1) 0 0 0 (by norm_num) (by norm_num)
    (by norm_num) (by norm_num) sample_pair_moving (by norm_num) (by norm_num)).1
    (by norm_num) (by norm_num)

/-- Particle 1 at rest, particle 2 with momentum `15/8` along `z`. -/
theorem boost_round_trip_witness :
    backBoost1 (COM_v 1 1 atRest (nearAxisP1 0 1)) (term1 1 1 atRest (nearAxisP1 0 1))
      (gamma1_COM 1 1 atRest (nearAxisP1 0 1)) (COM_gamma 1 1 atRest (nearAxisP1 0 1))
      (pCOM 1 1 atRest (nearAxisP1 0 1)) = atRest ∧
    backBoost2 (COM_v 1 1 atRest (nearAxisP1 0 1)) (m12 1 1) (term1 1 1 atRest (nearAxisP1 0 1))
      (gamma2_COM 1 1 atRest (nearAxisP1 0 1)) (COM_gamma 1 1 atRest (nearAxisP1 0 1))
      (pCOM 1 1 atRest (nearAxisP1 0 1)) = nearAxisP1 0 1 :=
  (boost_round_trip 1 1 atRest (nearAxisP1 0 1) (by norm_num) (by norm_num)
    (lt_of_le_of_ne (COM_vsquare_nonneg _ _ _ _) sample_pair_moving.symm)).2.2

/-! ### Validation of the input -/

theorem createOne_ok (vecSpecies : Nat → SpeciesInfo) (n : Nat) (input : CollisionsInput)
    (c : Collisions) (h : createOne vecSpecies n input = .ok c) :
    checkGroups n input.species1 input.species2 = .ok c.intra_collisions ∧
    c.species_group1 = input.species1 ∧ c.species_group2 = input.species2 := by
  unfold createOne at h
  cases hg : checkGroups n input.species1 input.species2 with
  | error e => rw [hg] at h; cases h
  | ok intra =>
    rw [hg] at h
    simp only at h
    split at h
    · cases h
    · cases h
      exact ⟨rfl, rfl, rfl⟩

/-- The result of `createOne` once the groups are accepted with the flag `intra`. -/
theorem createOne_of_groups (vecSpecies : Nat → SpeciesInfo) (n : Nat)
    (input : CollisionsInput) (intra : Bool)
    (hg : checkGroups n input.species1 input.species2 = .ok intra) :
    createOne vecSpecies n input =
      match (if input.ionizing.getD false then
          ionizationZ vecSpecies n intra input.species1 input.species2
        else .ok 0) with
      | .error e => .error e
      | .ok Z =>
        .ok { n_collisions := n
              species_group1 := input.species1
              species_group2 := input.species2
              coulomb_log := input.coulomb_log.getD 0
              intra_collisions := intra
              debug_every := input.debug_every.getD 0
              atomic_number := Z
              ionizing := input.ionizing.getD false } := by
  unfold createOne
  rw [hg]

/-- Claim C16 fails: a record with `debug_every = -1` is accepted, and the object that is
constructed has `debug_every = -1 < 0`. -/
theorem negative_debug_every_accepted :
    createOne sampleSpecies 0 ⟨[0], [1], none, some (-1), none⟩ =
      .ok ⟨0, [0], [1], 0, false, -1, 0, false⟩ ∧
    (⟨0, [0], [1], 0, false, -1, 0, false⟩ : Collisions).debug_every < 0 :=
  ⟨by rfl, by decide⟩

/-- Claim C16, as amended. `create` does not check `debug_every`: the object stores the
value of the record (0 when it is unset), of any sign, and whether a record is accepted
does not depend on it; a value that is negative or zero makes no timestep a debug step. -/
theorem debug_every_unchecked (vecSpecies : Nat → SpeciesInfo) (n : Nat)
    (input : CollisionsInput) :
    (∀ c, createOne vecSpecies n input = .ok c →
      c.debug_every = input.debug_every.getD 0) ∧
    (∀ d : Option Int,
      (∃ c, createOne vecSpecies n { input with debug_every := d } = .ok c) ↔
        ∃ c, createOne vecSpecies n input = .ok c) ∧
    (∀ c, createOne vecSpecies n input = .ok c → c.debug_every ≤ 0 →
      ∀ itime : Int, isDebugStep c.debug_every itime = false) := by
  refine ⟨?_, ?_, ?_⟩
  · intro c hc
    obtain ⟨hg, _, _⟩ := createOne_ok vecSpecies n input c hc
    rw [createOne_of_groups vecSpecies n input _ hg] at hc
    split at hc
    · cases hc
    · simp only [Except.ok.injEq] at hc
      rw [← hc]
  · intro d
    unfold createOne
    simp only
    cases checkGroups n input.species1 input.species2 with
    | error e => simp
    | ok intra =>
      simp only
      split <;> simp
  · intro c _ hle itime
    unfold isDebugStep
    simp only [decide_eq_false_iff_not, not_and]
    intro h
    omega

/-! ### Orientation of the groups and calls of the ionization object -/

theorem orientLoop_two (bmin bmax : Nat → Nat) (st : Orientation) :
    (orientLoop bmin bmax 2 st).exchanges ≤ st.exchanges + 1 ∧
    (orientLoop bmin bmax 2 st).npart2 ≤ (orientLoop bmin bmax 2 st).npart1 ∧
    (orientLoop bmin bmax 2 st).bmin1 = (orientLoop bmin bmax 2 st).sg1.map bmin ∧
    (orientLoop bmin bmax 2 st).np1 =
      (orientLoop bmin bmax 2 st).sg1.map (fun s => bmax s - bmin s) ∧
    (orientLoop bmin bmax 2 st).bmin2 = (orientLoop bmin bmax 2 st).sg2.map bmin ∧
    (orientLoop bmin bmax 2 st).np2 =
      (orientLoop bmin bmax 2 st).sg2.map (fun s => bmax s - bmin s) ∧
    (orientLoop bmin bmax 2 st).npart1 = (orientLoop bmin bmax 2 st).np1.sum ∧
    (orientLoop bmin bmax 2 st).npart2 = (orientLoop bmin bmax 2 st).np2.sum ∧
    (((orientLoop bmin bmax 2 st).exchanges = st.exchanges ∧
        (orientLoop bmin bmax 2 st).sg1 = st.sg1 ∧ (orientLoop bmin bmax 2 st).sg2 = st.sg2) ∨
     ((orientLoop bmin bmax 2 st).exchanges = st.exchanges + 1 ∧
        (orientLoop bmin bmax 2 st).sg1 = st.sg2 ∧ (orientLoop bmin bmax 2 st).sg2 = st.sg1)) := by
  by_cases h : (st.sg2.map (fun s => bmax s - bmin s)).sum ≤
      (st.sg1.map (fun s => bmax s - bmin s)).sum
  · have e : orientLoop bmin bmax 2 st =
        { st with bmin1 := st.sg1.map bmin, np1 := st.sg1.map (fun s => bmax s - bmin s),
                  bmin2 := st.sg2.map bmin, np2 := st.sg2.map (fun s => bmax s - bmin s),
                  npart1 := (st.sg1.map (fun s => bmax s - bmin s)).sum,
                  npart2 := (st.sg2.map (fun s => bmax s - bmin s)).sum } := by
      simp [orientLoop, h]
    rw [e]
    simp [h]
  · have h' : (st.sg1.map (fun s => bmax s - bmin s)).sum ≤
        (st.sg2.map (fun s => bmax s - bmin s)).sum := by omega
    have e : orientLoop bmin bmax 2 st =
        { sg1 := st.sg2, sg2 := st.sg1,
          bmin1 := st.sg2.map bmin, np1 := st.sg2.map (fun s => bmax s - bmin s),
          bmin2 := st.sg1.map bmin, np2 := st.sg1.map (fun s => bmax s - bmin s),
          npart1 := (st.sg2.map (fun s => bmax s - bmin s)).sum,
          npart2 := (st.sg1.map (fun s => bmax s - bmin s)).sum,
          exchanges := st.exchanges + 1 } := by
      simp [orientLoop, h, h']
    rw [e]
    simp [h']

theorem buildPairs_npairs_pos (intra_collisions : Bool) (npart1 npart2 : Nat) (sh : List Nat)
    (h : 1 ≤ npart1) : 1 ≤ (buildPairs intra_collisions npart1 npart2 sh).npairs := by
  cases intra_collisions with
  | false => simpa [buildPairs] using h
  | true =>
    simp only [buildPairs, if_true, ceilHalf]
    omega

/-- Claim C15 (orientation of the groups). For every bin and whatever the orientation
left by the bin before, the loop of two turns exchanges the groups at most once and ends
with `npart2 ≤ npart1`, the arrays `bmin1`, `np1`, `bmin2`, `np2` being those of the final
groups 1 and 2; the bin yields no pairs exactly when the smaller group, group 2, is
empty. -/
theorem group_orientation (bmin bmax : Nat → Nat) (intra_collisions : Bool)
    (shuffle : Nat → List Nat) (st : Orientation) :
    (orientLoop bmin bmax 2 { st with exchanges := 0 }).exchanges ≤ 1 ∧
    (orientLoop bmin bmax 2 { st with exchanges := 0 }).npart2 ≤
      (orientLoop bmin bmax 2 { st with exchanges := 0 }).npart1 ∧
    (((orientLoop bmin bmax 2 { st with exchanges := 0 }).exchanges = 0 ∧
        (orientLoop bmin bmax 2 { st with exchanges := 0 }).sg1 = st.sg1 ∧
        (orientLoop bmin bmax 2 { st with exchanges := 0 }).sg2 = st.sg2) ∨
     ((orientLoop bmin bmax 2 { st with exchanges := 0 }).exchanges = 1 ∧
        (orientLoop bmin bmax 2 { st with exchanges := 0 }).sg1 = st.sg2 ∧
        (orientLoop bmin bmax 2 { st with exchanges := 0 }).sg2 = st.sg1)) ∧
    (orientLoop bmin bmax 2 { st with exchanges := 0 }).bmin1 =
      (orientLoop bmin bmax 2 { st with exchanges := 0 }).sg1.map bmin ∧
    (orientLoop bmin bmax 2 { st with exchanges := 0 }).np1 =
      (orientLoop bmin bmax 2 { st with exchanges := 0 }).sg1.map (fun s => bmax s - bmin s) ∧
    (orientLoop bmin bmax 2 { st with exchanges := 0 }).bmin2 =
      (orientLoop bmin bmax 2 { st with exchanges := 0 }).sg2.map bmin ∧
    (orientLoop bmin bmax 2 { st with exchanges := 0 }).np2 =
      (orientLoop bmin bmax 2 { st with exchanges := 0 }).sg2.map (fun s => bmax s - bmin s) ∧
    (orientLoop bmin bmax 2 { st with exchanges := 0 }).npart1 =
      (orientLoop bmin bmax 2 { st with exchanges := 0 }).np1.sum ∧
    (orientLoop bmin bmax 2 { st with exchanges := 0 }).npart2 =
      (orientLoop bmin bmax 2 { st with exchanges := 0 }).np2.sum ∧
    (binPairs bmin bmax intra_collisions shuffle { st with exchanges := 0 } = none ↔
      (orientLoop bmin bmax 2 { st with exchanges := 0 }).npart2 = 0) ∧
    (∀ P, binPairs bmin bmax intra_collisions shuffle { st with exchanges := 0 } = some P →
      1 ≤ P.npairs) := by
  obtain ⟨h1, h2, h3, h4, h5, h6, h7, h8, h9⟩ :=
    orientLoop_two bmin bmax { st with exchanges := 0 }
  simp only [Nat.zero_add] at h1 h9
  refine ⟨h1, h2, h9, h3, h4, h5, h6, h7, h8, ?_, ?_⟩
  · unfold binPairs
    simp only
    constructor
    · intro h
      split_ifs at h with hc
      rcases hc with hc | hc
      · omega
      · exact hc
    · intro h
      rw [if_pos (Or.inr h)]
  · intro P hP
    unfold binPairs at hP
    simp only at hP
    split_ifs at hP with hc
    simp only [Option.some.injEq] at hP
    rw [← hP]
    exact buildPairs_npairs_pos _ _ _ _ (by omega)

theorem binEvents_bin (ibin : Nat) (P : Pairing) :
    ∀ e ∈ binEvents ibin P, e.bin = some ibin := by
  intro e he
  unfold binEvents at he
  simp only [List.mem_append, List.mem_singleton, List.mem_map, List.mem_range,
    List.mem_flatMap, List.mem_cons, List.not_mem_nil, or_false] at he
  rcases he with ((rfl | ⟨i, _, rfl⟩) | rfl) | ⟨i, _, rfl | rfl⟩ <;> rfl

theorem binsEvents_bin (k : Nat) (bins : List (Option Pairing)) :
    ∀ e ∈ binsEvents k bins, ∃ j, e.bin = some j ∧ k ≤ j := by
  induction bins generalizing k with
  | nil => intro e he; simp [binsEvents] at he
  | cons b rest ih =>
    intro e he
    cases b with
    | none =>
      obtain ⟨j, hj, hk⟩ := ih (k + 1) e he
      exact ⟨j, hj, by omega⟩
    | some P =>
      simp only [binsEvents, List.mem_append] at he
      rcases he with he | he
      · exact ⟨k, binEvents_bin k P e he, le_refl k⟩
      · obtain ⟨j, hj, hk⟩ := ih (k + 1) e he
        exact ⟨j, hj, by omega⟩

/-- The events of bin `k + j` in the trace of the loop on the bins started at bin `k`. -/
theorem filter_binsEvents (k j : Nat) (bins : List (Option Pairing)) :
    (binsEvents k bins).filter (fun e => decide (e.bin = some (k + j))) =
      match bins[j]? with
      | some (some P) => binEvents (k + j) P
      | _ => [] := by
  induction bins generalizing k j with
  | nil => simp [binsEvents]
  | cons b rest ih =>
    have hrest0 : (binsEvents (k + 1) rest).filter (fun e => decide (e.bin = some k)) = [] := by
      rw [List.filter_eq_nil_iff]
      intro e he
      obtain ⟨i, hi, hk⟩ := binsEvents_bin (k + 1) rest e he
      simp only [hi, Option.some.injEq, decide_eq_true_eq]
      omega
    have hself : ∀ P, (binEvents k P).filter (fun e => decide (e.bin = some k)) =
        binEvents k P := by
      intro P
      rw [List.filter_eq_self]
      intro e he
      simp [binEvents_bin k P e he]
    have hother : ∀ P i, (binEvents k P).filter
        (fun e => decide (e.bin = some (k + (i + 1)))) = [] := by
      intro P i
      rw [List.filter_eq_nil_iff]
      intro e he
      simp only [binEvents_bin k P e he, Option.some.injEq, decide_eq_true_eq]
      omega
    cases j with
    | zero =>
      cases b with
      | none => simpa [binsEvents] using hrest0
      | some P => simp [binsEvents, hself, hrest0]
    | succ i =>
      have hi := ih (k + 1) i
      have e1 : k + 1 + i = k + (i + 1) := by omega
      rw [e1] at hi
      cases b with
      | none => simpa [binsEvents] using hi
      | some P => simpa [binsEvents, hother] using hi

/-- No event occurs twice among the events of a bin. -/
theorem binEvents_nodup (ibin : Nat) (P : Pairing) : (binEvents ibin P).Nodup := by
  unfold binEvents
  have h2 : ((List.range P.npairs).map
      (fun i => Event.prepare2 ibin i (decide (i < P.N2max)))).Nodup := by
    apply List.Nodup.map_on _ (List.nodup_range _)
    intro x _ y _ h
    injection h
  have h4 : ((List.range P.npairs).flatMap
      (fun i => [Event.momenta ibin i, Event.apply ibin i])).Nodup := by
    rw [List.nodup_flatMap]
    constructor
    · intro i _
      simp
    · apply List.Pairwise.imp _ (List.pairwise_lt_range P.npairs)
      intro a b hab
      simp [Function.onFun, List.disjoint_left]
      omega
  rw [List.nodup_append, List.nodup_append, List.nodup_append]
  refine ⟨⟨⟨by simp, h2, ?_⟩, by simp, ?_⟩, h4, ?_⟩
  · simp [List.disjoint_left]
  · simp [List.disjoint_left]
  · simp only [List.disjoint_left, List.mem_append, List.mem_singleton, List.mem_map,
      List.mem_range, List.mem_flatMap, List.mem_cons, List.not_mem_nil, or_false, not_exists,
      not_and, not_or]
    rintro a (((rfl | ⟨i, _, rfl⟩) | rfl)) x _ <;> simp

/-- Claim C14 fails for `finish`: in a call of `collide` that processes two bins, of one
pair each, `finish` is called once, not once per bin; and it is called once also when
the only bin is skipped. -/
theorem finish_not_once_per_bin :
    (collideEvents [some (buildPairs false 1 1 [0]), some (buildPairs false 1 1 [0])]).count
      Event.finish = 1 ∧
    (collideEvents [some (buildPairs false 1 1 [0]), some (buildPairs false 1 1 [0])]).count
      (Event.prepare1 0) +
    (collideEvents [some (buildPairs false 1 1 [0]), some (buildPairs false 1 1 [0])]).count
      (Event.prepare1 1) = 2 ∧
    collideEvents [none] = [Event.finish] := by
  refine ⟨by decide, by decide, by decide⟩

/-- Claim C14, as amended (order of the calls of the ionization object). In every call of
`collide`, the events of a bin that is processed are, in this order: `prepare1` once,
`prepare2` once per pair in the order of the pairs (with `isUnique = (i < N2max)`),
`prepare3` once, then for each pair the store of its momenta followed by `apply`; no call
is made twice and a skipped bin has no event. `finish` is called once per call of
`collide`, after the loop on the bins, and not once per bin. -/
theorem hook_call_order (bins : List (Option Pairing)) :
    (∀ ibin P, bins[ibin]? = some (some P) →
      (collideEvents bins).filter (fun e => decide (e.bin = some ibin)) =
        [Event.prepare1 ibin] ++
        (List.range P.npairs).map
          (fun i => Event.prepare2 ibin i (decide (i < P.N2max))) ++
        [Event.prepare3 ibin] ++
        (List.range P.npairs).flatMap
          (fun i => [Event.momenta ibin i, Event.apply ibin i]) ∧
      ((collideEvents bins).filter (fun e => decide (e.bin = some ibin))).Nodup) ∧
    (∀ ibin, bins[ibin]? = some none →
      (collideEvents bins).filter (fun e => decide (e.bin = some ibin)) = []) ∧
    (collideEvents bins).count Event.finish = 1 ∧
    (collideEvents bins).getLast? = some Event.finish := by
  have hf : ∀ ibin, (collideEvents bins).filter (fun e => decide (e.bin = some ibin)) =
      match bins[ibin]? with
      | some (some P) => binEvents ibin P
      | _ => [] := by
    intro ibin
    have h := filter_binsEvents 0 ibin bins
    simp only [Nat.zero_add] at h
    unfold collideEvents
    rw [List.filter_append, h]
    simp [Event.bin]
  refine ⟨?_, ?_, ?_, ?_⟩
  · intro ibin P hP
    rw [hf ibin, hP]
    exact ⟨rfl, binEvents_nodup ibin P⟩
  · intro ibin hP
    rw [hf ibin, hP]
  · unfold collideEvents
    rw [List.count_append]
    have h0 : (binsEvents 0 bins).count Event.finish = 0 := by
      rw [List.count_eq_zero]
      intro hmem
      obtain ⟨j, hj, _⟩ := binsEvents_bin 0 bins _ hmem
      simp [Event.bin] at hj
    rw [h0]
    simp
  · unfold collideEvents
    simp

/-! ### The sampler against the specification, random draws and acceptance -/

/-- Claim C18 (`cos_chi` is the specified piecewise sampler). For every `s` and every draw
`U`, `cos_chi` has the value the specification gives: `1 + s ln(max(U, 1e-4))` if
`s < 0.1`; `invA ln(exp(-A) + 2U sinh A)` with `A = 1/invA` and `invA` the polynomial of
degree 5 if `0.1 ≤ s < 3`; `(1/A) ln(exp(-A) + 2U sinh A)` with `A = 3 exp(-s)` if
`3 ≤ s < 6`; `2U - 1` if `s ≥ 6`.  The nested form of the polynomial in the code is the
expanded one, of value `2.43671418` at `s = 2`; the boundaries 0.1, 3 and 6 belong to the
upper branch; `s = 0.05, U = 0.5` gives `1 + 0.05 ln 0.5` and `s = 10, U = 0.25` gives
`-0.5`. -/
theorem cos_chi_eq_spec (s U : ℝ) :
    cos_chi s U = nanbuCosChi s U ∧
    (0.00569578 + (0.95602 + (-0.508139 + (0.479139 + (-0.12789 + 0.0238957 * s) * s) * s) * s)
        * s =
      0.00569578 + 0.95602 * s - 0.508139 * s ^ 2 + 0.479139 * s ^ 3 - 0.12789 * s ^ 4
        + 0.0238957 * s ^ 5) ∧
    ((0.00569578 + (0.95602 + (-0.508139 + (0.479139 + (-0.12789 + 0.0238957 * 2) * 2) * 2) * 2)
        * 2 : ℝ) = 2.43671418) ∧
    |(2.43671418 : ℝ) - 2.4367| < 0.0001 ∧
    cos_chi 2 U = 2.43671418 *
      Real.log (Real.exp (-(1 / 2.43671418)) + 2 * U * Real.sinh (1 / 2.43671418)) ∧
    cos_chi 0.1 U = nanbuCosChi 0.1 U ∧
    cos_chi 0.1 U =
      (0.00569578 + 0.95602 * 0.1 - 0.508139 * 0.1 ^ 2 + 0.479139 * 0.1 ^ 3
        - 0.12789 * 0.1 ^ 4 + 0.0238957 * 0.1 ^ 5) *
      Real.log (Real.exp (-(1 / (0.00569578 + 0.95602 * 0.1 - 0.508139 * 0.1 ^ 2
          + 0.479139 * 0.1 ^ 3 - 0.12789 * 0.1 ^ 4 + 0.0238957 * 0.1 ^ 5)))
        + 2 * U * Real.sinh (1 / (0.00569578 + 0.95602 * 0.1 - 0.508139 * 0.1 ^ 2
          + 0.479139 * 0.1 ^ 3 - 0.12789 * 0.1 ^ 4 + 0.0238957 * 0.1 ^ 5))) ∧
    cos_chi 3 U = (1 / (3 * Real.exp (-3))) *
      Real.log (Real.exp (-(3 * Real.exp (-3))) + 2 * U * Real.sinh (3 * Real.exp (-3))) ∧
    cos_chi 6 U = 2 * U - 1 ∧
    cos_chi 0.05 0.5 = 1 + 0.05 * Real.log 0.5 ∧
    cos_chi 10 0.25 = -0.5 := by
  have hpoly : ∀ x : ℝ,
      0.00569578 + (0.95602 + (-0.508139 + (0.479139 + (-0.12789 + 0.0238957 * x) * x) * x) * x)
        * x =
      0.00569578 + 0.95602 * x - 0.508139 * x ^ 2 + 0.479139 * x ^ 3 - 0.12789 * x ^ 4
        + 0.0238957 * x ^ 5 := by
    intro x; ring
  have hmax : ∀ u : ℝ, (if u < 0.0001 then (0.0001 : ℝ) else u) = max u (1e-4) := by
    intro u
    have e : (1e-4 : ℝ) = 0.0001 := by norm_num
    rw [e]
    split_ifs with h
    · exact (max_eq_right h.le).symm
    · exact (max_eq_left (not_lt.mp h)).symm
  have hspec : ∀ x u : ℝ, cos_chi x u = nanbuCosChi x u := by
    intro x u
    unfold cos_chi nanbuCosChi
    by_cases h1 : x < 0.1
    · simp only [if_pos h1, hmax]
    · by_cases h2 : x < 3
      · simp only [if_neg h1, if_pos h2, if_pos (And.intro (not_lt.mp h1) h2), hpoly]
      · by_cases h3 : x < 6
        · have h2' : ¬ ((0.1 : ℝ) ≤ x ∧ x < 3) := fun h => h2 h.2
          simp only [if_neg h1, if_neg h2, if_pos h3, if_neg h2',
            if_pos (And.intro (not_lt.mp h2) h3)]
        · have h2' : ¬ ((0.1 : ℝ) ≤ x ∧ x < 3) := fun h => h2 h.2
          have h3' : ¬ ((3 : ℝ) ≤ x ∧ x < 6) := fun h => h3 h.2
          simp only [if_neg h1, if_neg h2, if_neg h3, if_neg h2', if_neg h3']
  have h2v : ((0.00569578 + (0.95602 + (-0.508139 + (0.479139 + (-0.12789 + 0.0238957 * 2) * 2)
      * 2) * 2) * 2 : ℝ) = 2.43671418) := by norm_num
  refine ⟨hspec s U, hpoly s, h2v, ?_, ?_, hspec 0.1 U, ?_, ?_, ?_, ?_, ?_⟩
  · rw [abs_lt]; constructor <;> norm_num
  · unfold cos_chi
    rw [if_neg (by norm_num), if_pos (by norm_num)]
    simp only [h2v]
  · unfold cos_chi
    rw [if_neg (by norm_num), if_pos (by norm_num)]
    simp only [hpoly]
  · unfold cos_chi
    rw [if_neg (by norm_num), if_neg (by norm_num), if_pos (by norm_num)]
  · unfold cos_chi
    rw [if_neg (by norm_num), if_neg (by norm_num), if_neg (by norm_num)]
  · unfold cos_chi
    rw [if_pos (by norm_num)]
    simp only
    rw [if_neg (by norm_num)]
  · unfold cos_chi
    rw [if_neg (by norm_num), if_neg (by norm_num), if_neg (by norm_num)]
    norm_num

/-- The draw of `rand()` at its largest value. -/
theorem uniformDraw_max {K : Type} [LinearOrderedField K] (RAND_MAX : Nat)
    (hR : 0 < RAND_MAX) : (uniformDraw RAND_MAX RAND_MAX : K) = 1 := by
  unfold uniformDraw
  have : (RAND_MAX : K) ≠ 0 := by exact_mod_cast hR.ne'
  field_simp

/-- Claim C20 fails at `r = RAND_MAX`: with `RAND_MAX = 2147483647` the draw
`r / RAND_MAX` is 1, not below 1, and the azimuth is `2π`, not below `2π`. -/
theorem draw_reaches_one :
    ¬ ((uniformDraw 2147483647 2147483647 : ℝ) < 1) ∧
    ¬ (azimuth 2147483647 2147483647 < 2 * Real.pi) := by
  have h : (uniformDraw 2147483647 2147483647 : ℝ) = 1 := uniformDraw_max _ (by norm_num)
  unfold azimuth
  rw [h]
  constructor
  · exact lt_irrefl 1
  · rw [mul_one]; exact lt_irrefl _

/-- Claim C20, as amended. For every value `r` that `rand()` can return
(`0 ≤ r ≤ RAND_MAX`), the draws `U = r / RAND_MAX` of the sampler and of the acceptance lie
in the closed interval `[0, 1]`, and `U < 1` exactly when `r < RAND_MAX`; the azimuth
`2π r / RAND_MAX` lies in `[0, 2π]` and is below `2π` exactly when `r < RAND_MAX`. -/
theorem draws_in_closed_unit_interval (RAND_MAX r : Nat) (hR : 0 < RAND_MAX)
    (hr : r ≤ RAND_MAX) :
    0 ≤ (uniformDraw RAND_MAX r : ℝ) ∧ (uniformDraw RAND_MAX r : ℝ) ≤ 1 ∧
    ((uniformDraw RAND_MAX r : ℝ) < 1 ↔ r < RAND_MAX) ∧
    ((uniformDraw RAND_MAX r : ℝ) = 1 ↔ r = RAND_MAX) ∧
    0 ≤ azimuth RAND_MAX r ∧ azimuth RAND_MAX r ≤ 2 * Real.pi ∧
    (azimuth RAND_MAX r < 2 * Real.pi ↔ r < RAND_MAX) := by
  have hRpos : (0 : ℝ) < (RAND_MAX : ℝ) := by exact_mod_cast hR
  have hr' : (r : ℝ) ≤ (RAND_MAX : ℝ) := by exact_mod_cast hr
  have h0 : 0 ≤ (uniformDraw RAND_MAX r : ℝ) := by unfold uniformDraw; positivity
  have h1 : (uniformDraw RAND_MAX r : ℝ) ≤ 1 := by
    unfold uniformDraw; exact (div_le_one hRpos).mpr hr'
  have hlt : (uniformDraw RAND_MAX r : ℝ) < 1 ↔ r < RAND_MAX := by
    unfold uniformDraw
    rw [div_lt_one hRpos]
    exact Nat.cast_lt
  have heq : (uniformDraw RAND_MAX r : ℝ) = 1 ↔ r = RAND_MAX := by
    unfold uniformDraw
    rw [div_eq_one_iff_eq hRpos.ne']
    exact Nat.cast_inj
  have hpi : 0 < 2 * Real.pi := by positivity
  refine ⟨h0, h1, hlt, heq, ?_, ?_, ?_⟩
  · unfold azimuth; positivity
  · unfold azimuth
    calc 2 * Real.pi * uniformDraw RAND_MAX r ≤ 2 * Real.pi * 1 :=
          mul_le_mul_of_nonneg_left h1 hpi.le
      _ = 2 * Real.pi := mul_one _
  · unfold azimuth
    rw [← hlt]
    constructor
    · intro h
      by_contra hcon
      have : (uniformDraw RAND_MAX r : ℝ) = 1 := le_antisymm h1 (not_lt.mp hcon)
      rw [this, mul_one] at h
      exact lt_irrefl _ h
    · intro h
      calc 2 * Real.pi * uniformDraw RAND_MAX r < 2 * Real.pi * 1 :=
            mul_lt_mul_of_pos_left h hpi
        _ = 2 * Real.pi := mul_one _

/-- The smallest `RAND_MAX` the C standard allows, `rand()` returning 16384. -/
theorem draws_in_closed_unit_interval_witness :
    0 ≤ (uniformDraw 32767 16384 : ℝ) ∧ (uniformDraw 32767 16384 : ℝ) < 1 ∧
    azimuth 32767 16384 < 2 * Real.pi :=
  have h := draws_in_closed_unit_interval 32767 16384 (by norm_num) (by norm_num)
  ⟨h.1, h.2.2.1.mpr (by norm_num), h.2.2.2.2.2.2.mpr (by norm_num)⟩

/-- Claim C19 fails. With equal weights `W1 = W2 = 1` and `U = 0.5` both conditions hold
and both momenta are replaced; with `W1 = 1`, `W2 = 3` and `U = 0.25` both hold as
well. -/
theorem both_deflections_fire :
    ((0.5 : ℝ) < 1 / 1 ∧ (0.5 : ℝ) < 1 / 1 ∧
      scatter 1 1 1 1 atRest (nearAxisP1 0 1) 0 0 0.5 =
        (deflected1 1 1 atRest (nearAxisP1 0 1) 0 0,
         deflected2 1 1 atRest (nearAxisP1 0 1) 0 0)) ∧
    ((0.25 : ℝ) < 3 / 1 ∧ (0.25 : ℝ) < 1 / 3 ∧
      scatter 1 1 1 3 atRest (nearAxisP1 0 1) 0 0 0.25 =
        (deflected1 1 1 atRest (nearAxisP1 0 1) 0 0,
         deflected2 1 1 atRest (nearAxisP1 0 1) 0 0)) := by
  refine ⟨⟨by norm_num, by norm_num, ?_⟩, by norm_num, by norm_num, ?_⟩
  · rw [scatter_eq, if_pos (by norm_num), if_pos (by norm_num)]
  · rw [scatter_eq, if_pos (by norm_num), if_pos (by norm_num)]

/-- Claim C19, as amended. For positive weights and an acceptance draw `U ≤ 1`:
when `W1 = W2` the two conditions are the same, `U < 1`, so both deflections are applied
for every `U < 1` (and none for `U = 1`); when the weights differ the condition of the
particle with the smaller weight holds for every `U` and the other one holds in addition
exactly when `U` is below the ratio of the smaller weight to the larger; so at least one
holds for every `U < 1`, and both hold exactly when `U < min(W2/W1, W1/W2)`. -/
theorem deflection_conditions (m1 m2 W1 W2 : ℝ) (p1 p2 : Vec3) (cosX phi U : ℝ)
    (hW1 : 0 < W1) (hW2 : 0 < W2) (hU1 : U ≤ 1) :
    (W1 = W2 → (U < W2 / W1 ↔ U < 1) ∧ (U < W1 / W2 ↔ U < 1)) ∧
    (W1 = W2 → U < 1 →
      scatter m1 m2 W1 W2 p1 p2 cosX phi U =
        (deflected1 m1 m2 p1 p2 cosX phi, deflected2 m1 m2 p1 p2 cosX phi)) ∧
    (W1 = W2 → U = 1 → scatter m1 m2 W1 W2 p1 p2 cosX phi U = (p1, p2)) ∧
    (W1 < W2 → U < W2 / W1 ∧
      scatter m1 m2 W1 W2 p1 p2 cosX phi U =
        (deflected1 m1 m2 p1 p2 cosX phi,
         if U < W1 / W2 then deflected2 m1 m2 p1 p2 cosX phi else p2)) ∧
    (W2 < W1 → U < W1 / W2 ∧
      scatter m1 m2 W1 W2 p1 p2 cosX phi U =
        (if U < W2 / W1 then deflected1 m1 m2 p1 p2 cosX phi else p1,
         deflected2 m1 m2 p1 p2 cosX phi)) ∧
    (U < 1 → U < W2 / W1 ∨ U < W1 / W2) ∧
    ((U < W2 / W1 ∧ U < W1 / W2) ↔ U < min (W2 / W1) (W1 / W2)) := by
  have hsame : W1 = W2 → W2 / W1 = 1 ∧ W1 / W2 = 1 := by
    intro h
    subst h
    exact ⟨div_self hW1.ne', div_self hW1.ne'⟩
  have hlt1 : W1 < W2 → U < W2 / W1 := fun h =>
    lt_of_le_of_lt hU1 ((one_lt_div hW1).mpr h)
  have hlt2 : W2 < W1 → U < W1 / W2 := fun h =>
    lt_of_le_of_lt hU1 ((one_lt_div hW2).mpr h)
  refine ⟨?_, ?_, ?_, ?_, ?_, ?_, ?_⟩
  · intro h
    rw [(hsame h).1, (hsame h).2]
    exact ⟨Iff.rfl, Iff.rfl⟩
  · intro h hU
    rw [scatter_eq, (hsame h).1, (hsame h).2, if_pos hU, if_pos hU]
  · intro h hU
    have hn : ¬ U < 1 := by rw [hU]; exact lt_irrefl 1
    rw [scatter_eq, (hsame h).1, (hsame h).2, if_neg hn, if_neg hn]
  · intro h
    refine ⟨hlt1 h, ?_⟩
    rw [scatter_eq, if_pos (hlt1 h)]
  · intro h
    refine ⟨hlt2 h, ?_⟩
    rw [scatter_eq, if_pos (hlt2 h)]
  · intro hU
    rcases lt_trichotomy W1 W2 with h | h | h
    · exact Or.inl (hlt1 h)
    · left; rw [(hsame h).1]; exact hU
    · exact Or.inr (hlt2 h)
  · exact lt_min_iff.symm

/-- Weights 1 and 3 with `U = 0.5`: particle 1 is deflected, particle 2 is not. -/
theorem deflection_conditions_witness :
    scatter 1 1 1 3 atRest (nearAxisP1 0 1) 0 0 0.5 =
      (deflected1 1 1 atRest (nearAxisP1 0 1) 0 0, nearAxisP1 0 1) := by
  have h := ((deflection_conditions 1 1 1 3 atRest (nearAxisP1 0 1) 0 0 0.5 (by norm_num)
    (by norm_num) (by norm_num)).2.2.2.1 (by norm_num)).2
  rw [if_neg (by norm_num)] at h
  exact h

/-! ### Coulomb logarithm -/

theorem foldl_particleStep (ps : List ParticleData) (acc : SpeciesSums) :
    ps.foldl particleStep acc =
      { density := acc.density + (ps.map (fun p => p.weight)).sum
        charge := acc.charge + (ps.map (fun p => p.weight * p.charge)).sum
        temperature := acc.temperature + (ps.map (fun p =>
          p.weight * (p.px ^ 2 + p.py ^ 2 + p.pz ^ 2) /
            Real.sqrt (1 + (p.px ^ 2 + p.py ^ 2 + p.pz ^ 2)))).sum } := by
  induction ps generalizing acc with
  | nil => simp
  | cons p rest ih =>
    rw [List.foldl_cons, ih]
    simp only [particleStep, List.map_cons, List.sum_cons]
    congr 1 <;> ring

/-- One turn of the loop on the species, in the terms of the specification. -/
theorem speciesStep_eq (cells : Nat) (acc : DebyeAcc) (s : BinSpecies) :
    speciesStep cells acc s =
      if 0 < totalWeight s then
        { debye := if 0 < specTemperature s then
              acc.debye + specDensity cells s * specCharge s ^ 2 / specTemperature s
            else acc.debye
          density_max := max acc.density_max (specDensity cells s) }
      else acc := by
  unfold speciesStep
  rw [foldl_particleStep]
  simp only [zero_add]
  have hT : (s.particles.map (fun p =>
          p.weight * (p.px ^ 2 + p.py ^ 2 + p.pz ^ 2) /
            Real.sqrt (1 + (p.px ^ 2 + p.py ^ 2 + p.pz ^ 2)))).sum *
        (s.mass / (3 * (s.particles.map (fun p => p.weight)).sum)) = specTemperature s := by
    unfold specTemperature totalWeight
    ring
  rw [hT]
  change (if totalWeight s ≤ 0 then acc else _) = _
  by_cases hw : 0 < totalWeight s
  · rw [if_neg (not_le.mpr hw), if_pos hw]
    congr 1
    · change (if specTemperature s > 0 then
        acc.debye + specDensity cells s * specCharge s * specCharge s / specTemperature s
        else acc.debye) = _
      by_cases ht : 0 < specTemperature s
      · rw [if_pos ht, if_pos ht]; ring
      · rw [if_neg ht, if_neg ht]
    · change (if specDensity cells s > acc.density_max then specDensity cells s
        else acc.density_max) = _
      by_cases hd : specDensity cells s > acc.density_max
      · rw [if_pos hd, max_eq_right hd.le]
      · rw [if_neg hd, max_eq_left (not_lt.mp hd)]
  · rw [if_pos (not_lt.mp hw), if_neg hw]

theorem specDensityMax_nonneg (cells : Nat) (l : List BinSpecies) :
    0 ≤ specDensityMax cells l := by
  unfold specDensityMax
  generalize (l.filter (fun s => decide (0 < totalWeight s))).map (specDensity cells) = xs
  induction xs with
  | nil => simp
  | cons x rest ih => exact le_trans ih (le_max_right _ _)

theorem specDensityMax_cons (cells : Nat) (s : BinSpecies) (l : List BinSpecies) :
    specDensityMax cells (s :: l) =
      if 0 < totalWeight s then max (specDensity cells s) (specDensityMax cells l)
      else specDensityMax cells l := by
  unfold specDensityMax
  by_cases h : 0 < totalWeight s
  · simp [List.filter_cons, h]
  · simp [List.filter_cons, h]

theorem specInverseDebye_cons (cells : Nat) (s : BinSpecies) (l : List BinSpecies) :
    specInverseDebye cells (s :: l) =
      (if 0 < totalWeight s ∧ 0 < specTemperature s then
        specDensity cells s * specCharge s ^ 2 / specTemperature s else 0)
        + specInverseDebye cells l := by
  unfold specInverseDebye
  by_cases h : 0 < totalWeight s ∧ 0 < specTemperature s
  · simp [List.filter_cons, h]
  · simp [List.filter_cons, h]

/-- The loop on the species, in the terms of the specification. -/
theorem foldl_speciesStep (cells : Nat) (l : List BinSpecies) (acc : DebyeAcc)
    (h : 0 ≤ acc.density_max) :
    l.foldl (speciesStep cells) acc =
      { debye := acc.debye + specInverseDebye cells l
        density_max := max acc.density_max (specDensityMax cells l) } := by
  induction l generalizing acc with
  | nil => simp [specInverseDebye, specDensityMax, h]
  | cons s rest ih =>
    rw [List.foldl_cons, speciesStep_eq, specInverseDebye_cons, specDensityMax_cons]
    by_cases hw : 0 < totalWeight s
    · rw [if_pos hw, ih _ (le_trans h (le_max_left _ _))]
      simp only [if_pos hw]
      by_cases ht : 0 < specTemperature s
      · simp only [if_pos ht, if_pos (And.intro hw ht)]
        congr 1
        · ring
        · exact max_assoc _ _ _
      · have hn : ¬ (0 < totalWeight s ∧ 0 < specTemperature s) := fun hh => ht hh.2
        simp only [if_neg ht, if_neg hn]
        congr 1
        · ring
        · exact max_assoc _ _ _
    · have hn : ¬ (0 < totalWeight s ∧ 0 < specTemperature s) := fun hh => hw hh.1
      rw [if_neg hw, ih _ h]
      simp only [if_neg hw, if_neg hn, zero_add]

theorem specInverseDebye_nonneg (cells : Nat) (l : List BinSpecies) :
    0 ≤ specInverseDebye cells l := by
  induction l with
  | nil => simp [specInverseDebye]
  | cons s rest ih =>
    rw [specInverseDebye_cons]
    split_ifs with h
    · have hn : 0 ≤ specDensity cells s := by
        unfold specDensity
        exact div_nonneg h.1.le (Nat.cast_nonneg _)
      have : 0 ≤ specDensity cells s * specCharge s ^ 2 / specTemperature s :=
        div_nonneg (mul_nonneg hn (sq_nonneg _)) h.2.le
      linarith
    · linarith

/-- The value stored by the code, in the terms of the specification. -/
theorem debyeLengthSquared_eq (omega : ℝ) (cells : Nat) (l : List BinSpecies) :
    debyeLengthSquared omega cells l = specDebye omega cells l := by
  have hS := specInverseDebye_nonneg cells l
  have hM := specDensityMax_nonneg cells l
  unfold debyeLengthSquared specDebye
  rw [foldl_speciesStep cells l _ (le_refl _)]
  simp only [zero_add, max_eq_right hM]
  by_cases h0 : specInverseDebye cells l = 0
  · rw [if_pos h0, if_neg (by rw [h0]; exact lt_irrefl 0), h0]
  · have hpos : 0 < specInverseDebye cells l := lt_of_le_of_ne hS (Ne.symm h0)
    rw [if_neg h0, if_pos hpos]
    change (if 1 / specInverseDebye cells l < specRmin2 omega cells l then
      specRmin2 omega cells l else 1 / specInverseDebye cells l) = _
    split_ifs with hlt
    · exact (max_eq_right hlt.le).symm
    · exact (max_eq_left (not_lt.mp hlt)).symm

theorem specDensityMax_ge (cells : Nat) (l : List BinSpecies) (s : BinSpecies)
    (hs : s ∈ l) (hw : 0 < totalWeight s) : specDensity cells s ≤ specDensityMax cells l := by
  induction l with
  | nil => simp at hs
  | cons a rest ih =>
    rw [specDensityMax_cons]
    rcases List.mem_cons.mp hs with rfl | hmem
    · rw [if_pos hw]; exact le_max_left _ _
    · split_ifs
      · exact le_trans (ih hmem) (le_max_right _ _)
      · exact ih hmem

theorem specDensityMax_attained (cells : Nat) (l : List BinSpecies) :
    specDensityMax cells l = 0 ∨
      ∃ s ∈ l, 0 < totalWeight s ∧ specDensity cells s = specDensityMax cells l := by
  induction l with
  | nil => left; simp [specDensityMax]
  | cons a rest ih =>
    rw [specDensityMax_cons]
    split_ifs with hw
    · rcases le_total (specDensity cells a) (specDensityMax cells rest) with h | h
      · rw [max_eq_right h]
        rcases ih with h0 | ⟨s, hs, hsw, hse⟩
        · exact Or.inl h0
        · exact Or.inr ⟨s, List.mem_cons_of_mem _ hs, hsw, hse⟩
      · rw [max_eq_left h]
        exact Or.inr ⟨a, List.mem_cons_self _ _, hw, rfl⟩
    · rcases ih with h0 | ⟨s, hs, hsw, hse⟩
      · exact Or.inl h0
      · exact Or.inr ⟨s, List.mem_cons_of_mem _ hs, hsw, hse⟩

theorem specInverseDebye_empty (cells : Nat) (l : List BinSpecies)
    (h : ∀ s ∈ l, s.particles = []) : specInverseDebye cells l = 0 := by
  induction l with
  | nil => simp [specInverseDebye]
  | cons a rest ih =>
    rw [specInverseDebye_cons, ih (fun s hs => h s (List.mem_cons_of_mem _ hs))]
    have hw : totalWeight a = 0 := by
      unfold totalWeight
      rw [h a (List.mem_cons_self _ _)]
      simp
    rw [if_neg (by rw [hw]; exact fun hh => lt_irrefl 0 hh.1)]
    simp

/-- Claim C13 (Debye length of a bin, real arithmetic). For every bin,
`calculate_debye_length` stores 0 if `S = 0` and `max(1/S, rmin²)` otherwise, `S` being the
sum over the species with positive total weight and positive temperature of `n <q>²/T`
with `n = (ΣW)/cellsPerBin`, `<q> = Σ(W q)/ΣW`, `T = mass Σ(W p²/sqrt(1+p²))/(3 ΣW)`, and
`rmin² = (coeff n_max)^(-2/3)` with `coeff = c/(3 ω0 r_e)` and `n_max` the largest `n` over
the species with positive total weight. A bin without particles gets 0 and every non-zero
result is at least `rmin²`. -/
theorem debye_length_per_bin (omega : ℝ) (cellsPerBin : Nat) (species : List BinSpecies)
    (hcells : 0 < cellsPerBin) :
    debyeLengthSquared omega cellsPerBin species = specDebye omega cellsPerBin species ∧
    (specInverseDebye cellsPerBin species = 0 →
      debyeLengthSquared omega cellsPerBin species = 0) ∧
    (specInverseDebye cellsPerBin species ≠ 0 →
      debyeLengthSquared omega cellsPerBin species =
        max (1 / specInverseDebye cellsPerBin species)
          ((299792458 / (3 * omega * 2.8179403267e-15) *
            specDensityMax cellsPerBin species) ^ (-2 / 3 : ℝ))) ∧
    0 ≤ specInverseDebye cellsPerBin species ∧
    (∀ s ∈ species, 0 < totalWeight s →
      specDensity cellsPerBin s ≤ specDensityMax cellsPerBin species ∧
      0 < specDensityMax cellsPerBin species) ∧
    (specDensityMax cellsPerBin species = 0 ∨
      ∃ s ∈ species, 0 < totalWeight s ∧
        specDensity cellsPerBin s = specDensityMax cellsPerBin species) ∧
    ((∀ s ∈ species, s.particles = []) →
      debyeLengthSquared omega cellsPerBin species = 0) ∧
    (debyeLengthSquared omega cellsPerBin species ≠ 0 →
      specRmin2 omega cellsPerBin species ≤ debyeLengthSquared omega cellsPerBin species) := by
  have heq := debyeLengthSquared_eq omega cellsPerBin species
  have hzero : specInverseDebye cellsPerBin species = 0 →
      debyeLengthSquared omega cellsPerBin species = 0 := by
    intro h
    rw [heq, specDebye, if_pos h]
  have hne : specInverseDebye cellsPerBin species ≠ 0 →
      debyeLengthSquared omega cellsPerBin species =
        max (1 / specInverseDebye cellsPerBin species)
          (specRmin2 omega cellsPerBin species) := by
    intro h
    rw [heq, specDebye, if_neg h]
  refine ⟨heq, hzero, hne, specInverseDebye_nonneg _ _, ?_, specDensityMax_attained _ _,
    ?_, ?_⟩
  · intro s hs hw
    have hge := specDensityMax_ge cellsPerBin species s hs hw
    refine ⟨hge, lt_of_lt_of_le ?_ hge⟩
    unfold specDensity
    exact div_pos hw (by exact_mod_cast hcells)
  · intro h
    exact hzero (specInverseDebye_empty cellsPerBin species h)
  · intro h
    by_cases h0 : specInverseDebye cellsPerBin species = 0
    · exact absurd (hzero h0) h
    · rw [hne h0]
      exact le_max_right _ _

/-- One species (mass 1) with one particle of weight 1, charge -1 and momentum `15/8`
along `z`, one cell per cluster. -/
theorem debye_length_per_bin_witness :
    debyeLengthSquared 1 1 [⟨1, [⟨1, -1, 0, 0, 15 / 8⟩]⟩] =
      specDebye 1 1 [⟨1, [⟨1, -1, 0, 0, 15 / 8⟩]⟩] ∧
    debyeLengthSquared 1 1 [⟨1, []⟩] = 0 :=
  ⟨(debye_length_per_bin 1 1 [⟨1, [⟨1, -1, 0, 0, 15 / 8⟩]⟩] (by norm_num)).1,
   (debye_length_per_bin 1 1 [⟨1, []⟩] (by norm_num)).2.2.2.2.2.2.1 (by simp)⟩

/-! ### The mean of the deflection cosine (`cos_chi`, lines 700-723) -/

/-- The branch `s < 0.1`, with the floor of `U` written as a maximum. -/
theorem cos_chi_small (s U : ℝ) (hs : s < 0.1) :
    cos_chi s U = 1 + s * Real.log (max U 0.0001) := by
  unfold cos_chi
  rw [if_pos hs]
  simp only
  split_ifs with h
  · rw [max_eq_right h.le]
  · rw [max_eq_left (not_lt.mp h)]

/-- The mean in the branch `s < 0.1`. -/
theorem meanCosChi_small (s : ℝ) (hs : s < 0.1) : meanCosChi s = 1 - 0.9999 * s := by
  unfold meanCosChi
  have hfun : (fun U => cos_chi s U) = fun U => 1 + s * Real.log (max U 0.0001) := by
    funext U
    exact cos_chi_small s U hs
  rw [hfun]
  have hcont : Continuous (fun U : ℝ => 1 + s * Real.log (max U 0.0001)) := by
    apply Continuous.add continuous_const
    apply Continuous.mul continuous_const
    apply Continuous.log (by fun_prop)
    intro x
    exact ne_of_gt (lt_of_lt_of_le (by norm_num) (le_max_right _ _))
  rw [← intervalIntegral.integral_add_adjacent_intervals
    (hcont.intervalIntegrable 0 0.0001) (hcont.intervalIntegrable 0.0001 1)]
  have h1 : ∫ U in (0 : ℝ)..0.0001, (1 + s * Real.log (max U 0.0001)) =
      ∫ _U in (0 : ℝ)..0.0001, (1 + s * Real.log 0.0001) := by
    apply intervalIntegral.integral_congr
    intro U hU
    rw [Set.uIcc_of_le (by norm_num)] at hU
    simp only
    rw [max_eq_right hU.2]
  have h2 : ∫ U in (0.0001 : ℝ)..1, (1 + s * Real.log (max U 0.0001)) =
      ∫ U in (0.0001 : ℝ)..1, (1 + s * Real.log U) := by
    apply intervalIntegral.integral_congr
    intro U hU
    rw [Set.uIcc_of_le (by norm_num)] at hU
    simp only
    rw [max_eq_left hU.1]
  have h0 : (0 : ℝ) ∉ Set.uIcc (0.0001 : ℝ) 1 := by
    rw [Set.uIcc_of_le (by norm_num)]
    intro h
    have := h.1
    norm_num at this
  have hlogint : IntervalIntegrable (fun U => s * Real.log U) MeasureTheory.volume 0.0001 1 :=
    (intervalIntegral.intervalIntegrable_log h0).const_mul s
  rw [h1, h2, intervalIntegral.integral_const,
    intervalIntegral.integral_add (intervalIntegrable_const) hlogint,
    intervalIntegral.integral_const, intervalIntegral.integral_const_mul, integral_log h0]
  simp only [smul_eq_mul, Real.log_one]
  ring

/-- The integral of `ln(exp(-A) + 2 U sinh A)` over `U` in `[0, 1]`. -/
theorem integral_log_nanbu (A : ℝ) (hA : 0 < A) :
    ∫ U in (0 : ℝ)..1, Real.log (Real.exp (-A) + 2 * U * Real.sinh A) =
      A * (Real.exp A + Real.exp (-A)) / (2 * Real.sinh A) - 1 := by
  have hs : 0 < Real.sinh A := Real.sinh_pos_iff.mpr hA
  have hc : 2 * Real.sinh A ≠ 0 := by positivity
  have hfun : (fun U => Real.log (Real.exp (-A) + 2 * U * Real.sinh A)) =
      fun U => Real.log (Real.exp (-A) + (2 * Real.sinh A) * U) := by
    funext U
    ring_nf
  rw [hfun, intervalIntegral.integral_comp_add_mul (fun x => Real.log x) hc]
  have hend : Real.exp (-A) + 2 * Real.sinh A * 1 = Real.exp A := by
    rw [Real.sinh_eq]; ring
  have h0 : (0 : ℝ) ∉ Set.uIcc (Real.exp (-A)) (Real.exp A) := by
    rw [Set.uIcc_of_le (Real.exp_le_exp.mpr (by linarith))]
    intro h
    exact absurd h.1 (not_le.mpr (Real.exp_pos _))
  rw [mul_zero, add_zero, hend, integral_log h0, Real.log_exp, Real.log_exp]
  simp only [smul_eq_mul]
  have h2 : 2 * Real.sinh A = Real.exp A - Real.exp (-A) := by
    rw [Real.sinh_eq]; ring
  field_simp
  rw [h2]
  ring

/-- The argument of the logarithm of `cos_chi` is the mean of `exp A` and `exp (-A)` with
weights `U` and `1 - U`. -/
theorem nanbu_arg_eq (A U : ℝ) :
    Real.exp (-A) + 2 * U * Real.sinh A = U * Real.exp A + (1 - U) * Real.exp (-A) := by
  rw [Real.sinh_eq]; ring

theorem nanbu_arg_pos (A U : ℝ) (hU0 : 0 ≤ U) (hU1 : U ≤ 1) :
    0 < Real.exp (-A) + 2 * U * Real.sinh A := by
  rw [nanbu_arg_eq]
  have h1 := Real.exp_pos A
  have h2 := Real.exp_pos (-A)
  rcases eq_or_lt_of_le hU0 with h | h
  · rw [← h]; simpa using h2
  · have : 0 ≤ (1 - U) * Real.exp (-A) := mul_nonneg (by linarith) h2.le
    have : 0 < U * Real.exp A := mul_pos h h1
    linarith

/-- For a fixed draw `U` the deflection cosine `(1/A) ln(exp(-A) + 2 U sinh A)` grows
with `A`. -/
theorem nanbuLog_mono (A B U : ℝ) (hB : 0 < B) (hBA : B ≤ A) (hU0 : 0 ≤ U) (hU1 : U ≤ 1) :
    nanbuLog B U ≤ nanbuLog A U := by
  unfold nanbuLog
  have hA : 0 < A := lt_of_lt_of_le hB hBA
  have hp : 1 ≤ A / B := by rw [le_div_iff₀ hB]; linarith
  have hconv := (convexOn_rpow hp).2 (Set.mem_Ici.mpr (Real.exp_pos B).le)
    (Set.mem_Ici.mpr (Real.exp_pos (-B)).le) hU0 (sub_nonneg.mpr hU1) (by ring)
  simp only [smul_eq_mul] at hconv
  have e1 : Real.exp B ^ (A / B) = Real.exp A := by
    rw [← Real.exp_mul]; congr 1; field_simp
  have e2 : Real.exp (-B) ^ (A / B) = Real.exp (-A) := by
    rw [← Real.exp_mul]; congr 1; field_simp; ring
  rw [e1, e2, ← nanbu_arg_eq, ← nanbu_arg_eq] at hconv
  have hposB := nanbu_arg_pos B U hU0 hU1
  have hposA := nanbu_arg_pos A U hU0 hU1
  have hlog := Real.log_le_log (Real.rpow_pos_of_pos hposB (A / B)) hconv
  rw [Real.log_rpow hposB] at hlog
  have hdiv : 1 / B * Real.log (Real.exp (-B) + 2 * U * Real.sinh B) =
      1 / A * (A / B * Real.log (Real.exp (-B) + 2 * U * Real.sinh B)) := by
    field_simp
  rw [hdiv]
  exact mul_le_mul_of_nonneg_left hlog (by positivity)

/-- For a fixed draw `U` the deflection cosine `(1/A) ln(exp(-A) + 2 U sinh A)` is at least
the isotropic value `2 U - 1`. -/
theorem nanbuLog_ge_isotropic (A U : ℝ) (hA : 0 < A) (hU0 : 0 ≤ U) (hU1 : U ≤ 1) :
    2 * U - 1 ≤ nanbuLog A U := by
  unfold nanbuLog
  have hgm := Real.geom_mean_le_arith_mean2_weighted hU0 (sub_nonneg.mpr hU1)
    (Real.exp_pos A).le (Real.exp_pos (-A)).le (by ring)
  rw [← Real.exp_mul, ← Real.exp_mul, ← Real.exp_add, ← nanbu_arg_eq] at hgm
  have hlog := Real.log_le_log (Real.exp_pos _) hgm
  rw [Real.log_exp] at hlog
  have e : 2 * U - 1 = 1 / A * (A * U + -A * (1 - U)) := by field_simp; ring
  rw [e]
  exact mul_le_mul_of_nonneg_left hlog (by positivity)

theorem nanbuLog_integrable (A : ℝ) :
    IntervalIntegrable (fun U => nanbuLog A U) MeasureTheory.volume 0 1 := by
  apply ContinuousOn.intervalIntegrable
  rw [Set.uIcc_of_le (by norm_num)]
  unfold nanbuLog
  apply ContinuousOn.mul continuousOn_const
  apply ContinuousOn.log (by fun_prop)
  intro x hx
  exact ne_of_gt (nanbu_arg_pos A x hx.1 hx.2)

/-- The mean over `U` of `(1/A) ln(exp(-A) + 2 U sinh A)` grows with `A`. -/
theorem meanNanbu_mono (A B : ℝ) (hB : 0 < B) (hBA : B ≤ A) : meanNanbu B ≤ meanNanbu A := by
  unfold meanNanbu
  apply intervalIntegral.integral_mono_on (by norm_num) (nanbuLog_integrable B)
    (nanbuLog_integrable A)
  intro U hU
  exact nanbuLog_mono A B U hB hBA hU.1 hU.2

theorem meanNanbu_nonneg (A : ℝ) (hA : 0 < A) : 0 ≤ meanNanbu A := by
  unfold meanNanbu
  have h0 : ∫ U in (0 : ℝ)..1, (2 * U - 1) = 0 := by
    rw [intervalIntegral.integral_sub (by apply Continuous.intervalIntegrable; fun_prop)
      intervalIntegrable_const, intervalIntegral.integral_const_mul, integral_id,
      intervalIntegral.integral_const]
    norm_num
  have hle : ∫ U in (0 : ℝ)..1, (2 * U - 1) ≤ ∫ U in (0 : ℝ)..1, nanbuLog A U := by
    apply intervalIntegral.integral_mono_on (by norm_num)
      (by apply Continuous.intervalIntegrable; fun_prop) (nanbuLog_integrable A)
    intro U hU
    exact nanbuLog_ge_isotropic A U hA hU.1 hU.2
  linarith

/-- The mean over `U` of `(1/A) ln(exp(-A) + 2 U sinh A)` is `coth A - 1/A`. -/
theorem meanNanbu_eq (A : ℝ) (hA : 0 < A) :
    meanNanbu A = (Real.exp A + Real.exp (-A)) / (2 * Real.sinh A) - 1 / A := by
  unfold meanNanbu nanbuLog
  rw [intervalIntegral.integral_const_mul, integral_log_nanbu A hA]
  have hs : 0 < Real.sinh A := Real.sinh_pos_iff.mpr hA
  field_simp
  ring

theorem meanNanbu_gt (A : ℝ) (hA : 0 < A) : 1 - 1 / A < meanNanbu A := by
  rw [meanNanbu_eq A hA]
  have hs : 0 < Real.sinh A := Real.sinh_pos_iff.mpr hA
  have h2 : 2 * Real.sinh A = Real.exp A - Real.exp (-A) := by
    rw [Real.sinh_eq]; ring
  have : 1 < (Real.exp A + Real.exp (-A)) / (2 * Real.sinh A) := by
    rw [lt_div_iff₀ (by positivity), h2]
    have := Real.exp_pos (-A)
    linarith
  linarith

theorem invAPoly_expand (s : ℝ) : invAPoly s = 0.00569578 + 0.95602 * s - 0.508139 * s ^ 2
    + 0.479139 * s ^ 3 - 0.12789 * s ^ 4 + 0.0238957 * s ^ 5 := by
  unfold invAPoly; ring

theorem invAPoly_hasDerivAt (x : ℝ) : HasDerivAt invAPoly
    (0.95602 - 1.016278 * x + 1.437417 * x ^ 2 - 0.51156 * x ^ 3 + 0.1194785 * x ^ 4) x := by
  have h : invAPoly = fun s : ℝ => 0.00569578 + 0.95602 * s - 0.508139 * s ^ 2
    + 0.479139 * s ^ 3 - 0.12789 * s ^ 4 + 0.0238957 * s ^ 5 := by
    funext s; exact invAPoly_expand s
  rw [h]
  have h1 := (hasDerivAt_id x).const_mul (0.95602 : ℝ)
  have h2 := ((hasDerivAt_id x).pow 2).const_mul (0.508139 : ℝ)
  have h3 := ((hasDerivAt_id x).pow 3).const_mul (0.479139 : ℝ)
  have h4 := ((hasDerivAt_id x).pow 4).const_mul (0.12789 : ℝ)
  have h5 := ((hasDerivAt_id x).pow 5).const_mul (0.0238957 : ℝ)
  have h := (((((hasDerivAt_const x (0.00569578 : ℝ)).add h1).sub h2).add h3).sub h4).add h5
  convert h using 1
  simp only [id]
  ring

theorem invAPoly_mono : Monotone invAPoly := by
  apply monotone_of_deriv_nonneg
  · intro x; exact (invAPoly_hasDerivAt x).differentiableAt
  · intro x
    rw [(invAPoly_hasDerivAt x).deriv]
    have hQ1 : 0 < 0.95602 - 1.016278 * x + 0.5 * x ^ 2 := by
      nlinarith [sq_nonneg (x - 1.016278)]
    have hQ2 : 0 < 0.937417 - 0.51156 * x + 0.1194785 * x ^ 2 := by
      nlinarith [sq_nonneg (x - 2.14)]
    have e : 0.95602 - 1.016278 * x + 1.437417 * x ^ 2 - 0.51156 * x ^ 3 + 0.1194785 * x ^ 4
        = (0.95602 - 1.016278 * x + 0.5 * x ^ 2)
          + x ^ 2 * (0.937417 - 0.51156 * x + 0.1194785 * x ^ 2) := by ring
    rw [e]
    positivity

theorem meanCosChi_mid (s : ℝ) (h1 : 0.1 ≤ s) (h3 : s < 3) :
    meanCosChi s = meanNanbu (1 / invAPoly s) := by
  unfold meanCosChi meanNanbu
  congr 1
  funext U
  unfold cos_chi nanbuLog invAPoly
  rw [if_neg (not_lt.mpr h1), if_pos h3]
  simp only [one_div_one_div]

theorem meanCosChi_high (s : ℝ) (h3 : 3 ≤ s) (h6 : s < 6) :
    meanCosChi s = meanNanbu (3 * Real.exp (-s)) := by
  unfold meanCosChi meanNanbu
  congr 1
  funext U
  unfold cos_chi nanbuLog
  rw [if_neg (not_lt.mpr (by linarith)), if_neg (not_lt.mpr h3), if_pos h6]

theorem meanCosChi_isotropic (s : ℝ) (h6 : 6 ≤ s) : meanCosChi s = 0 := by
  unfold meanCosChi
  have hfun : (fun U => cos_chi s U) = fun U => 2 * U - 1 := by
    funext U
    unfold cos_chi
    rw [if_neg (not_lt.mpr (by linarith)), if_neg (not_lt.mpr (by linarith)),
      if_neg (not_lt.mpr h6)]
  rw [hfun, intervalIntegral.integral_sub (by apply Continuous.intervalIntegrable; fun_prop)
    intervalIntegrable_const, intervalIntegral.integral_const_mul, integral_id,
    intervalIntegral.integral_const]
  norm_num

theorem invAPoly_pos (s : ℝ) (hs : 0 ≤ s) : 0 < invAPoly s := invA_pos s hs

theorem meanCosChi_nonneg (s : ℝ) (h1 : 0.1 ≤ s) : 0 ≤ meanCosChi s := by
  by_cases h3 : s < 3
  · rw [meanCosChi_mid s h1 h3]
    exact meanNanbu_nonneg _ (one_div_pos.mpr (invAPoly_pos s (by linarith)))
  · by_cases h6 : s < 6
    · rw [meanCosChi_high s (not_lt.mp h3) h6]
      exact meanNanbu_nonneg _ (by positivity)
    · rw [meanCosChi_isotropic s (not_lt.mp h6)]

/-- At the boundary `s = 3` the fitted `A` is above `3 exp(-3)`. -/
theorem boundary_three (s s' : ℝ) (hs0 : 0 ≤ s) (hs : s < 3) (hs' : 3 ≤ s') :
    3 * Real.exp (-s') ≤ 1 / invAPoly s := by
  have hP3 : invAPoly 3 = 6.68482288 := by
    unfold invAPoly; norm_num
  have hle : invAPoly s ≤ 6.68482288 := by
    rw [← hP3]; exact invAPoly_mono hs.le
  have hpos := invAPoly_pos s hs0
  have h1 : (1 : ℝ) / 6.68482288 ≤ 1 / invAPoly s := one_div_le_one_div_of_le hpos hle
  have hexp : Real.exp (-s') ≤ Real.exp (-3) := Real.exp_le_exp.mpr (by linarith)
  have he1 : (2.718 : ℝ) ≤ Real.exp 1 := by
    have := Real.exp_one_gt_d9
    linarith
  have h3 : Real.exp 3 = Real.exp 1 ^ 3 := by
    rw [← Real.exp_nat_mul]; norm_num
  have hbig : (20.06 : ℝ) ≤ Real.exp 3 := by
    rw [h3]
    calc (20.06 : ℝ) ≤ 2.718 ^ 3 := by norm_num
      _ ≤ Real.exp 1 ^ 3 := pow_le_pow_left₀ (by norm_num) he1 3
  have hinv : Real.exp (-3) ≤ 1 / 20.06 := by
    rw [Real.exp_neg, ← one_div]
    exact one_div_le_one_div_of_le (by norm_num) hbig
  have hnum : 3 * ((1 : ℝ) / 20.06) ≤ 1 / 6.68482288 := by norm_num
  linarith

/-- Above `s = 0.1` the mean of `cos_chi` decreases, also across `s = 3` and `s = 6`. -/
theorem meanCosChi_antitone_above (s s' : ℝ) (h1 : 0.1 ≤ s) (hss : s ≤ s') :
    meanCosChi s' ≤ meanCosChi s := by
  have h1' : 0.1 ≤ s' := le_trans h1 hss
  by_cases h6' : s' < 6
  · by_cases h3' : s' < 3
    · have h3 : s < 3 := lt_of_le_of_lt hss h3'
      rw [meanCosChi_mid s h1 h3, meanCosChi_mid s' h1' h3']
      have hpos := invAPoly_pos s (by linarith)
      have hpos' := invAPoly_pos s' (by linarith)
      exact meanNanbu_mono _ _ (one_div_pos.mpr hpos')
        (one_div_le_one_div_of_le hpos (invAPoly_mono hss))
    · rw [meanCosChi_high s' (not_lt.mp h3') h6']
      by_cases h3 : s < 3
      · rw [meanCosChi_mid s h1 h3]
        exact meanNanbu_mono _ _ (by positivity)
          (boundary_three s s' (by linarith) h3 (not_lt.mp h3'))
      · rw [meanCosChi_high s (not_lt.mp h3) (lt_of_le_of_lt hss h6')]
        apply meanNanbu_mono _ _ (by positivity)
        have := Real.exp_le_exp.mpr (neg_le_neg hss)
        linarith
  · rw [meanCosChi_isotropic s' (not_lt.mp h6')]
    exact meanCosChi_nonneg s h1

theorem meanCosChi_at_boundary : 0.9033 < meanCosChi 0.1 := by
  rw [meanCosChi_mid 0.1 (le_refl _) (by norm_num)]
  have hpos := invAPoly_pos 0.1 (by norm_num)
  have h := meanNanbu_gt (1 / invAPoly 0.1) (one_div_pos.mpr hpos)
  rw [one_div_one_div] at h
  have hv : invAPoly 0.1 < 0.0967 := by
    unfold invAPoly; norm_num
  linarith

/-- Counterexample to C17 as stated: the mean of `cos_chi` is larger at `s = 0.1` than at
`s = 0.099`, two points of `[0.01, 10]`. -/
theorem mean_rises_at_first_boundary :
    (0.01 : ℝ) ≤ 0.099 ∧ (0.099 : ℝ) ≤ 0.1 ∧ (0.1 : ℝ) ≤ 10 ∧
      meanCosChi 0.099 < meanCosChi 0.1 := by
  refine ⟨by norm_num, by norm_num, by norm_num, ?_⟩
  have h1 := meanCosChi_small 0.099 (by norm_num)
  have h2 := meanCosChi_at_boundary
  rw [h1]
  norm_num
  linarith

/-- C17 (amended): the mean of `cos_chi` over the uniform draw does not rise from `s` to a
larger `s'` when the two lie on the same side of the branch boundary `s = 0.1`, in
particular within `[0.01, 0.1)` and within `[0.1, 10]`; the boundaries `s = 3` and `s = 6`
are crossed without a rise. -/
theorem nanbu_mean_decreasing (s s' : ℝ) (hss : s ≤ s') (hside : s' < 0.1 ∨ 0.1 ≤ s) :
    meanCosChi s' ≤ meanCosChi s := by
  rcases hside with h | h
  · rw [meanCosChi_small s' h, meanCosChi_small s (lt_of_le_of_lt hss h)]
    linarith
  · exact meanCosChi_antitone_above s s' h hss

theorem nanbu_mean_decreasing_witness :
    (0.5 : ℝ) ≤ 7 ∧ ((7 : ℝ) < 0.1 ∨ (0.1 : ℝ) ≤ 0.5) ∧ meanCosChi 7 ≤ meanCosChi 0.5 :=
  ⟨by norm_num, Or.inr (by norm_num),
    nanbu_mean_decreasing 0.5 7 (by norm_num) (Or.inr (by norm_num))⟩

/-! ### Further properties of the kernel and of the sampler -/

theorem log_small_gt : -10 < Real.log 0.0001 := by
  rw [Real.lt_log_iff_exp_lt (by norm_num)]
  have h1 : (2.7 : ℝ) ≤ Real.exp 1 := by
    have := Real.exp_one_gt_d9
    linarith
  have h10 : Real.exp 10 = Real.exp 1 ^ 10 := by
    rw [← Real.exp_nat_mul]; norm_num
  have h2 : (10000 : ℝ) < Real.exp 10 := by
    rw [h10]
    calc (10000 : ℝ) < 2.7 ^ 10 := by norm_num
      _ ≤ Real.exp 1 ^ 10 := pow_le_pow_left₀ (by norm_num) h1 10
  rw [Real.exp_neg]
  rw [inv_lt_comm₀ (Real.exp_pos _) (by norm_num)]
  norm_num
  linarith

/-- C24 (small-angle clamp): for `0 ≤ s < 0.1` and a draw `U` in `[0, 1]` the value of
`cos_chi` is strictly positive and at most 1; the floor of `U` at `1e-4` keeps `s ln U`
above `0.1 ln(1e-4)`, which is larger than `-1`. -/
theorem small_angle_clamp (s U : ℝ) (hs0 : 0 ≤ s) (hs : s < 0.1) (hU0 : 0 ≤ U) (hU1 : U ≤ 1) :
    0 < cos_chi s U ∧ cos_chi s U ≤ 1 ∧
      0.1 * Real.log 0.0001 ≤ s * Real.log (if U < 0.0001 then 0.0001 else U) ∧
      -1 < 0.1 * Real.log 0.0001 := by
  have hgt := log_small_gt
  have hlog0 : Real.log 0.0001 ≤ 0 := Real.log_nonpos (by norm_num) (by norm_num)
  have hfl : Real.log 0.0001 ≤ Real.log (if U < 0.0001 then 0.0001 else U) ∧
      Real.log (if U < 0.0001 then 0.0001 else U) ≤ 0 := by
    split_ifs with h
    · exact ⟨le_refl _, hlog0⟩
    · push_neg at h
      exact ⟨Real.log_le_log (by norm_num) h, Real.log_nonpos hU0 hU1⟩
  have hcos : cos_chi s U = 1 + s * Real.log (if U < 0.0001 then 0.0001 else U) := by
    unfold cos_chi
    rw [if_pos hs]
  rw [hcos]
  refine ⟨?_, ?_, ?_, ?_⟩
  · nlinarith [hfl.1, hfl.2]
  · nlinarith [hfl.1, hfl.2]
  · nlinarith [hfl.1, hfl.2]
  · linarith

theorem small_angle_clamp_witness :
    0 < cos_chi 0.05 0 ∧ cos_chi 0.05 0 ≤ 1 ∧
      0.1 * Real.log 0.0001 ≤ 0.05 * Real.log (if (0 : ℝ) < 0.0001 then 0.0001 else 0) ∧
      -1 < 0.1 * Real.log 0.0001 :=
  small_angle_clamp 0.05 0 (by norm_num) (by norm_num) (by norm_num) (by norm_num)

/-- C29 (the COM velocity is subluminal): for all momenta and all positive masses,
`COM_vsquare` is `|m12 p1 + p2|² / (m12 γ1 + γ2)²` and is strictly less than 1, so that
`1 - COM_vsquare > 0` and `COM_gamma`, its power `-1/2`, is `1 / sqrt(1 - COM_vsquare)` and
at least 1. -/
theorem com_velocity_subluminal (m1 m2 : ℝ) (p1 p2 : Vec3) (h1 : 0 < m1) (h2 : 0 < m2) :
    COM_vsquare m1 m2 p1 p2 =
        ((m12 m1 m2 * p1.x + p2.x) ^ 2 + (m12 m1 m2 * p1.y + p2.y) ^ 2 +
          (m12 m1 m2 * p1.z + p2.z) ^ 2) / (m12 m1 m2 * gammaOf p1 + gammaOf p2) ^ 2 ∧
      COM_vsquare m1 m2 p1 p2 < 1 ∧ 0 < 1 - COM_vsquare m1 m2 p1 p2 ∧
      COM_gamma m1 m2 p1 p2 = 1 / Real.sqrt (1 - COM_vsquare m1 m2 p1 p2) ∧
      1 ≤ COM_gamma m1 m2 p1 p2 := by
  have hlt := COM_vsquare_lt_one m1 m2 p1 p2 h1 h2
  refine ⟨?_, hlt, by linarith, COM_gamma_eq m1 m2 p1 p2 h1 h2,
    COM_gamma_ge_one m1 m2 p1 p2 h1 h2⟩
  have hg := gamma12_pos m1 m2 p1 p2 h1 h2
  unfold gamma12 at hg
  unfold COM_vsquare COM_v gamma12_inv gamma12
  field_simp
  ring

theorem com_velocity_subluminal_witness :
    COM_vsquare 1 2 ⟨3, 0, 0⟩ ⟨0, -4, 0⟩ =
        ((m12 1 2 * 3 + 0) ^ 2 + (m12 1 2 * 0 + -4) ^ 2 + (m12 1 2 * 0 + 0) ^ 2) /
          (m12 1 2 * gammaOf ⟨3, 0, 0⟩ + gammaOf ⟨0, -4, 0⟩) ^ 2 ∧
      COM_vsquare 1 2 ⟨3, 0, 0⟩ ⟨0, -4, 0⟩ < 1 ∧ 0 < 1 - COM_vsquare 1 2 ⟨3, 0, 0⟩ ⟨0, -4, 0⟩ ∧
      COM_gamma 1 2 ⟨3, 0, 0⟩ ⟨0, -4, 0⟩ =
        1 / Real.sqrt (1 - COM_vsquare 1 2 ⟨3, 0, 0⟩ ⟨0, -4, 0⟩) ∧
      1 ≤ COM_gamma 1 2 ⟨3, 0, 0⟩ ⟨0, -4, 0⟩ :=
  com_velocity_subluminal 1 2 ⟨3, 0, 0⟩ ⟨0, -4, 0⟩ (by norm_num) (by norm_num)

/-- In the standard branch of the deflection the new vector makes the angle `χ` with the
old one. -/
theorem deflect_dot (pc : Vec3) (p cosX phi : ℝ)
    (hbr : Real.sqrt (pc.x * pc.x + pc.y * pc.y) > 1.e-10 * p) (hp0 : 0 ≤ p) :
    (deflect pc p cosX phi).dot pc = pc.dot pc * cosX := by
  have hpp : Real.sqrt (pc.x * pc.x + pc.y * pc.y) ^ 2 = pc.x * pc.x + pc.y * pc.y :=
    Real.sq_sqrt (by nlinarith [sq_nonneg pc.x, sq_nonneg pc.y])
  have hne : Real.sqrt (pc.x * pc.x + pc.y * pc.y) ≠ 0 := by
    have : 0 ≤ 1.e-10 * p := by positivity
    exact (lt_of_le_of_lt this hbr).ne'
  unfold deflect
  simp only
  rw [if_pos hbr]
  unfold Vec3.dot
  simp only
  field_simp
  generalize Real.sqrt (pc.x * pc.x + pc.y * pc.y) = pp at *
  generalize Real.sqrt (1 - cosX * cosX) = sx at *
  generalize Real.cos phi = cp at *
  generalize Real.sin phi = sp at *
  linear_combination (-(pc.z * sx * cp)) * hpp

/-- C25 (the deflection is a rotation of `p_COM`): for every COM momentum `pc`, with
`p = sqrt(pc·pc)`, every `cosX` in `[-1, 1]` (`sinX = sqrt(1 - cosX²)`) and every `phi`, the
new vector has the norm of the old one in both branches, and in the standard branch
(`p_perp > 1e-10 p`) its scalar product with the old one is `|pc|² cosX`. -/
theorem deflection_is_rotation (pc : Vec3) (cosX phi : ℝ) (hc1 : -1 ≤ cosX) (hc2 : cosX ≤ 1) :
    (deflect pc (Real.sqrt (pc.dot pc)) cosX phi).dot
        (deflect pc (Real.sqrt (pc.dot pc)) cosX phi) = pc.dot pc ∧
      Real.sqrt ((deflect pc (Real.sqrt (pc.dot pc)) cosX phi).dot
        (deflect pc (Real.sqrt (pc.dot pc)) cosX phi)) = Real.sqrt (pc.dot pc) ∧
      (Real.sqrt (pc.x * pc.x + pc.y * pc.y) > 1.e-10 * Real.sqrt (pc.dot pc) →
        (deflect pc (Real.sqrt (pc.dot pc)) cosX phi).dot pc = pc.dot pc * cosX) := by
  have hn := deflect_norm pc (Real.sqrt (pc.dot pc)) cosX phi rfl hc1 hc2
  refine ⟨hn, by rw [hn], ?_⟩
  intro hbr
  exact deflect_dot pc _ cosX phi hbr (Real.sqrt_nonneg _)

theorem deflection_is_rotation_witness :
    (deflect ⟨3, 4, 12⟩ (Real.sqrt ((⟨3, 4, 12⟩ : Vec3).dot ⟨3, 4, 12⟩)) (1 / 2) 1).dot
        (deflect ⟨3, 4, 12⟩ (Real.sqrt ((⟨3, 4, 12⟩ : Vec3).dot ⟨3, 4, 12⟩)) (1 / 2) 1) =
          (⟨3, 4, 12⟩ : Vec3).dot ⟨3, 4, 12⟩ ∧
      Real.sqrt ((deflect ⟨3, 4, 12⟩ (Real.sqrt ((⟨3, 4, 12⟩ : Vec3).dot ⟨3, 4, 12⟩))
          (1 / 2) 1).dot
        (deflect ⟨3, 4, 12⟩ (Real.sqrt ((⟨3, 4, 12⟩ : Vec3).dot ⟨3, 4, 12⟩)) (1 / 2) 1)) =
          Real.sqrt ((⟨3, 4, 12⟩ : Vec3).dot ⟨3, 4, 12⟩) ∧
      (Real.sqrt ((3 : ℝ) * 3 + 4 * 4) > 1.e-10 * Real.sqrt ((⟨3, 4, 12⟩ : Vec3).dot ⟨3, 4, 12⟩) →
        (deflect ⟨3, 4, 12⟩ (Real.sqrt ((⟨3, 4, 12⟩ : Vec3).dot ⟨3, 4, 12⟩)) (1 / 2) 1).dot
          ⟨3, 4, 12⟩ = (⟨3, 4, 12⟩ : Vec3).dot ⟨3, 4, 12⟩ * (1 / 2)) :=
  deflection_is_rotation ⟨3, 4, 12⟩ (1 / 2) 1 (by norm_num) (by norm_num)

/-! ### Decoding of the flat indices -/

theorem decodeLoop_spec (np : List Nat) (s0 idx : Nat) (h : idx < np.sum) :
    ∃ s loc, decodeLoop np s0 idx = some (s0 + s, loc) ∧ s < np.length ∧
      loc < np.getD s 0 ∧ idx = (np.take s).sum + loc := by
  induction np generalizing s0 idx with
  | nil => simp at h
  | cons n rest ih =>
    unfold decodeLoop
    by_cases hge : idx ≥ n
    · rw [if_pos hge]
      have h2 : idx - n < rest.sum := by
        simp only [List.sum_cons] at h
        omega
      obtain ⟨s, loc, h1, h3, h4, h5⟩ := ih (s0 + 1) (idx - n) h2
      refine ⟨s + 1, loc, ?_, ?_, ?_, ?_⟩
      · rw [h1]
        congr 2
        omega
      · simp only [List.length_cons]
        omega
      · simpa using h4
      · simp only [List.take_succ_cons, List.sum_cons]
        omega
    · rw [if_neg hge]
      refine ⟨0, idx, rfl, ?_, ?_, ?_⟩
      · simp
      · simp only [List.getD_cons_zero]
        omega
      · simp

theorem decodeLoop_eq_prefixSum (np : List Nat) (s0 off idx : Nat) (h : off ≤ idx) :
    decodeLoop np s0 (idx - off) = prefixSumDecode np s0 off idx := by
  induction np generalizing s0 off with
  | nil => rfl
  | cons n rest ih =>
    unfold decodeLoop prefixSumDecode
    by_cases hlt : idx < off + n
    · rw [if_pos hlt, if_neg (by omega)]
    · rw [if_neg hlt, if_pos (by omega)]
      rw [← ih (s0 + 1) (off + n) (by omega)]
      congr 1
      omega

/-- C23 (index decoding): for every list `np` of particle counts and every flat index
`idx < sum np`, the loop of repeated subtraction ends inside `np`, at a species `ispec` and a
local index `loc < np[ispec]` with `idx = np[0] + ... + np[ispec-1] + loc`; this is the result
of the prefix-sum decoding, and two flat indices below `sum np` with the same decoding (the
same species and particle index, whatever the offsets `bmin`) are equal. -/
theorem index_decoding (np bmin : List Nat) (idx : Nat) (h : idx < np.sum) :
    (∃ ispec loc, decodeLoop np 0 idx = some (ispec, loc) ∧ ispec < np.length ∧
      loc < np.getD ispec 0 ∧ idx = (np.take ispec).sum + loc ∧
      findParticle np bmin idx = some (ispec, loc + bmin.getD ispec 0)) ∧
    decodeLoop np 0 idx = prefixSumDecode np 0 0 idx ∧
    (∀ idx2, idx2 < np.sum → findParticle np bmin idx2 = findParticle np bmin idx →
      idx2 = idx) := by
  obtain ⟨s, loc, h1, h2, h3, h4⟩ := decodeLoop_spec np 0 idx h
  rw [Nat.zero_add] at h1
  refine ⟨⟨s, loc, h1, h2, h3, h4, ?_⟩, ?_, ?_⟩
  · unfold findParticle
    rw [h1]
    rfl
  · exact decodeLoop_eq_prefixSum np 0 0 idx (Nat.zero_le _)
  · intro idx2 hlt heq
    obtain ⟨s2, loc2, g1, _, _, g4⟩ := decodeLoop_spec np 0 idx2 hlt
    rw [Nat.zero_add] at g1
    unfold findParticle at heq
    rw [h1, g1] at heq
    simp only [Option.map_some', Option.some.injEq, Prod.mk.injEq] at heq
    obtain ⟨hs, hl⟩ := heq
    subst hs
    have : loc2 = loc := by omega
    omega

theorem index_decoding_witness :
    (∃ ispec loc, decodeLoop [2, 0, 3] 0 3 = some (ispec, loc) ∧ ispec < [2, 0, 3].length ∧
      loc < [2, 0, 3].getD ispec 0 ∧ 3 = ([2, 0, 3].take ispec).sum + loc ∧
      findParticle [2, 0, 3] [10, 20, 30] 3 = some (ispec, loc + [10, 20, 30].getD ispec 0)) ∧
    decodeLoop [2, 0, 3] 0 3 = prefixSumDecode [2, 0, 3] 0 0 3 ∧
    (∀ idx2, idx2 < [2, 0, 3].sum →
      findParticle [2, 0, 3] [10, 20, 30] idx2 = findParticle [2, 0, 3] [10, 20, 30] 3 →
      idx2 = 3) :=
  index_decoding [2, 0, 3] [10, 20, 30] 3 (by decide)

/-! ### Pairs inside one group -/

theorem perm_getD_inj (n : Nat) (sh : List Nat) (hsh : sh.Perm (List.range n)) (a b : Nat)
    (ha : a < n) (hb : b < n) (h : sh.getD a 0 = sh.getD b 0) : a = b := by
  have hlen : sh.length = n := by rw [hsh.length_eq, List.length_range]
  have hnd : sh.Nodup := hsh.nodup_iff.mpr (List.nodup_range n)
  have ha2 : a < sh.length := by omega
  have hb2 : b < sh.length := by omega
  have ea : sh.getD a 0 = sh[a] := List.getD_eq_getElem sh 0 ha2
  have eb : sh.getD b 0 = sh[b] := List.getD_eq_getElem sh 0 hb2
  rw [ea, eb] at h
  exact (hnd.getElem_inj_iff).mp h

theorem intra_pair_entries (n : Nat) (sh : List Nat) (hlen : sh.length = n) (i : Nat)
    (hi : i < ceilHalf n) :
    (buildPairs true n n sh).index1.getD i 0 = sh.getD i 0 ∧
    (buildPairs true n n sh).index2.getD i 0 = sh.getD ((i + ceilHalf n) % n) 0 := by
  rw [buildPairs_intra]
  simp only
  have hc : ceilHalf n = n / 2 + n % 2 := rfl
  constructor
  · rw [List.getD_eq_getElem _ 0 (by rw [List.length_take]; omega),
      List.getD_eq_getElem _ 0 (by omega), List.getElem_take]
  · rw [List.getD_eq_getElem _ 0 (by simpa using hi)]
    simp

/-- C28 (self-pairing inside one group): when the group holds `n ≥ 2` particles of the bin,
whatever the shuffle, no pair couples a particle with itself; when it holds one particle,
one pair is formed and it couples the particle with itself. -/
theorem intra_self_pairing (n : Nat) (sh : List Nat) (hsh : sh.Perm (List.range n)) :
    (2 ≤ n → ∀ i, i < (buildPairs true n n sh).npairs →
      (buildPairs true n n sh).index1.getD i 0 ≠ (buildPairs true n n sh).index2.getD i 0) ∧
    (n = 1 → (buildPairs true n n sh).npairs = 1 ∧
      (buildPairs true n n sh).index1.getD 0 0 = (buildPairs true n n sh).index2.getD 0 0) := by
  have hlen : sh.length = n := by rw [hsh.length_eq, List.length_range]
  have hnp : (buildPairs true n n sh).npairs = ceilHalf n := by rw [buildPairs_intra]
  have hc : ceilHalf n = n / 2 + n % 2 := rfl
  constructor
  · intro hn i hi heq
    rw [hnp] at hi
    obtain ⟨e1, e2⟩ := intra_pair_entries n sh hlen i hi
    rw [e1, e2] at heq
    have hmod : (i + ceilHalf n) % n < n := Nat.mod_lt _ (by omega)
    have := perm_getD_inj n sh hsh i ((i + ceilHalf n) % n) (by omega) hmod heq
    by_cases hlt : i + ceilHalf n < n
    · rw [Nat.mod_eq_of_lt hlt] at this
      omega
    · rw [Nat.mod_eq_sub_mod (by omega), Nat.mod_eq_of_lt (by omega)] at this
      omega
  · intro h1
    subst h1
    have h0 : 0 < ceilHalf 1 := by decide
    obtain ⟨e1, e2⟩ := intra_pair_entries 1 sh hlen 0 h0
    refine ⟨by rw [hnp]; rfl, ?_⟩
    rw [e1, e2]
    simp [Nat.mod_one]

theorem intra_self_pairing_witness :
    (2 ≤ 3 → ∀ i, i < (buildPairs true 3 3 [2, 0, 1]).npairs →
      (buildPairs true 3 3 [2, 0, 1]).index1.getD i 0 ≠
        (buildPairs true 3 3 [2, 0, 1]).index2.getD i 0) ∧
    (3 = 1 → (buildPairs true 3 3 [2, 0, 1]).npairs = 1 ∧
      (buildPairs true 3 3 [2, 0, 1]).index1.getD 0 0 =
        (buildPairs true 3 3 [2, 0, 1]).index2.getD 0 0) :=
  intra_self_pairing 3 [2, 0, 1] (by decide)

/-! ### Collision parameter -/

theorem logL_pos (coulomb_log debye2 omega m1 m2 q1 q2 : ℝ) (p1 p2 : Vec3) :
    0 < logL coulomb_log debye2 omega m1 m2 q1 q2 p1 p2 := by
  unfold logL
  by_cases h1 : coulomb_log ≤ 0
  · rw [if_pos h1]
    simp only
    split_ifs with h2
    · norm_num
    · push_neg at h2
      linarith
  · rw [if_neg h1]
    exact not_le.mp h1

theorem coeff2_pos (omega : ℝ) (ho : 0 < omega) : 0 < coeff2 omega := by
  unfold coeff2
  positivity

theorem term3_pos (m1 m2 : ℝ) (p1 p2 : Vec3) (h1 : 0 < m1) (h2 : 0 < m2) :
    0 < term3 m1 m2 p1 p2 := by
  unfold term3 gamma12_inv
  have := COM_gamma_pos m1 m2 p1 p2 h1 h2
  have := gamma12_pos m1 m2 p1 p2 h1 h2
  positivity

theorem term4_pos (m1 m2 : ℝ) (p1 p2 : Vec3) (h1 : 0 < m1) (h2 : 0 < m2) :
    0 < term4 m1 m2 p1 p2 := by
  unfold term4
  exact mul_pos (gamma1_COM_pos m1 m2 p1 p2 h1 h2) (gamma2_COM_pos m1 m2 p1 p2 h1 h2)

theorem s_raw_nonneg (L omega timestep n1 n2 n12 m1 m2 q1 q2 : ℝ) (p1 p2 : Vec3)
    (hL : 0 < L) (h1 : 0 < m1) (h2 : 0 < m2) (ht : 0 < timestep) (ho : 0 < omega)
    (hn1 : 0 < n1) (hn2 : 0 < n2) (hn12 : 0 < n12) :
    0 ≤ s_raw L omega timestep n1 n2 n12 m1 m2 q1 q2 p1 p2 := by
  have hc2 := coeff2_pos omega ho
  have ht3 := term3_pos m1 m2 p1 p2 h1 h2
  have hp : 0 ≤ p_COM m1 m2 p1 p2 := Real.sqrt_nonneg _
  have hg1 := gammaOf_pos p1
  have hg2 := gammaOf_pos p2
  have hc3 : 0 < coeff3 omega timestep n1 n2 n12 := by
    unfold coeff3 coeff3_0
    positivity
  have hq : 0 ≤ qqm m1 q1 q2 * qqm m1 q1 q2 := mul_self_nonneg _
  have e : s_raw L omega timestep n1 n2 n12 m1 m2 q1 q2 p1 p2 =
      coeff3 omega timestep n1 n2 n12 * L * (qqm m1 q1 q2 * qqm m1 q1 q2) * term3 m1 m2 p1 p2 *
        p_COM m1 m2 p1 p2 * (term5 m1 m2 p1 p2 * term5 m1 m2 p1 p2) /
          (gammaOf p1 * gammaOf p2) := by
    unfold s_raw; ring
  rw [e]
  have := mul_self_nonneg (term5 m1 m2 p1 p2)
  positivity

theorem smax_nonneg (omega timestep n1 n2 n12 m1 m2 : ℝ) (p1 p2 : Vec3)
    (h1 : 0 < m1) (h2 : 0 < m2) (ht : 0 < timestep) (ho : 0 < omega)
    (hn1 : 0 < n1) (hn2 : 0 < n2) (hn12 : 0 < n12) :
    0 ≤ smax omega timestep n1 n2 n12 m1 m2 p1 p2 := by
  have hc2 := coeff2_pos omega ho
  have ht3 := term3_pos m1 m2 p1 p2 h1 h2
  have ht4 := term4_pos m1 m2 p1 p2 h1 h2
  have hm := m12_pos m1 m2 h1 h2
  have hp : 0 ≤ p_COM m1 m2 p1 p2 := Real.sqrt_nonneg _
  have hc4 : 0 < coeff4 omega timestep n1 n2 n12 := by
    unfold coeff4 coeff3_0
    have : 0 < (3 * coeff2 omega) ^ (-1 / 3 : ℝ) := Real.rpow_pos_of_pos (by positivity) _
    positivity
  have hv : 0 ≤ vrel m1 m2 p1 p2 := by
    unfold vrel
    positivity
  have hmax : 0 < max (m12 m1 m2 * n1 ^ (2 / 3 : ℝ)) (n2 ^ (2 / 3 : ℝ)) :=
    lt_max_of_lt_right (Real.rpow_pos_of_pos hn2 _)
  unfold smax
  positivity

/-- C26 (bounds of the collision parameter): for a pair with positive masses, timestep,
reference frequency and densities, a COM velocity that is not zero and a `p_COM` that is not
zero, the value handed to `cos_chi` is `min(s_raw, smax)`, with
`s_raw = coeff3 logL qqm² term3 p_COM term5² / (γ1 γ2)` and
`smax = coeff4 (m12 + 1) v_rel / max(m12 n1^(2/3), n2^(2/3))`, `v_rel = p_COM / (term3 term4)`,
and it lies between 0 and `smax`. -/
theorem collision_strength_bounds (coulomb_log debye2 omega timestep n1 n2 n12 m1 m2 q1 q2 : ℝ)
    (p1 p2 : Vec3) (h1 : 0 < m1) (h2 : 0 < m2) (ht : 0 < timestep) (ho : 0 < omega)
    (hn1 : 0 < n1) (hn2 : 0 < n2) (hn12 : 0 < n12) (_hv : COM_vsquare m1 m2 p1 p2 ≠ 0)
    (_hp : p_COM m1 m2 p1 p2 ≠ 0) :
    collisionS coulomb_log debye2 omega timestep n1 n2 n12 m1 m2 q1 q2 p1 p2 =
        min (s_raw (logL coulomb_log debye2 omega m1 m2 q1 q2 p1 p2) omega timestep n1 n2 n12
          m1 m2 q1 q2 p1 p2) (smax omega timestep n1 n2 n12 m1 m2 p1 p2) ∧
      s_raw (logL coulomb_log debye2 omega m1 m2 q1 q2 p1 p2) omega timestep n1 n2 n12
          m1 m2 q1 q2 p1 p2 =
        (timestep * n1 * n2 / n12 * coeff2 omega) *
          logL coulomb_log debye2 omega m1 m2 q1 q2 p1 p2 * qqm m1 q1 q2 ^ 2 *
          term3 m1 m2 p1 p2 * p_COM m1 m2 p1 p2 * term5 m1 m2 p1 p2 ^ 2 /
            (gammaOf p1 * gammaOf p2) ∧
      smax omega timestep n1 n2 n12 m1 m2 p1 p2 =
        ((3 * coeff2 omega) ^ (-1 / 3 : ℝ) * (timestep * n1 * n2 / n12)) * (m12 m1 m2 + 1) *
          (p_COM m1 m2 p1 p2 / (term3 m1 m2 p1 p2 * term4 m1 m2 p1 p2)) /
            max (m12 m1 m2 * n1 ^ (2 / 3 : ℝ)) (n2 ^ (2 / 3 : ℝ)) ∧
      0 ≤ collisionS coulomb_log debye2 omega timestep n1 n2 n12 m1 m2 q1 q2 p1 p2 ∧
      collisionS coulomb_log debye2 omega timestep n1 n2 n12 m1 m2 q1 q2 p1 p2 ≤
        smax omega timestep n1 n2 n12 m1 m2 p1 p2 := by
  have hL := logL_pos coulomb_log debye2 omega m1 m2 q1 q2 p1 p2
  have hs := s_raw_nonneg (logL coulomb_log debye2 omega m1 m2 q1 q2 p1 p2) omega timestep
    n1 n2 n12 m1 m2 q1 q2 p1 p2 hL h1 h2 ht ho hn1 hn2 hn12
  have hm := smax_nonneg omega timestep n1 n2 n12 m1 m2 p1 p2 h1 h2 ht ho hn1 hn2 hn12
  have hmin : collisionS coulomb_log debye2 omega timestep n1 n2 n12 m1 m2 q1 q2 p1 p2 =
      min (s_raw (logL coulomb_log debye2 omega m1 m2 q1 q2 p1 p2) omega timestep n1 n2 n12
        m1 m2 q1 q2 p1 p2) (smax omega timestep n1 n2 n12 m1 m2 p1 p2) := by
    unfold collisionS
    simp only
    split_ifs with h
    · exact (min_eq_right h.le).symm
    · exact (min_eq_left (not_lt.mp h)).symm
  refine ⟨hmin, ?_, ?_, ?_, ?_⟩
  · unfold s_raw coeff3 coeff3_0
    ring
  · unfold smax coeff4 coeff3_0 vrel
    rw [div_div]
  · rw [hmin]
    exact le_min hs hm
  · rw [hmin]
    exact min_le_right _ _

/-- Equal masses, particle 1 with momentum `15/8` along `z`, particle 2 at rest, a fixed
Coulomb logarithm of 5. -/
theorem collision_strength_bounds_witness :
    0 ≤ collisionS 5 0 1 1 1 1 1 1 1 1 1 (nearAxisP1 0 1) atRest ∧
      collisionS 5 0 1 1 1 1 1 1 1 1 1 (nearAxisP1 0 1) atRest ≤
        smax 1 1 1 1 1 1 1 (nearAxisP1 0 1) atRest :=
  (collision_strength_bounds 5 0 1 1 1 1 1 1 1 1 1 (nearAxisP1 0 1) atRest (by norm_num)
    (by norm_num) (by norm_num) (by norm_num) (by norm_num) (by norm_num) (by norm_num)
    (by rw [(nearAxis_frame 0 1 (by norm_num)).2.1]; norm_num)
    (by rw [(nearAxis_frame 0 1 (by norm_num)).2.2.2.2.2.2]; norm_num)).2.2.2

/-! ### The division by `COM_vsquare` -/

theorem COM_vsquare_eq_zero_iff (m1 m2 : ℝ) (p1 p2 : Vec3) (h1 : 0 < m1) (h2 : 0 < m2) :
    COM_vsquare m1 m2 p1 p2 = 0 ↔
      m12 m1 m2 * p1.x + p2.x = 0 ∧ m12 m1 m2 * p1.y + p2.y = 0 ∧
        m12 m1 m2 * p1.z + p2.z = 0 := by
  obtain ⟨hx, hy, hz⟩ := COM_v_mul m1 m2 p1 p2 h1 h2
  have hg := gamma12_pos m1 m2 p1 p2 h1 h2
  constructor
  · intro h
    unfold COM_vsquare at h
    have hx0 : (COM_v m1 m2 p1 p2).x = 0 := mul_self_eq_zero.mp (by
      nlinarith [mul_self_nonneg (COM_v m1 m2 p1 p2).x, mul_self_nonneg (COM_v m1 m2 p1 p2).y,
        mul_self_nonneg (COM_v m1 m2 p1 p2).z])
    have hy0 : (COM_v m1 m2 p1 p2).y = 0 := mul_self_eq_zero.mp (by
      nlinarith [mul_self_nonneg (COM_v m1 m2 p1 p2).x, mul_self_nonneg (COM_v m1 m2 p1 p2).y,
        mul_self_nonneg (COM_v m1 m2 p1 p2).z])
    have hz0 : (COM_v m1 m2 p1 p2).z = 0 := mul_self_eq_zero.mp (by
      nlinarith [mul_self_nonneg (COM_v m1 m2 p1 p2).x, mul_self_nonneg (COM_v m1 m2 p1 p2).y,
        mul_self_nonneg (COM_v m1 m2 p1 p2).z])
    rw [hx0] at hx
    rw [hy0] at hy
    rw [hz0] at hz
    refine ⟨?_, ?_, ?_⟩ <;> linarith
  · rintro ⟨tx, ty, tz⟩
    unfold COM_vsquare COM_v
    simp only
    rw [tx, ty, tz]
    ring

theorem COM_gamma_of_vsquare_zero (m1 m2 : ℝ) (p1 p2 : Vec3)
    (h : COM_vsquare m1 m2 p1 p2 = 0) : COM_gamma m1 m2 p1 p2 - 1 = 0 := by
  unfold COM_gamma
  rw [h, sub_zero, Real.one_rpow, sub_self]

theorem term1_checked_eq_none (m1 m2 : ℝ) (p1 p2 : Vec3) :
    term1_checked m1 m2 p1 p2 = none ↔ COM_vsquare m1 m2 p1 p2 = 0 := by
  unfold term1_checked quotient
  split_ifs with h <;> simp [h]

theorem scatter_checked_of_ne (m1 m2 W1 W2 : ℝ) (p1 p2 : Vec3) (cosX phi U : ℝ)
    (h : COM_vsquare m1 m2 p1 p2 ≠ 0) :
    scatter_checked m1 m2 W1 W2 p1 p2 cosX phi U =
      (some (scatter m1 m2 W1 W2 p1 p2 cosX phi U).1,
        some (scatter m1 m2 W1 W2 p1 p2 cosX phi U).2) := by
  unfold scatter_checked term1_checked quotient
  rw [scatter_eq, if_neg h]
  simp only [Option.map_some']
  split_ifs <;> rfl

theorem scatter_checked_of_eq (m1 m2 W1 W2 : ℝ) (p1 p2 : Vec3) (cosX phi U : ℝ)
    (h : COM_vsquare m1 m2 p1 p2 = 0) (hU1 : U < W2 / W1) (hU2 : U < W1 / W2) :
    scatter_checked m1 m2 W1 W2 p1 p2 cosX phi U = (none, none) := by
  unfold scatter_checked
  rw [(term1_checked_eq_none m1 m2 p1 p2).mpr h, if_pos hU1, if_pos hU2]
  rfl

/-- C30 (division in the COM boost): for positive masses the divisor `COM_vsquare` of `term1`
is not zero exactly when the total momentum `m12 p1 + p2` is not zero, and when it is not
zero the momenta are those of `scatter`. Nothing guards the other case: for two particles
at rest, and for two particles of equal mass with opposite momenta, the divisor and the
numerator `COM_gamma - 1` are both zero, `term1` has no value, and neither has a momentum
that is written back. -/
theorem unguarded_com_division :
    (∀ m1 m2 : ℝ, ∀ p1 p2 : Vec3, 0 < m1 → 0 < m2 →
      (COM_vsquare m1 m2 p1 p2 ≠ 0 ↔
        ¬ (m12 m1 m2 * p1.x + p2.x = 0 ∧ m12 m1 m2 * p1.y + p2.y = 0 ∧
          m12 m1 m2 * p1.z + p2.z = 0))) ∧
    (∀ m1 m2 W1 W2 : ℝ, ∀ p1 p2 : Vec3, ∀ cosX phi U : ℝ, COM_vsquare m1 m2 p1 p2 ≠ 0 →
      ∃ T, term1_checked m1 m2 p1 p2 = some T ∧ T = term1 m1 m2 p1 p2 ∧
        scatter_checked m1 m2 W1 W2 p1 p2 cosX phi U =
          (some (scatter m1 m2 W1 W2 p1 p2 cosX phi U).1,
            some (scatter m1 m2 W1 W2 p1 p2 cosX phi U).2)) ∧
    (COM_vsquare 1 1 atRest atRest = 0 ∧ COM_gamma 1 1 atRest atRest - 1 = 0 ∧
      term1_checked 1 1 atRest atRest = none ∧
      scatter_checked 1 1 1 1 atRest atRest 0 0 0.5 = (none, none)) ∧
    (∀ m : ℝ, ∀ p : Vec3, 0 < m →
      COM_vsquare m m p ⟨-p.x, -p.y, -p.z⟩ = 0 ∧ COM_gamma m m p ⟨-p.x, -p.y, -p.z⟩ - 1 = 0 ∧
      term1_checked m m p ⟨-p.x, -p.y, -p.z⟩ = none ∧
      ∀ W1 W2 cosX phi U : ℝ, U < W2 / W1 → U < W1 / W2 →
        scatter_checked m m W1 W2 p ⟨-p.x, -p.y, -p.z⟩ cosX phi U = (none, none)) := by
  have hopp : ∀ m : ℝ, ∀ p : Vec3, 0 < m → COM_vsquare m m p ⟨-p.x, -p.y, -p.z⟩ = 0 := by
    intro m p hm
    rw [COM_vsquare_eq_zero_iff m m _ _ hm hm]
    have : m12 m m = 1 := by unfold m12; field_simp
    rw [this]
    simp
  have hrest : COM_vsquare 1 1 atRest atRest = 0 := by
    rw [COM_vsquare_eq_zero_iff 1 1 _ _ (by norm_num) (by norm_num)]
    simp [atRest]
  refine ⟨?_, ?_, ⟨hrest, COM_gamma_of_vsquare_zero _ _ _ _ hrest,
    (term1_checked_eq_none _ _ _ _).mpr hrest, ?_⟩, ?_⟩
  · intro m1 m2 p1 p2 h1 h2
    rw [Ne, COM_vsquare_eq_zero_iff m1 m2 p1 p2 h1 h2]
  · intro m1 m2 W1 W2 p1 p2 cosX phi U h
    refine ⟨term1 m1 m2 p1 p2, ?_, rfl, scatter_checked_of_ne m1 m2 W1 W2 p1 p2 cosX phi U h⟩
    unfold term1_checked quotient term1
    rw [if_neg h]
  · exact scatter_checked_of_eq 1 1 1 1 atRest atRest 0 0 0.5 hrest (by norm_num) (by norm_num)
  · intro m p hm
    refine ⟨hopp m p hm, COM_gamma_of_vsquare_zero _ _ _ _ (hopp m p hm),
      (term1_checked_eq_none _ _ _ _).mpr (hopp m p hm), ?_⟩
    intro W1 W2 cosX phi U hU1 hU2
    exact scatter_checked_of_eq m m W1 W2 p _ cosX phi U (hopp m p hm) hU1 hU2

/-! ### Bins with a zero Debye length -/

theorem foldl_debugPair (pairs : List (ℝ × ℝ)) (acc : DebugSums) :
    pairs.foldl debugPair acc =
      { smean := acc.smean + (pairs.map Prod.fst).sum
        logLmean := acc.logLmean + (pairs.map Prod.snd).sum
        ncol := acc.ncol } := by
  induction pairs generalizing acc with
  | nil => simp
  | cons p rest ih =>
    rw [List.foldl_cons, ih]
    simp only [debugPair, List.map_cons, List.sum_cons]
    congr 1 <;> ring

theorem foldl_debugBin (bins : List (Option (List (ℝ × ℝ)))) (acc : DebugSums) :
    bins.foldl debugBin acc =
      { smean := acc.smean + ((allPairs bins).map Prod.fst).sum
        logLmean := acc.logLmean + ((allPairs bins).map Prod.snd).sum
        ncol := acc.ncol + (totalPairs bins : ℝ) } := by
  induction bins generalizing acc with
  | nil => simp [allPairs, totalPairs]
  | cons b rest ih =>
    rw [List.foldl_cons, ih]
    cases b with
    | none => simp [debugBin, allPairs, totalPairs]
    | some pairs =>
      simp only [debugBin, foldl_debugPair, allPairs, totalPairs, List.filterMap_cons, id,
        List.flatten_cons, List.map_append, List.sum_append, List.map_cons, List.sum_cons,
        Nat.cast_add]
      congr 1 <;> ring

theorem totalPairs_eq_length (bins : List (Option (List (ℝ × ℝ)))) :
    totalPairs bins = (allPairs bins).length := by
  unfold totalPairs allPairs
  rw [List.length_flatten]

theorem map_sqrt_getD_range (l : List ℝ) :
    (List.range l.length).map (fun i => Real.sqrt (l.getD i 0)) = l.map Real.sqrt := by
  apply List.ext_getElem
  · simp
  · intro i h1 h2
    simp at h1
    simp [List.getD_eq_getElem?_getD, List.getElem?_eq_getElem h1]

theorem dmean_eq (omega : ℝ) (debye : List ℝ) (h : debye ≠ []) :
    dmean omega debye.length debye =
      some (299792458 / omega * ((debye.map Real.sqrt).sum / (debye.length : ℝ))) := by
  unfold dmean
  have hl : debye.length > 0 := List.length_pos.mpr h
  rw [if_pos hl]
  rw [map_sqrt_getD_range]
  congr 1
  ring

/-- Counterexample to C22 as stated: with one bin, `debye_length_squared = [1]` and a
reference frequency of `1e15`, the mean over the bins of `sqrt(debye_length_squared)` is 1
but the value written to `debyelength` is `299792458 / 1e15`. -/
theorem debyelength_written_in_metres :
    isDebugStep 1 0 = true ∧
    (collideDebug 1 0 1e15 1 [1] [none]).map (fun o => o.debyelength) =
      some (some (299792458 / 1e15)) ∧
    (([1] : List ℝ).map Real.sqrt).sum / 1 = 1 ∧
    (299792458 / 1e15 : ℝ) ≠ 1 := by
  refine ⟨by decide, ?_, by simp, by norm_num⟩
  unfold collideDebug
  rw [if_pos (by decide)]
  simp only [Option.map_some']
  have h := dmean_eq 1e15 [1] (by simp)
  simp only [List.length_singleton, List.map_cons, List.map_nil, List.sum_cons, List.sum_nil,
    Real.sqrt_one, add_zero, Nat.cast_one, div_one, mul_one] at h
  rw [h]

/-- C22 (amended): on a debug step `collide` writes `<s>` = (sum of `s` over all the pairs
of all the bins) / totalPairs and `<logΛ>` = (sum of `logL` over them) / totalPairs, with
totalPairs the sum over the bins of `npairs` (both are 0 when no pair was collided), and,
if `debye_length_squared` was computed, the mean over the bins of
`sqrt(debye_length_squared[bin])` multiplied by `c / referenceAngularFrequency_SI`, that is
in metres; on another timestep it writes nothing. -/
theorem debug_statistics (debug_every itime : Int) (omega : ℝ) (debye : List ℝ)
    (bins : List (Option (List (ℝ × ℝ)))) :
    (isDebugStep debug_every itime = false →
      collideDebug debug_every itime omega debye.length debye bins = none) ∧
    (isDebugStep debug_every itime = true →
      ∃ out, collideDebug debug_every itime omega debye.length debye bins = some out ∧
        out.s = ((allPairs bins).map Prod.fst).sum / (totalPairs bins : ℝ) ∧
        out.coulomb_log = ((allPairs bins).map Prod.snd).sum / (totalPairs bins : ℝ) ∧
        (totalPairs bins = 0 → out.s = 0 ∧ out.coulomb_log = 0) ∧
        (debye = [] → out.debyelength = none) ∧
        (debye ≠ [] → out.debyelength =
          some (299792458 / omega * ((debye.map Real.sqrt).sum / (debye.length : ℝ))))) := by
  constructor
  · intro h
    unfold collideDebug
    rw [h]
    rfl
  · intro h
    unfold collideDebug
    rw [h, if_pos rfl, foldl_debugBin]
    simp only [zero_add]
    refine ⟨_, rfl, ?_, ?_, ?_, ?_, ?_⟩
    · by_cases hn : (totalPairs bins : ℝ) > 0
      · rw [if_pos hn]
      · rw [if_neg hn]
        have h0 : (totalPairs bins : ℝ) = 0 :=
          le_antisymm (not_lt.mp hn) (Nat.cast_nonneg _)
        have hl : allPairs bins = [] := by
          apply List.eq_nil_of_length_eq_zero
          rw [← totalPairs_eq_length]
          exact_mod_cast h0
        rw [h0, hl]
        simp
    · by_cases hn : (totalPairs bins : ℝ) > 0
      · rw [if_pos hn]
      · rw [if_neg hn]
        have h0 : (totalPairs bins : ℝ) = 0 :=
          le_antisymm (not_lt.mp hn) (Nat.cast_nonneg _)
        have hl : allPairs bins = [] := by
          apply List.eq_nil_of_length_eq_zero
          rw [← totalPairs_eq_length]
          exact_mod_cast h0
        rw [h0, hl]
        simp
    · intro h0
      have hl : allPairs bins = [] := by
        apply List.eq_nil_of_length_eq_zero
        rw [← totalPairs_eq_length]
        exact h0
      rw [h0, hl]
      simp
    · intro hd
      rw [hd]
      simp [dmean]
    · intro hd
      exact dmean_eq omega debye hd

/-! ### Debug steps and the name of their group -/

theorem isDebugStep_iff (debug_every itime : Int) :
    isDebugStep debug_every itime = true ↔ 0 < debug_every ∧ itime % debug_every = 0 := by
  unfold isDebugStep
  rw [decide_eq_true_iff]
  constructor
  · rintro ⟨h1, h2⟩
    refine ⟨h1, ?_⟩
    exact Int.emod_eq_zero_of_dvd (Int.dvd_of_tmod_eq_zero h2)
  · rintro ⟨h1, h2⟩
    refine ⟨h1, ?_⟩
    exact Int.tmod_eq_zero_of_dvd (Int.dvd_of_emod_eq_zero h2)

theorem digits_padded (k n : Nat) (h : n < 10 ^ k) :
    Nat.digits 10 n ++ List.replicate (k - (Nat.digits 10 n).length) 0 =
      (List.range k).map (fun j => n / 10 ^ j % 10) := by
  induction k generalizing n with
  | zero =>
    have : n = 0 := by simpa using h
    subst this
    simp
  | succ k ih =>
    rcases Nat.eq_zero_or_pos n with h0 | hpos
    · subst h0
      simp only [Nat.digits_zero, List.length_nil, Nat.sub_zero, List.nil_append,
        Nat.zero_div, Nat.zero_mod]
      apply List.ext_getElem
      · simp
      · intro i h1 h2
        simp
    · have hd : n / 10 < 10 ^ k := by
        rw [Nat.div_lt_iff_lt_mul (by norm_num)]
        rw [pow_succ] at h
        exact h
      rw [Nat.digits_def' (by norm_num) hpos, List.range_succ_eq_map, List.map_cons,
        List.map_map]
      simp only [List.cons_append, List.length_cons, Nat.succ_sub_succ, pow_zero, Nat.div_one]
      rw [ih (n / 10) hd]
      congr 1
      apply List.map_congr_left
      intro j _
      simp only [Function.comp, pow_succ, Nat.div_div_eq_div_mul]
      rw [Nat.mul_comm]

theorem setw_decimal (n : Nat) (h : n < 10 ^ 8) :
    setw 8 '0' (decimal n) =
      (((List.range 8).map (fun j => n / 10 ^ j % 10)).reverse).map Nat.digitChar := by
  rw [← digits_padded 8 n h]
  rcases Nat.eq_zero_or_pos n with h0 | hpos
  · subst h0
    simp [setw, decimal]
    decide
  · unfold decimal setw
    rw [if_neg (by omega)]
    simp only [List.length_map, List.length_reverse, List.reverse_append, List.reverse_replicate,
      List.map_append, List.map_replicate]
    rfl

theorem timestepName_eq (n : Nat) (h : n < 10 ^ 8) : timestepName (n : Int) = paddedName n := by
  unfold timestepName intChars paddedName
  rw [if_neg (by omega), Int.toNat_ofNat, setw_decimal n h]
  simp [List.range_succ]

theorem digitChar_inj : ∀ a, a < 10 → ∀ b, b < 10 →
    Nat.digitChar a = Nat.digitChar b → a = b := by
  decide

theorem paddedName_inj (n m : Nat) (hn : n < 10 ^ 8) (hm : m < 10 ^ 8)
    (h : paddedName n = paddedName m) : n = m := by
  unfold paddedName at h
  have h := congrArg String.data h
  simp only [List.cons.injEq, and_true, true_and] at h
  obtain ⟨h7, h6, h5, h4, h3, h2, h1, h0⟩ := h
  have e7 := digitChar_inj _ (Nat.mod_lt _ (by norm_num)) _ (Nat.mod_lt _ (by norm_num)) h7
  have e6 := digitChar_inj _ (Nat.mod_lt _ (by norm_num)) _ (Nat.mod_lt _ (by norm_num)) h6
  have e5 := digitChar_inj _ (Nat.mod_lt _ (by norm_num)) _ (Nat.mod_lt _ (by norm_num)) h5
  have e4 := digitChar_inj _ (Nat.mod_lt _ (by norm_num)) _ (Nat.mod_lt _ (by norm_num)) h4
  have e3 := digitChar_inj _ (Nat.mod_lt _ (by norm_num)) _ (Nat.mod_lt _ (by norm_num)) h3
  have e2 := digitChar_inj _ (Nat.mod_lt _ (by norm_num)) _ (Nat.mod_lt _ (by norm_num)) h2
  have e1 := digitChar_inj _ (Nat.mod_lt _ (by norm_num)) _ (Nat.mod_lt _ (by norm_num)) h1
  have e0 := digitChar_inj _ (Nat.mod_lt _ (by norm_num)) _ (Nat.mod_lt _ (by norm_num)) h0
  norm_num at hn hm
  omega

/-- C21 (debug cadence and name of the group): a timestep is a debug step exactly when
`debug_every > 0` and `itime mod debug_every = 0`; on those timesteps, and on no other,
`createTimestep` creates a group and `collide` opens one, under the same name; for
`0 ≤ itime < 10^8` the name is the letter `t` followed by the eight decimal digits of
`itime` (nine characters), and two such timesteps with the same name are equal. -/
theorem debug_cadence_and_name (debug_every itime itime2 : Int) (h0 : 0 ≤ itime)
    (h8 : itime < 10 ^ 8) (h02 : 0 ≤ itime2) (h82 : itime2 < 10 ^ 8) :
    (isDebugStep debug_every itime = true ↔ 0 < debug_every ∧ itime % debug_every = 0) ∧
    (isDebugStep debug_every itime = true →
      createTimestep debug_every itime = some (timestepName itime) ∧
      collideGroup debug_every itime = some (timestepName itime)) ∧
    (isDebugStep debug_every itime = false →
      createTimestep debug_every itime = none ∧ collideGroup debug_every itime = none) ∧
    collideGroup debug_every itime = createTimestep debug_every itime ∧
    timestepName itime = paddedName itime.toNat ∧
    (timestepName itime).length = 9 ∧
    (timestepName itime = timestepName itime2 → itime = itime2) := by
  have hn : itime.toNat < 10 ^ 8 := by omega
  have hn2 : itime2.toNat < 10 ^ 8 := by omega
  have e : timestepName itime = paddedName itime.toNat := by
    have := timestepName_eq itime.toNat hn
    rwa [Int.toNat_of_nonneg h0] at this
  have e2 : timestepName itime2 = paddedName itime2.toNat := by
    have := timestepName_eq itime2.toNat hn2
    rwa [Int.toNat_of_nonneg h02] at this
  refine ⟨isDebugStep_iff debug_every itime, ?_, ?_, rfl, e, ?_, ?_⟩
  · intro h
    unfold createTimestep collideGroup
    rw [h]
    exact ⟨rfl, rfl⟩
  · intro h
    unfold createTimestep collideGroup
    rw [h]
    exact ⟨rfl, rfl⟩
  · rw [e]
    rfl
  · intro h
    rw [e, e2] at h
    have := paddedName_inj _ _ hn hn2 h
    omega

/-- Timestep 1235 with `debug_every = 5`: the group is `t00001235`. -/
theorem debug_cadence_and_name_witness :
    isDebugStep 5 1235 = true ∧ createTimestep 5 1235 = some "t00001235" ∧
      collideGroup 5 1235 = some "t00001235" ∧ timestepName 0 = "t00000000" := by
  have h := debug_cadence_and_name 5 1235 0 (by norm_num) (by norm_num) (by norm_num)
    (by norm_num)
  have hz := debug_cadence_and_name 5 0 0 (by norm_num) (by norm_num) (by norm_num)
    (by norm_num)
  have hd : isDebugStep 5 1235 = true := h.1.mpr ⟨by norm_num, by norm_num⟩
  have hname : timestepName 1235 = "t00001235" := by
    rw [h.2.2.2.2.1]
    decide
  have hname0 : timestepName 0 = "t00000000" := by
    rw [hz.2.2.2.2.1]
    decide
  refine ⟨hd, ?_, ?_, hname0⟩
  · rw [(h.2.1 hd).1, hname]
  · rw [(h.2.1 hd).2, hname]

end Smilei
